import Mathlib

set_option maxRecDepth 8000

/-!
# Verification of the Base Crédito attribute pipeline

A shallow embedding, in Lean 4, of the decision logic of the `comp_code`
repository: the spreadsheet-to-long-format extraction engine
(`bradesco_series.py`, `itau_series.py`) and the multi-source attribute
resolution pipeline (`main.py`).

Conventions used throughout:

* Python strings are modelled as Lean `String`s and are manipulated through
  their underlying `List Char`, so that every operation is structural and
  kernel-computable.  Pandas string comparison (used by `sort_values`) is
  code-point lexicographic, modelled by `strCmp` below.
* Pandas `DataFrame`s are modelled as `List`s of records (one structure per
  frame schema), in row order.  `sort_values` is modelled by the insertion
  sort `sortBy` with the corresponding lexicographic comparison (the theorems
  proved here depend only on sortedness, never on the order of ties, which
  pandas leaves unspecified); `drop_duplicates(keep="first"/"last")` is
  modelled by `dropDupFirst` / `dropDupLast`.
* Python floats are modelled by exact rationals (`ℚ`).
* Fallible operations return `Option` / `Except`.

The file is organised as: all definitions first, then all theorems.
-/

/-! ## Part I — Definitions -/

/-! ### Comparison primitives -/

/-- Three-way comparison of naturals. -/
def natCmp (a b : Nat) : Ordering :=
  if a < b then .lt else if b < a then .gt else .eq

/-- Three-way comparison of characters by code point. -/
def charCmp (a b : Char) : Ordering := natCmp a.toNat b.toNat

/-- Lexicographic extension of a three-way comparator to lists. -/
def lexCmp (cmp : α → α → Ordering) : List α → List α → Ordering
  | [], [] => .eq
  | [], _ :: _ => .lt
  | _ :: _, [] => .gt
  | a :: as, b :: bs =>
    match cmp a b with
    | .eq => lexCmp cmp as bs
    | o => o

/-- Code-point lexicographic comparison of strings (pandas string order). -/
def strCmp (s t : String) : Ordering := lexCmp charCmp s.data t.data

/-- `ordLe o` is `true` when `o` is `lt` or `eq`. -/
def ordLe (o : Ordering) : Bool :=
  match o with
  | .gt => false
  | _ => true

/-- Insert into a sorted list (helper of `sortBy`). -/
def insertSorted (le : α → α → Bool) (a : α) : List α → List α
  | [] => [a]
  | b :: l => if le a b then a :: b :: l else b :: insertSorted le a l

/-- Stable insertion sort with a boolean "less or equal".  Models
`DataFrame.sort_values`; the theorems below use only that the result is a
sorted permutation of the input. -/
def sortBy (le : α → α → Bool) : List α → List α
  | [] => []
  | a :: l => insertSorted le a (sortBy le l)

/-! ### `main.py` — data model of the resolution pipeline

`load_series_historicas` concatenates every per-bank series CSV into one
frame, sorts it ascending by `data_divulgacao`
(`df_all.sort_values(by="data_divulgacao")`) and keeps, for every
`(pagina, nom_inst, nom_atbt, data_base)` group, the last row of the sorted
frame (`drop_duplicates(subset=[...], keep="last")`).
-/

/-- One row of a per-bank series CSV (the schema of the frames concatenated
by `load_series_historicas` in `main.py`). -/
structure SerReg where
  pagina : String
  nom_inst : String
  nom_atbt : String
  data_base : String
  data_base_original : String
  vlr_atbt : ℚ
  data_divulgacao : String
deriving DecidableEq

/-- The `drop_duplicates` subset key of `load_series_historicas`. -/
def serKey (r : SerReg) : List String :=
  [r.pagina, r.nom_inst, r.nom_atbt, r.data_base]

/-- Row comparison used by `sort_values(by="data_divulgacao")`: code-point
order on the release-date strings. -/
def leDivulg (a b : SerReg) : Bool := ordLe (strCmp a.data_divulgacao b.data_divulgacao)

/-- Pandas `drop_duplicates(subset=serKey, keep="last")`: a row survives
exactly when no later row shares its key. -/
def dropDupLast : List SerReg → List SerReg
  | [] => []
  | r :: rs => if serKey r ∈ rs.map serKey then dropDupLast rs else r :: dropDupLast rs

/-- The dedup core of `load_series_historicas` in `main.py`: concatenate the
frames of all banks, sort ascending by `data_divulgacao`, keep the last row
per `(pagina, nom_inst, nom_atbt, data_base)`.  (The surrounding S3
enumeration and CSV reading are external I/O, out of scope.) -/
def load_series_historicas (frames : List (List SerReg)) : List SerReg :=
  dropDupLast (sortBy leDivulg frames.flatten)

/-!
The unification step of `main.py`.  `process_manual`, `process_series`,
`process_calculados` and `process_historico` each produce records with this
schema; `unify_origins` concatenates them, sorts by the six key columns plus
`prioridade` and keeps the first row of every key group.
-/

/-- One record of a branch output (`out_df` of the `process_*` functions in
`main.py`). -/
structure Reg where
  tipo : String
  nom_inst : String
  nom_ind : String
  nom_grup : String
  nom_atbt : String
  dat_base_info : String
  valor : ℚ
  dat_extr_info : String
  origem : String
  prioridade : Nat
deriving DecidableEq

/-- The six grouping columns of `unify_origins`. -/
def regKey (r : Reg) : List String :=
  [r.tipo, r.nom_inst, r.nom_ind, r.nom_grup, r.nom_atbt, r.dat_base_info]

/-- Row comparison of `sort_values(by=["tipo", "nom_inst", "nom_ind",
"nom_grup", "nom_atbt", "dat_base_info", "prioridade"])`: lexicographic on
the six key columns, then on `prioridade`. -/
def regCmp (a b : Reg) : Ordering :=
  match lexCmp strCmp (regKey a) (regKey b) with
  | .eq => natCmp a.prioridade b.prioridade
  | o => o

/-- Boolean "less or equal" for `regCmp`. -/
def leReg (a b : Reg) : Bool := ordLe (regCmp a b)

/-- Pandas `drop_duplicates(subset=regKey, keep="first")`: a row survives
exactly when no earlier row shares its key. -/
def dropDupFirst (seen : List (List String)) : List Reg → List Reg
  | [] => []
  | r :: rs =>
    if regKey r ∈ seen then dropDupFirst seen rs
    else r :: dropDupFirst (regKey r :: seen) rs

/-- `unify_origins` of `main.py`: concatenate the branch outputs (manual,
series/reserved, computed, historical), sort by the six keys plus
`prioridade`, and keep the first row of every key group. -/
def unify_origins (manual_df origin_df calc_df historico_df : List Reg) : List Reg :=
  dropDupFirst [] (sortBy leReg (manual_df ++ origin_df ++ calc_df ++ historico_df))

/-- One row of the attribute-mapping file (`mapeamento_atributos.csv`). -/
structure MapRow where
  tipo : String
  nom_inst : String
  nom_ind : String
  nom_grup : String
  nom_atbt : String
  origem : String
  nom_planilha : String
  nom_coluna : String
  calculo : String
deriving DecidableEq

/-- One long-format row of the pivoted manual / historical input
(`pivot_attributes` output plus `dat_extr_info`). -/
structure LongRow where
  tipo : String
  nom_inst : String
  nom_ind : String
  nom_grup : String
  nom_atbt : String
  dat_base_info : String
  valor : ℚ
  dat_extr_info : String
deriving DecidableEq

/-- The five-column join condition of `process_manual` / `process_historico`. -/
def joinKeysMatch (m : MapRow) (r : LongRow) : Bool :=
  decide (m.tipo = r.tipo ∧ m.nom_inst = r.nom_inst ∧ m.nom_ind = r.nom_ind
    ∧ m.nom_grup = r.nom_grup ∧ m.nom_atbt = r.nom_atbt)

/-- `process_manual` of `main.py`: inner join of the mapping with the manual
rows on (tipo, nom_inst, nom_ind, nom_grup, nom_atbt); every joined row is
tagged `origem = "manual"`, `prioridade = 1`. -/
def process_manual (mapping_df : List MapRow) (manual_df : List LongRow) : List Reg :=
  mapping_df.flatMap fun m =>
    (manual_df.filter (joinKeysMatch m)).map fun r =>
      { tipo := m.tipo, nom_inst := m.nom_inst, nom_ind := m.nom_ind,
        nom_grup := m.nom_grup, nom_atbt := m.nom_atbt,
        dat_base_info := r.dat_base_info, valor := r.valor,
        dat_extr_info := r.dat_extr_info, origem := "manual", prioridade := 1 }

/-- `process_historico` of `main.py`: the same join shape as
`process_manual`, tagged `origem = "historico"`, `prioridade = 3`. -/
def process_historico (mapping_df : List MapRow) (historico_df : List LongRow) : List Reg :=
  mapping_df.flatMap fun m =>
    (historico_df.filter (joinKeysMatch m)).map fun r =>
      { tipo := m.tipo, nom_inst := m.nom_inst, nom_ind := m.nom_ind,
        nom_grup := m.nom_grup, nom_atbt := m.nom_atbt,
        dat_base_info := r.dat_base_info, valor := r.valor,
        dat_extr_info := r.dat_extr_info, origem := "historico", prioridade := 3 }

/-! ### Shared Python-string primitives -/

/-- The set of characters stripped by Python `str.strip()` and matched by the
regex class `\s` (Unicode whitespace). -/
def isPySpace (c : Char) : Bool :=
  let n := c.toNat
  (9 ≤ n && n ≤ 13) || n = 32 || (28 ≤ n && n ≤ 31) || n = 0x85 || n = 0xA0
  || n = 0x1680 || (0x2000 ≤ n && n ≤ 0x200A) || n = 0x2028 || n = 0x2029
  || n = 0x202F || n = 0x205F || n = 0x3000

/-- Python `str.strip()`: remove whitespace from both ends. -/
def pyStrip (l : List Char) : List Char :=
  ((l.dropWhile isPySpace).reverse.dropWhile isPySpace).reverse

/-- Numeric value of a list of decimal digit characters (most significant
first); leading zeros are allowed. -/
def natOfDigits (l : List Char) : Nat := l.foldl (fun n c => 10 * n + (c.toNat - 48)) 0

/-- Value of a Python decimal literal made of digits with at most one point:
`"12"`, `"12."`, `".5"`, `"12.5"`.  Anything else yields `none`. -/
def numValue (cs : List Char) : Option ℚ :=
  let ip := cs.takeWhile Char.isDigit
  match cs.drop ip.length with
  | [] => if ip.isEmpty then none else some (natOfDigits ip)
  | '.' :: fp =>
    if fp.all Char.isDigit && !(ip.isEmpty && fp.isEmpty)
    then some ((natOfDigits ip : ℚ) + (natOfDigits fp : ℚ) / 10 ^ fp.length)
    else none
  | _ => none

/-- Python `float(string)`: strip surrounding whitespace, optional sign,
decimal literal.  (Exponent notation and `inf` / `nan` spellings, which the
pipeline never feeds to `float`, are not modelled.) -/
def pyFloat (l : List Char) : Option ℚ :=
  match pyStrip l with
  | '+' :: rest => numValue rest
  | '-' :: rest => (numValue rest).map Neg.neg
  | rest => numValue rest

/-- The locale coercion of both `parse_sheet` implementations:
`float(str(value).replace(".", "").replace(",", "."))` — every `.` is
removed (thousands separator), then `,` becomes the decimal point. -/
def parseLocale (s : String) : Option ℚ :=
  pyFloat ((s.data.filter (fun c => decide (c ≠ '.'))).map
    (fun c => if c = ',' then '.' else c))

/-- Python `str()` of a float value, modelled over exact rationals: integral
values print as Python does (`"10.0"`); non-integral values print as an
exact parenthesised fraction, which consists of the same validated character
class and evaluates to the same rational (Python would print a decimal
float literal). -/
def pyFloatStr (q : ℚ) : String :=
  if q.den = 1 then toString q.num ++ ".0"
  else "(" ++ toString q.num ++ "/" ++ toString q.den ++ ")"

/-! ### `main.py` — `evaluate_formula` (C3) -/

/-- Characters between a `[` and the next `]` (the non-greedy group of
`re.findall(r"\[(.*?)\]", formula)`). -/
def takeUntilClose : List Char → Option (List Char × List Char)
  | [] => none
  | c :: tl =>
    if c = ']' then some ([], tl)
    else
      match takeUntilClose tl with
      | some (tok, rest) => some (c :: tok, rest)
      | none => none

/-- `re.findall(r"\[(.*?)\]", formula)`: all bracketed references, scanning
left to right. -/
def findTokens : Nat → List Char → List (List Char)
  | 0, _ => []
  | _, [] => []
  | fuel + 1, c :: tl =>
    if c = '[' then
      match takeUntilClose tl with
      | some (tok, rest) => tok :: findTokens fuel rest
      | none => []
    else findTokens fuel tl

/-- Python `str.split("|")`. -/
def splitPipe (l : List Char) : List (List Char) :=
  l.foldr
    (fun c acc =>
      if c = '|' then [] :: acc
      else
        match acc with
        | h :: t => (c :: h) :: t
        | [] => [[c]])
    [[]]

/-- Python `str.replace(pat, rep)`: replace all non-overlapping occurrences,
left to right.  `fuel` bounds the scan (callers pass the string length). -/
def strReplace (pat rep : List Char) : Nat → List Char → List Char
  | 0, l => l
  | fuel + 1, l =>
    match l with
    | [] => []
    | a :: tl =>
      if pat.isPrefixOf (a :: tl) then rep ++ strReplace pat rep fuel ((a :: tl).drop pat.length)
      else a :: strReplace pat rep fuel tl

/-- One record of the computation base `base_df` of `evaluate_formula`
(the concatenation of the series and historical branch outputs). -/
structure BaseReg where
  tipo : String
  nom_inst : String
  nom_ind : String
  nom_grup : String
  nom_atbt : String
  dat_base_info : String
  valor : ℚ
deriving DecidableEq

/-- The `base_df.loc[mask, "valor"]` lookup of `evaluate_formula`: the first
record matching the six-part key (`val.iloc[0]`); the `tipo` and
`nom_grup` / `nom_atbt` components come from the bracketed token, the
institution and indicator from the mapping row being evaluated. -/
def lookupRef (base : List BaseReg) (tokTipo nomInst nomInd tokGrup tokAtbt date : String) :
    Option BaseReg :=
  base.find? (fun r => decide (r.tipo = tokTipo ∧ r.nom_inst = nomInst ∧ r.nom_ind = nomInd
    ∧ r.nom_grup = tokGrup ∧ r.nom_atbt = tokAtbt ∧ r.dat_base_info = date))

/-- The substitution loop of `evaluate_formula`: for every token
`tipo|grupo|atbt` (tokens that do not split into exactly three parts are
skipped), replace `[token]` with the looked-up value or `"0"`. -/
def substTokens (formula : String) (date nom_inst nom_ind : String)
    (base : List BaseReg) : List Char :=
  (findTokens formula.data.length formula.data).foldl
    (fun expr tok =>
      match splitPipe tok with
      | [t, g, a] =>
        let repl :=
          match lookupRef base ⟨t⟩ nom_inst nom_ind ⟨g⟩ ⟨a⟩ date with
          | some r => (pyFloatStr r.valor).data
          | none => ['0']
        strReplace ('[' :: (tok ++ [']'])) repl (expr.length + 1) expr
      | _ => expr)
    formula.data

/-- The character class `[0-9+\-*/(). ]` accepted by the validation regex of
`evaluate_formula`. -/
def allowedChar (c : Char) : Bool :=
  c.isDigit || c = '+' || c = '-' || c = '*' || c = '/' || c = '(' || c = ')'
  || c = '.' || c = ' '

/-- Python `re.match(r"^[0-9+\-*/(). ]+$", expr) is not None`: a nonempty
run of allowed characters spanning the whole string (`$` also matches just
before a single trailing newline). -/
def pyMatchArith (l : List Char) : Bool :=
  let core := if l.getLast? = some '\n' then l.dropLast else l
  !core.isEmpty && core.all allowedChar

/-- Tokens of the arithmetic expressions fed to `eval`. -/
inductive ATok where
  | num (q : ℚ)
  | plus
  | minus
  | star
  | slash
  | lpar
  | rpar
deriving DecidableEq

/-- Tokenizer for the validated arithmetic character class. -/
def lexArith : Nat → List Char → Option (List ATok)
  | 0, _ => none
  | _, [] => some []
  | fuel + 1, c :: cs =>
    if c = ' ' then lexArith fuel cs
    else if c = '+' then (lexArith fuel cs).map (.plus :: ·)
    else if c = '-' then (lexArith fuel cs).map (.minus :: ·)
    else if c = '*' then (lexArith fuel cs).map (.star :: ·)
    else if c = '/' then (lexArith fuel cs).map (.slash :: ·)
    else if c = '(' then (lexArith fuel cs).map (.lpar :: ·)
    else if c = ')' then (lexArith fuel cs).map (.rpar :: ·)
    else if c.isDigit || c = '.' then
      let chunk := (c :: cs).takeWhile (fun x => x.isDigit || x = '.')
      match numValue chunk with
      | some q => (lexArith fuel ((c :: cs).drop chunk.length)).map (.num q :: ·)
      | none => none
    else none

mutual

/-- `expr := term ((+|-) term)*`. -/
def parseExpr : Nat → List ATok → Option (ℚ × List ATok)
  | 0, _ => none
  | fuel + 1, ts =>
    match parseTerm fuel ts with
    | none => none
    | some (v, rest) => parseExprRest fuel v rest

def parseExprRest : Nat → ℚ → List ATok → Option (ℚ × List ATok)
  | 0, _, _ => none
  | fuel + 1, acc, ts =>
    match ts with
    | .plus :: ts2 =>
      match parseTerm fuel ts2 with
      | none => none
      | some (v, rest) => parseExprRest fuel (acc + v) rest
    | .minus :: ts2 =>
      match parseTerm fuel ts2 with
      | none => none
      | some (v, rest) => parseExprRest fuel (acc - v) rest
    | _ => some (acc, ts)

/-- `term := unary ((*|/) unary)*`; division by zero is a failure
(`ZeroDivisionError`). -/
def parseTerm : Nat → List ATok → Option (ℚ × List ATok)
  | 0, _ => none
  | fuel + 1, ts =>
    match parseUnary fuel ts with
    | none => none
    | some (v, rest) => parseTermRest fuel v rest

def parseTermRest : Nat → ℚ → List ATok → Option (ℚ × List ATok)
  | 0, _, _ => none
  | fuel + 1, acc, ts =>
    match ts with
    | .star :: ts2 =>
      match parseUnary fuel ts2 with
      | none => none
      | some (v, rest) => parseTermRest fuel (acc * v) rest
    | .slash :: ts2 =>
      match parseUnary fuel ts2 with
      | none => none
      | some (v, rest) => if v = 0 then none else parseTermRest fuel (acc / v) rest
    | _ => some (acc, ts)

/-- `unary := (+|-) unary | number | ( expr )`. -/
def parseUnary : Nat → List ATok → Option (ℚ × List ATok)
  | 0, _ => none
  | fuel + 1, ts =>
    match ts with
    | .minus :: ts2 => (parseUnary fuel ts2).map (fun p => (-p.1, p.2))
    | .plus :: ts2 => parseUnary fuel ts2
    | .num q :: ts2 => some (q, ts2)
    | .lpar :: ts2 =>
      match parseExpr fuel ts2 with
      | none => none
      | some (v, rest) =>
        match rest with
        | .rpar :: r2 => some (v, r2)
        | _ => none
    | _ => none

end

/-- Python `eval` restricted to the validated character class, modelled as an
exact-rational arithmetic evaluator (`+ - * /`, parentheses, unary sign);
any syntax error or division by zero yields `none`. -/
def evalArith (cs : List Char) : Option ℚ :=
  match lexArith (cs.length + 1) cs with
  | none => none
  | some ts =>
    match parseExpr (4 * ts.length + 16) ts with
    | some (v, []) => some v
    | _ => none

/-- `evaluate_formula` of `main.py`: substitute every bracketed reference
with the first matching base value (or `0` when no base record matches),
validate the substituted expression against `[0-9+\-*/(). ]+`, then
evaluate it; any validation or evaluation failure yields `none`.  The
`tipo` parameter is unused, exactly as in the source. -/
def evaluate_formula (formula : String) (date tipo nom_inst nom_ind : String)
    (base : List BaseReg) : Option ℚ :=
  let expr := substTokens formula date nom_inst nom_ind base
  if pyMatchArith expr then evalArith expr else none


/-! ### `normalize_name` (both extractors) and the sheet resolver

`normalize_name` uses `unicodedata.normalize("NFKD", ...)` and
`unicodedata.combining`; the Unicode tables are modelled for the Latin-1
range actually exercised by the bank spreadsheets: `decompTable` lists the
canonical decompositions of the accented Latin-1 letters, `combining`
recognises the combining-diacritics block, `lowerChar` lowercases ASCII and
Latin-1 capitals.  Characters outside the modelled range are left untouched.
-/

/-- Canonical decompositions of the accented Latin-1 letters:
`(code, base letter, combining mark)`. -/
def decompTable : List (Nat × Nat × Nat) :=
  [(0xC0, 65, 0x300), (0xC1, 65, 0x301), (0xC2, 65, 0x302), (0xC3, 65, 0x303),
   (0xC4, 65, 0x308), (0xC5, 65, 0x30A), (0xC7, 67, 0x327),
   (0xC8, 69, 0x300), (0xC9, 69, 0x301), (0xCA, 69, 0x302), (0xCB, 69, 0x308),
   (0xCC, 73, 0x300), (0xCD, 73, 0x301), (0xCE, 73, 0x302), (0xCF, 73, 0x308),
   (0xD1, 78, 0x303),
   (0xD2, 79, 0x300), (0xD3, 79, 0x301), (0xD4, 79, 0x302), (0xD5, 79, 0x303),
   (0xD6, 79, 0x308),
   (0xD9, 85, 0x300), (0xDA, 85, 0x301), (0xDB, 85, 0x302), (0xDC, 85, 0x308),
   (0xDD, 89, 0x301),
   (0xE0, 97, 0x300), (0xE1, 97, 0x301), (0xE2, 97, 0x302), (0xE3, 97, 0x303),
   (0xE4, 97, 0x308), (0xE5, 97, 0x30A), (0xE7, 99, 0x327),
   (0xE8, 101, 0x300), (0xE9, 101, 0x301), (0xEA, 101, 0x302), (0xEB, 101, 0x308),
   (0xEC, 105, 0x300), (0xED, 105, 0x301), (0xEE, 105, 0x302), (0xEF, 105, 0x308),
   (0xF1, 110, 0x303),
   (0xF2, 111, 0x300), (0xF3, 111, 0x301), (0xF4, 111, 0x302), (0xF5, 111, 0x303),
   (0xF6, 111, 0x308),
   (0xF9, 117, 0x300), (0xFA, 117, 0x301), (0xFB, 117, 0x302), (0xFC, 117, 0x308),
   (0xFD, 121, 0x301), (0xFF, 121, 0x308)]

/-- `unicodedata.normalize("NFKD", ...)`, character-wise. -/
def nfkdChar (c : Char) : List Char :=
  match decompTable.find? (fun e => decide (e.1 = c.toNat)) with
  | some e => [Char.ofNat e.2.1, Char.ofNat e.2.2]
  | none => [c]

/-- `unicodedata.combining(c) != 0` for the combining-diacritics block. -/
def combining (c : Char) : Bool := 0x300 ≤ c.toNat && c.toNat ≤ 0x36F

/-- Python `str.lower()` on the ASCII and Latin-1 capitals. -/
def lowerChar (c : Char) : Char :=
  let n := c.toNat
  if 65 ≤ n && n ≤ 90 then Char.ofNat (n + 32)
  else if 192 ≤ n && n ≤ 222 && n ≠ 215 then Char.ofNat (n + 32)
  else c

/-- The normalisation pipeline of `normalize_name` on a character list: NFKD,
drop combining marks, remove the `[\s\-]` class, lowercase. -/
def normList (l : List Char) : List Char :=
  (((l.flatMap nfkdChar).filter (fun c => !combining c)).filter
    (fun c => !(isPySpace c || c = '-'))).map lowerChar

/-- `normalize_name` of `bradesco_series.py` / `itau_series.py` (identical in
both): strip accents via NFKD, drop combining marks, delete whitespace and
hyphens, lowercase. -/
def normalize_name (s : String) : String := String.mk (normList s.data)

/-- Python-dict insertion (`sheet_map[normalized] = sh`): an existing key
keeps its position and takes the new value, a new key is appended. -/
def dictInsert (m : List (String × String)) (k v : String) : List (String × String) :=
  if m.any (fun p => decide (p.1 = k)) then m.map (fun p => if p.1 = k then (k, v) else p)
  else m ++ [(k, v)]

/-- The `sheet_map` built by `process_file`: normalized name to real name,
in insertion order. -/
def sheetMap (sheets : List String) : List (String × String) :=
  sheets.foldl (fun acc sh => dictInsert acc (normalize_name sh) sh) []

/-- Python `small in big` (contiguous substring). -/
def isSubstr (small big : List Char) : Bool := big.tails.any (fun t => small.isPrefixOf t)

/-- `candidate_key` of `process_file`: `(not ends-with-target, length)` of
the normalized name; `sorted` picks the smallest in the lexicographic
`Bool × Nat` order. -/
def candidate_key (target_norm name : String) : Bool × Nat :=
  let norm := normalize_name name
  (!(List.isSuffixOf target_norm.data norm.data), norm.data.length)

/-- Lexicographic three-way comparison of `Bool × Nat` keys (`False < True`). -/
def candCmp (p q : Bool × Nat) : Ordering :=
  match natCmp (cond p.1 1 0) (cond q.1 1 0) with
  | .eq => natCmp p.2 q.2
  | o => o

/-- `sorted(candidate_names, key=candidate_key)` comparison. -/
def leCand (target_norm : String) (a b : String) : Bool :=
  ordLe (candCmp (candidate_key target_norm a) (candidate_key target_norm b))

/-- The sheet-resolution block of `process_file` (both extractors): build the
normalized sheet map, collect the candidates whose normalized name contains
the normalized target, and return the best candidate under `candidate_key`
(`sorted(...)[0]`); `none` when no candidate matches, in which case the
caller skips the target without raising. -/
def resolve_sheet (target : String) (sheets : List String) : Option String :=
  let target_norm := normalize_name target
  let cands := ((sheetMap sheets).filter
    (fun p => isSubstr target_norm.data p.1.data)).map (fun p => p.2)
  (sortBy (leCand target_norm) cands).head?


/-! ### The bank extractors — date labels, grids and the wide-to-long
transform (C4, C5, C6, C7, C10)

`bradesco_series.py` and `itau_series.py` share the suffixing and emission
logic but differ in `format_data_base`, `guess_header_row` and the
`has_value` test of `parse_sheet`; both variants are embedded.  Spreadsheet
cells are modelled by `Cell` (string, numeric, NaN/empty, or native
date).  `pd.to_datetime(text, dayfirst=True)` is modelled by `pyToDatetime`
on the label shapes this pipeline feeds it (`d/m/yy`, `d/m/yyyy` with the
dateutil day-month swap, ISO `yyyy-mm-dd` with an optional `hh:mm:ss`
time), including the POSIX two-digit-year pivot and the `pd.Timestamp`
year range 1678–2261.  -/

/-- Decimal digit character. -/
def isDigitCh (c : Char) : Bool := 48 ≤ c.toNat && c.toNat ≤ 57

/-- Value of a digit character. -/
def digVal (c : Char) : Nat := c.toNat - 48

/-- The letter class `[A-Za-zÀ-ÿ]` of the extractor regexes (the Latin-1
range `À-ÿ` is `0xC0`–`0xFF`). -/
def isLatinLetter (c : Char) : Bool :=
  (65 ≤ c.toNat && c.toNat ≤ 90) || (97 ≤ c.toNat && c.toNat ≤ 122)
    || (192 ≤ c.toNat && c.toNat ≤ 255)

/-- `re.match(r"([1-4])T(\d{2})", text, re.IGNORECASE)`: a prefix match
returning `(trimestre, ano)`. -/
def matchQuarterPrefix : List Char → Option (Nat × Nat)
  | c1 :: c2 :: c3 :: c4 :: _ =>
    if (49 ≤ c1.toNat ∧ c1.toNat ≤ 52) ∧ (c2 = 'T' ∨ c2 = 't')
        ∧ isDigitCh c3 = true ∧ isDigitCh c4 = true then
      some (digVal c1, 10 * digVal c3 + digVal c4)
    else none
  | _ => none

/-- `re.match(r"([A-Za-zÀ-ÿ]{3})/?(\d{2})", text, re.IGNORECASE)`: three
letters, an optional slash, two digits, as a prefix match; returns the
letters and the two-digit year.  (When the optional slash is present but
not followed by two digits, backtracking retries without it and fails on
the slash itself, so a plain structural match is faithful.) -/
def matchMonthPrefix : List Char → Option (List Char × Nat)
  | a :: b :: c :: rest =>
    if isLatinLetter a && isLatinLetter b && isLatinLetter c then
      match rest with
      | '/' :: d1 :: d2 :: _ =>
        if isDigitCh d1 && isDigitCh d2 then some ([a, b, c], 10 * digVal d1 + digVal d2)
        else none
      | d1 :: d2 :: _ =>
        if isDigitCh d1 && isDigitCh d2 then some ([a, b, c], 10 * digVal d1 + digVal d2)
        else none
      | _ => none
    else none
  | _ => none

/-- The quarter-to-month map `mes_map = {1: 3, 2: 6, 3: 9, 4: 12}` with the
`.get(trimestre, 1)` default. -/
def mes_map (t : Nat) : Nat :=
  match t with
  | 1 => 3
  | 2 => 6
  | 3 => 9
  | 4 => 12
  | _ => 1

/-- The month-abbreviation dictionary `mes_map_dict` (Portuguese and
English three-letter abbreviations). -/
def mes_map_dict : List (List Char × Nat) :=
  [(['j', 'a', 'n'], 1), (['f', 'e', 'v'], 2), (['f', 'e', 'b'], 2), (['m', 'a', 'r'], 3),
   (['a', 'b', 'r'], 4), (['a', 'p', 'r'], 4), (['m', 'a', 'i'], 5), (['m', 'a', 'y'], 5),
   (['j', 'u', 'n'], 6), (['j', 'u', 'l'], 7), (['a', 'g', 'o'], 8),
   (['s', 'e', 't'], 9), (['s', 'e', 'p'], 9),
   (['o', 'u', 't'], 10), (['o', 'c', 't'], 10),
   (['n', 'o', 'v'], 11), (['d', 'e', 'z'], 12), (['d', 'e', 'c'], 12)]

/-- `mes_map_dict.get(mes_str[:3], None)` on the lowercased matched
letters. -/
def monthNum (ls : List Char) : Option Nat :=
  (mes_map_dict.find? (fun e => decide (e.1 = ls))).map (fun e => e.2)

/-- `trimestre_end_map`: month to last month of its quarter, with the
`.get(mes_num, mes_num)` default. -/
def trimestre_end_map (m : Nat) : Nat :=
  match m with
  | 1 => 3 | 2 => 3 | 3 => 3
  | 4 => 6 | 5 => 6 | 6 => 6
  | 7 => 9 | 8 => 9 | 9 => 9
  | 10 => 12 | 11 => 12 | 12 => 12
  | _ => m

/-- Decimal digits of `n`, most significant first (fuel-indexed; `8` fuel
covers every number the pipeline renders). -/
def natDigitsAux : Nat → Nat → List Char
  | 0, _ => []
  | _ + 1, 0 => []
  | fuel + 1, n => natDigitsAux fuel (n / 10) ++ [Char.ofNat (48 + n % 10)]

/-- Decimal rendering of a natural number. -/
def natChars (n : Nat) : List Char := if n = 0 then ['0'] else natDigitsAux 8 n

/-- Python `f"{n:0wd}"`: left-pad the decimal rendering with zeros to width
`w`. -/
def padZero (w n : Nat) : List Char :=
  List.replicate (w - (natChars n).length) '0' ++ natChars n

/-- The canonical output `f"{ano:04d}-{mes:02d}-01"`. -/
def mkDate (y m : Nat) : String :=
  String.mk (padZero 4 y ++ '-' :: (padZero 2 m ++ ['-', '0', '1']))

/-- Gregorian leap year. -/
def isLeap (y : Nat) : Bool := (y % 4 = 0 && y % 100 ≠ 0) || y % 400 = 0

/-- Days in a month (calendar validity check of the datetime parser). -/
def daysInMonth (y m : Nat) : Nat :=
  if m = 1 ∨ m = 3 ∨ m = 5 ∨ m = 7 ∨ m = 8 ∨ m = 10 ∨ m = 12 then 31
  else if m = 4 ∨ m = 6 ∨ m = 9 ∨ m = 11 then 30
  else if isLeap y then 29 else 28

/-- Calendar and `pd.Timestamp`-range validation of a parsed date; returns
`(year, month)`. -/
def checkDate (y mo dy : Nat) : Option (Nat × Nat) :=
  if 1678 ≤ y ∧ y ≤ 2261 ∧ 1 ≤ mo ∧ mo ≤ 12 ∧ 1 ≤ dy ∧ dy ≤ daysInMonth y mo
  then some (y, mo) else none

/-- The dateutil `dayfirst=True` resolution of `a/b/year`: prefer day `a`
and month `b`; when `b` cannot be a month but `a` can, swap. -/
def dayfirstResolve (y a b : Nat) : Option (Nat × Nat) :=
  match checkDate y b a with
  | some r => some r
  | none => checkDate y a b

/-- Optional time component after an ISO date: empty, or a space and a
valid `hh:mm:ss`. -/
def isTimeTail : List Char → Bool
  | [] => true
  | [' ', h1, h2, ':', n1, n2, ':', s1, s2] =>
    isDigitCh h1 && isDigitCh h2 && isDigitCh n1 && isDigitCh n2
      && isDigitCh s1 && isDigitCh s2
      && decide (10 * digVal h1 + digVal h2 ≤ 23)
      && decide (10 * digVal n1 + digVal n2 ≤ 59)
      && decide (10 * digVal s1 + digVal s2 ≤ 59)
  | _ => false

/-- Model of `pd.to_datetime(text, dayfirst=True, errors="raise")` on the
label shapes of this pipeline; returns `(year, month)` or `none` when the
call raises. -/
def pyToDatetime (cs : List Char) : Option (Nat × Nat) :=
  let a := cs.takeWhile isDigitCh
  let rest := cs.drop a.length
  if a.length = 4 then
    match rest with
    | '-' :: m1 :: m2 :: '-' :: d1 :: d2 :: tail =>
      if isDigitCh m1 && isDigitCh m2 && isDigitCh d1 && isDigitCh d2 && isTimeTail tail then
        checkDate (natOfDigits a) (10 * digVal m1 + digVal m2) (10 * digVal d1 + digVal d2)
      else none
    | _ => none
  else if a.length = 1 ∨ a.length = 2 then
    match rest with
    | '/' :: rest1 =>
      let b := rest1.takeWhile isDigitCh
      if b.length = 1 ∨ b.length = 2 then
        match rest1.drop b.length with
        | '/' :: ys =>
          if ys.all isDigitCh then
            if ys.length = 2 then
              dayfirstResolve
                (if natOfDigits ys ≤ 68 then 2000 + natOfDigits ys else 1900 + natOfDigits ys)
                (natOfDigits a) (natOfDigits b)
            else if ys.length = 4 then
              dayfirstResolve (natOfDigits ys) (natOfDigits a) (natOfDigits b)
            else none
          else none
        | _ => none
      else none
    | _ => none
  else none

/-- `format_data_base` of `bradesco_series.py` on string labels (a
non-string label only takes the trivial `str(label)` branch): strip, try
the quarter pattern, try the month-abbreviation pattern, otherwise return
the stripped text. -/
def bradesco_format_data_base (label : String) : String :=
  let text := pyStrip label.data
  match matchQuarterPrefix text with
  | some (tq, yy) => mkDate (2000 + yy) (mes_map tq)
  | none =>
    match matchMonthPrefix text with
    | some (ls, yy) =>
      match monthNum (ls.map lowerChar) with
      | some mn => mkDate (2000 + yy) (trimestre_end_map mn)
      | none => String.mk text
    | none => String.mk text

/-- The quarter-end month `((month - 1) // 3 + 1) * 3` of the itau
datetime branches. -/
def month_end (m : Nat) : Nat := ((m - 1) / 3 + 1) * 3

/-- A label reaching `format_data_base` of `itau_series.py`: a string, or
a native `pd.Timestamp`/`datetime` of which only year and month are
used. -/
inductive DateLabel where
  | str (s : String)
  | ts (y m : Nat)

/-- `format_data_base` of `itau_series.py`: native timestamps map to their
quarter end; strings try the quarter pattern, the month-abbreviation
pattern, then `pd.to_datetime(..., dayfirst=True)`; on failure the label
itself (`str(label)`) is returned. -/
def itau_format_data_base : DateLabel → String
  | .ts y m => mkDate y (month_end m)
  | .str s =>
    let text := pyStrip s.data
    match matchQuarterPrefix text with
    | some (tq, yy) => mkDate (2000 + yy) (mes_map tq)
    | none =>
      match matchMonthPrefix text with
      | some (ls, yy) =>
        match monthNum (ls.map lowerChar) with
        | some mn => mkDate (2000 + yy) (trimestre_end_map mn)
        | none =>
          match pyToDatetime text with
          | some (y, m) => mkDate y (month_end m)
          | none => s
      | none =>
        match pyToDatetime text with
        | some (y, m) => mkDate y (month_end m)
        | none => s

/-- A spreadsheet cell as read by `pd.ExcelFile.parse(header=None)`: a
string, a numeric value, an empty/NaN cell, or a native date. -/
inductive Cell where
  | str (s : String)
  | num (q : ℚ)
  | nan
  | dt (y m d : Nat)
  deriving DecidableEq

/-- `pd.isna` on a cell. -/
def cellIsNa : Cell → Bool
  | .nan => true
  | _ => false

/-- Anchored `^[1-4]T\d{2}$` (on stripped text, so the newline subtlety of
`$` cannot arise). -/
def quarterLabelFull (cs : List Char) : Bool :=
  match cs with
  | [c1, c2, d1, d2] =>
    (49 ≤ c1.toNat && c1.toNat ≤ 52) && (c2 = 'T' || c2 = 't') && isDigitCh d1 && isDigitCh d2
  | _ => false

/-- Anchored `^[A-Za-zÀ-ÿ]{3}/?\d{2}$`. -/
def monthLabelFull (cs : List Char) : Bool :=
  match cs with
  | [a, b, c, d1, d2] =>
    isLatinLetter a && isLatinLetter b && isLatinLetter c && isDigitCh d1 && isDigitCh d2
  | [a, b, c, '/', d1, d2] =>
    isLatinLetter a && isLatinLetter b && isLatinLetter c && isDigitCh d1 && isDigitCh d2
  | _ => false

/-- Anchored `^\d{1,2}/\d{2}/\d{2,4}$` (the itau day/month/year label). -/
def dmyLabelFull (cs : List Char) : Bool :=
  let a := cs.takeWhile isDigitCh
  match cs.drop a.length with
  | '/' :: rest =>
    (a.length = 1 || a.length = 2) &&
      (let b := rest.takeWhile isDigitCh
       match rest.drop b.length with
       | '/' :: ys =>
         b.length = 2 && ys.all isDigitCh && decide (2 ≤ ys.length) && decide (ys.length ≤ 4)
       | _ => false)
  | _ => false

/-- Prefix-anchored `^\d{4}-\d{2}-\d{2}` (the itau ISO label; no `$`). -/
def isoLabel (cs : List Char) : Bool :=
  match cs with
  | y1 :: y2 :: y3 :: y4 :: '-' :: m1 :: m2 :: '-' :: d1 :: d2 :: _ =>
    isDigitCh y1 && isDigitCh y2 && isDigitCh y3 && isDigitCh y4
      && isDigitCh m1 && isDigitCh m2 && isDigitCh d1 && isDigitCh d2
  | _ => false

/-- A date-like cell for the bradesco locator: a string whose stripped text
matches the month-abbreviation or quarter pattern. -/
def bradesco_dateLike (c : Cell) : Bool :=
  match c with
  | .str s => monthLabelFull (pyStrip s.data) || quarterLabelFull (pyStrip s.data)
  | _ => false

/-- A date-like cell for the itau locator: a native date counts
immediately; a string counts when its stripped text matches the
month-abbreviation, quarter, day/month/year or ISO pattern. -/
def itau_dateLike (c : Cell) : Bool :=
  match c with
  | .dt _ _ _ => true
  | .str s =>
    monthLabelFull (pyStrip s.data) || quarterLabelFull (pyStrip s.data)
      || dmyLabelFull (pyStrip s.data) || isoLabel (pyStrip s.data)
  | _ => false

/-- The two-pass header search of `guess_header_row`: first row with at
least two date-like cells, else first row with at least one. -/
def findHeaderIdx (dl : Cell → Bool) (grid : List (List Cell)) : Option Nat :=
  match grid.findIdx? (fun row => decide (2 ≤ row.countP dl)) with
  | some i => some i
  | none => grid.findIdx? (fun row => decide (1 ≤ row.countP dl))

/-- The `first_date_col` search: first date-like header cell, else the
first non-empty column after column 0, else column 1. -/
def firstDateCol (dl : Cell → Bool) (header : List Cell) : Nat :=
  match header.findIdx? dl with
  | some j => j
  | none =>
    match header.enum.find? (fun p => decide (0 < p.1) && !cellIsNa p.2) with
    | some p => p.1
    | none => 1

/-- `guess_header_row` of `bradesco_series.py` over a cell grid. -/
def bradesco_guess_header_row (grid : List (List Cell)) : Except String (Nat × Nat) :=
  match findHeaderIdx bradesco_dateLike grid with
  | some i => .ok (i, firstDateCol bradesco_dateLike (grid.getD i []))
  | none => .error "Linha de cabeçalho não encontrada na planilha."

/-- `guess_header_row` of `itau_series.py` over a cell grid. -/
def itau_guess_header_row (grid : List (List Cell)) : Except String (Nat × Nat) :=
  match findHeaderIdx itau_dateLike grid with
  | some i => .ok (i, firstDateCol itau_dateLike (grid.getD i []))
  | none => .error "Linha de cabeçalho não encontrada na planilha."

/-- One tuple `(nom_atbt, data_base, vlr_atbt, row_id)` of `parse_sheet`. -/
structure PTuple where
  nom_atbt : String
  data_base : String
  vlr_atbt : ℚ
  row_id : Nat
  deriving DecidableEq

/-- The stripped non-empty text cells left of `first_date_col`. -/
def attrParts (fdc : Nat) (row : List Cell) : List (List Char) :=
  (row.take fdc).filterMap (fun c =>
    match c with
    | .str s => if pyStrip s.data = [] then none else some (pyStrip s.data)
    | _ => none)

/-- Python `" - ".join`. -/
def joinDash (ps : List (List Char)) : List Char := (ps.intersperse [' ', '-', ' ']).flatten

/-- Python `str()` of a cell (`str(pd.Timestamp)` prints a midnight
time). -/
def pyStrCell : Cell → String
  | .str s => s
  | .num q => pyFloatStr q
  | .nan => "nan"
  | .dt y m d =>
    String.mk (padZero 4 y ++ '-' :: (padZero 2 m ++ '-' :: (padZero 2 d ++
      [' ', '0', '0', ':', '0', '0', ':', '0', '0'])))

/-- The emission loop shared by both `parse_sheet` implementations: for
each date column, skip NaN labels and NaN values, keep numeric values,
coerce other values through the locale replacement, and emit the tuple. -/
def emitRow (header row : List Cell) (fdc : Nat) (attr : String) (rid : Nat) : List PTuple :=
  ((header.drop fdc).zip (row.drop fdc)).filterMap (fun p =>
    if cellIsNa p.1 || cellIsNa p.2 then none
    else
      match p.2 with
      | .num q => some ⟨attr, pyStrCell p.1, q, rid⟩
      | v =>
        match parseLocale (pyStrCell v) with
        | some q => some ⟨attr, pyStrCell p.1, q, rid⟩
        | none => none)

/-- The `has_value` test of the bradesco `parse_sheet`: native numeric
cells only. -/
def bradesco_hasValue : Cell → Bool
  | .num _ => true
  | _ => false

/-- The `has_value` test of the itau `parse_sheet`: native numeric cells,
or strings accepted by the locale coercion. -/
def itau_hasValue : Cell → Bool
  | .num _ => true
  | .str s => (parseLocale s).isSome
  | _ => false

/-- The data-row loop of `parse_sheet`: a row with no attribute text or no
value cell (per the variant's `has_value`) is skipped without consuming a
`row_id`; otherwise its tuples are emitted under the next counter value. -/
def processRows (hv : Cell → Bool) (header : List Cell) (fdc : Nat) :
    List (List Cell) → Nat → List PTuple
  | [], _ => []
  | row :: rest, ctr =>
    if attrParts fdc row = [] then processRows hv header fdc rest ctr
    else if (row.drop fdc).any hv = false then processRows hv header fdc rest ctr
    else
      emitRow header row fdc (String.mk (joinDash (attrParts fdc row))) ctr
        ++ processRows hv header fdc rest (ctr + 1)

/-- `parse_sheet` of `bradesco_series.py`. -/
def bradesco_parse_sheet (grid : List (List Cell)) : Except String (List PTuple) :=
  match bradesco_guess_header_row grid with
  | .error e => .error e
  | .ok (i, fdc) =>
    .ok (processRows bradesco_hasValue (grid.getD i []) fdc (grid.drop (i + 1)) 0)

/-- `parse_sheet` of `itau_series.py`. -/
def itau_parse_sheet (grid : List (List Cell)) : Except String (List PTuple) :=
  match itau_guess_header_row grid with
  | .error e => .error e
  | .ok (i, fdc) =>
    .ok (processRows itau_hasValue (grid.getD i []) fdc (grid.drop (i + 1)) 0)

/-- Python-dict read `attr_counts.get(k, ...)` over an association list. -/
def lookupA (m : List (String × Nat)) (k : String) : Option Nat :=
  (m.find? (fun p => decide (p.1 = k))).map (fun p => p.2)

/-- Python-dict write `attr_counts[k] = v`. -/
def setA (m : List (String × Nat)) (k : String) (v : Nat) : List (String × Nat) :=
  if m.any (fun p => decide (p.1 = k)) then m.map (fun p => if p.1 = k then (k, v) else p)
  else m ++ [(k, v)]

/-- Python-dict read `row_id_suffix.get(k)`. -/
def lookupR (m : List (Nat × String)) (k : Nat) : Option String :=
  (m.find? (fun p => decide (p.1 = k))).map (fun p => p.2)

/-- The attribute-disambiguation loop of `process_file` (identical in both
extractors), reduced to the emitted `nom_atbt` values: a tuple whose
`row_id` was seen before reuses the frozen suffix; a new `row_id` takes
`" #{count+1}"` when its attribute name was already counted, the bare name
otherwise. -/
def suffix_names : List PTuple → List (String × Nat) → List (Nat × String) → List String
  | [], _, _ => []
  | t :: rest, counts, sufs =>
    match lookupR sufs t.row_id with
    | some suffix => (t.nom_atbt ++ suffix) :: suffix_names rest counts sufs
    | none =>
      let count := (lookupA counts t.nom_atbt).getD 0
      let suffix := if 0 < count then " #" ++ toString (count + 1) else ""
      (t.nom_atbt ++ suffix) ::
        suffix_names rest (setA counts t.nom_atbt (count + 1)) (sufs ++ [(t.row_id, suffix)])

/-- Specification-side helper (from the claim's wording): first-occurrence
deduplication. -/
def dedupFirstAux (seen : List Nat) : List Nat → List Nat
  | [] => []
  | x :: xs => if x ∈ seen then dedupFirstAux seen xs else x :: dedupFirstAux (x :: seen) xs

/-- Specification-side helper: index of the first occurrence (length of
the list when absent). -/
def idxOfN (x : Nat) : List Nat → Nat
  | [] => 0
  | y :: ys => if y = x then 0 else idxOfN x ys + 1

/-- Specification-side helper: the distinct `row_id`s carrying attribute
`a`, in order of first appearance. -/
def ridsOfA (a : String) (ts : List PTuple) : List Nat :=
  dedupFirstAux [] ((ts.filter (fun t => decide (t.nom_atbt = a))).map (fun t => t.row_id))

/-- Specification-side helper: the ordinal suffix of the claim — bare name
for the first row of an attribute, `" #k+1"` for the row at position `k`. -/
def sufStr (k : Nat) : String := if k = 0 then "" else " #" ++ toString (k + 1)

/-! ## Part II -- Theorems -/

/-! ### Comparator laws -/

theorem natCmp_eq {a b : Nat} (h : natCmp a b = .eq) : a = b := by
  unfold natCmp at h
  split at h
  · exact absurd h (by simp)
  · split at h
    · exact absurd h (by simp)
    · omega

theorem natCmp_self (a : Nat) : natCmp a a = .eq := by
  unfold natCmp; simp

theorem natCmp_swap (a b : Nat) : natCmp a b = (natCmp b a).swap := by
  rcases Nat.lt_trichotomy a b with h | h | h
  · simp [natCmp, h, Nat.lt_asymm h, Ordering.swap]
  · subst h; simp [natCmp, Ordering.swap]
  · simp [natCmp, h, Nat.lt_asymm h, Ordering.swap]

theorem natCmp_lt {a b : Nat} : natCmp a b = .lt ↔ a < b := by
  rcases Nat.lt_trichotomy a b with h | h | h
  · simp [natCmp, h]
  · subst h; simp [natCmp]
  · simp [natCmp, h, Nat.lt_asymm h]

theorem natCmp_lt_trans {a b c : Nat} (h1 : natCmp a b = .lt) (h2 : natCmp b c = .lt) :
    natCmp a c = .lt :=
  natCmp_lt.mpr (Nat.lt_trans (natCmp_lt.mp h1) (natCmp_lt.mp h2))

theorem charCmp_eq {a b : Char} (h : charCmp a b = .eq) : a = b :=
  Char.eq_of_val_eq (UInt32.toNat.inj (natCmp_eq h))

theorem charCmp_self (a : Char) : charCmp a a = .eq := natCmp_self _

theorem charCmp_swap (a b : Char) : charCmp a b = (charCmp b a).swap := natCmp_swap _ _

theorem charCmp_lt_trans {a b c : Char} (h1 : charCmp a b = .lt) (h2 : charCmp b c = .lt) :
    charCmp a c = .lt := natCmp_lt_trans h1 h2

theorem lexCmp_eq {cmp : α → α → Ordering} (heq : ∀ a b, cmp a b = .eq → a = b) :
    ∀ {x y : List α}, lexCmp cmp x y = .eq → x = y := by
  intro x
  induction x with
  | nil => intro y h; cases y with
    | nil => rfl
    | cons b bs => simp [lexCmp] at h
  | cons a as ih =>
    intro y h
    cases y with
    | nil => simp [lexCmp] at h
    | cons b bs =>
      unfold lexCmp at h
      rcases hab : cmp a b with _ | _ | _ <;> rw [hab] at h
      · exact absurd h (by simp)
      · rw [heq a b hab, ih h]
      · exact absurd h (by simp)

theorem lexCmp_self {cmp : α → α → Ordering} (hself : ∀ a, cmp a a = .eq) :
    ∀ (x : List α), lexCmp cmp x x = .eq := by
  intro x
  induction x with
  | nil => rfl
  | cons a as ih => unfold lexCmp; rw [hself a]; exact ih

theorem lexCmp_swap {cmp : α → α → Ordering} (hswap : ∀ a b, cmp a b = (cmp b a).swap) :
    ∀ (x y : List α), lexCmp cmp x y = (lexCmp cmp y x).swap := by
  intro x
  induction x with
  | nil => intro y; cases y <;> rfl
  | cons a as ih =>
    intro y
    cases y with
    | nil => rfl
    | cons b bs =>
      show (match cmp a b with | .eq => lexCmp cmp as bs | o => o)
        = (match cmp b a with | .eq => lexCmp cmp bs as | o => o).swap
      rw [hswap a b]
      rcases hba : cmp b a with _ | _ | _
      · rfl
      · exact ih bs
      · rfl

theorem lexCmp_cons_lt_iff {cmp : α → α → Ordering} {a b : α} {as bs : List α} :
    lexCmp cmp (a :: as) (b :: bs) = .lt ↔
      (cmp a b = .lt ∨ (cmp a b = .eq ∧ lexCmp cmp as bs = .lt)) := by
  show (match cmp a b with | .eq => lexCmp cmp as bs | o => o) = .lt ↔ _
  rcases h : cmp a b with _ | _ | _ <;> simp

theorem lexCmp_lt_trans {cmp : α → α → Ordering} (heq : ∀ a b, cmp a b = .eq → a = b)
    (htrans : ∀ {a b c}, cmp a b = .lt → cmp b c = .lt → cmp a c = .lt) :
    ∀ {x y z : List α}, lexCmp cmp x y = .lt → lexCmp cmp y z = .lt → lexCmp cmp x z = .lt := by
  intro x
  induction x with
  | nil =>
    intro y z h1 h2
    cases y with
    | nil => exact h2
    | cons b bs => cases z with
      | nil => simp [lexCmp] at h2
      | cons c cs => rfl
  | cons a as ih =>
    intro y z h1 h2
    cases y with
    | nil => simp [lexCmp] at h1
    | cons b bs =>
      cases z with
      | nil => simp [lexCmp] at h2
      | cons c cs =>
        rcases lexCmp_cons_lt_iff.mp h1 with hab | ⟨hab, htl1⟩ <;>
          rcases lexCmp_cons_lt_iff.mp h2 with hbc | ⟨hbc, htl2⟩
        · exact lexCmp_cons_lt_iff.mpr (.inl (htrans hab hbc))
        · obtain rfl := heq b c hbc
          exact lexCmp_cons_lt_iff.mpr (.inl hab)
        · obtain rfl := heq a b hab
          exact lexCmp_cons_lt_iff.mpr (.inl hbc)
        · obtain rfl := heq a b hab
          exact lexCmp_cons_lt_iff.mpr (.inr ⟨hbc, ih htl1 htl2⟩)

theorem strCmp_eq {s t : String} (h : strCmp s t = .eq) : s = t := by
  cases s with
  | mk ds =>
    cases t with
    | mk dt =>
      exact congrArg String.mk (lexCmp_eq (fun a b => charCmp_eq) h)

theorem strCmp_self (s : String) : strCmp s s = .eq :=
  lexCmp_self charCmp_self s.data

theorem strCmp_swap (s t : String) : strCmp s t = (strCmp t s).swap :=
  lexCmp_swap charCmp_swap s.data t.data

theorem strCmp_lt_trans {s t u : String} (h1 : strCmp s t = .lt) (h2 : strCmp t u = .lt) :
    strCmp s u = .lt :=
  lexCmp_lt_trans (fun a b => charCmp_eq) (fun hab hbc => charCmp_lt_trans hab hbc) h1 h2

theorem ne_gt_iff {o : Ordering} : o ≠ .gt ↔ o = .lt ∨ o = .eq := by
  cases o <;> simp

theorem ne_gt_total_of_swap {o p : Ordering} (h : o = p.swap) : o ≠ .gt ∨ p ≠ .gt := by
  cases p <;> simp [Ordering.swap] at h ⊢ <;> simp [h]

theorem ordLe_cases {o : Ordering} (h : ordLe o = true) : o = .lt ∨ o = .eq := by
  cases o
  · exact .inl rfl
  · exact .inr rfl
  · exact absurd h (by simp [ordLe])

theorem ordLe_total_of_swap {o p : Ordering} (h : o = p.swap) :
    ordLe o = true ∨ ordLe p = true := by
  cases p
  · exact .inr rfl
  · exact .inr rfl
  · subst h; exact .inl rfl

/-! ### The insertion sort modelling `sort_values` -/

theorem perm_insertSorted (le : α → α → Bool) (a : α) :
    ∀ l, List.Perm (insertSorted le a l) (a :: l) := by
  intro l
  induction l with
  | nil => exact .refl _
  | cons b l ih =>
    show List.Perm (if le a b then a :: b :: l else b :: insertSorted le a l) (a :: b :: l)
    cases h : le a b
    · rw [if_neg (by simp [h])]
      exact (ih.cons b).trans (List.Perm.swap a b l)
    · rw [if_pos (by simp [h])]

theorem perm_sortBy (le : α → α → Bool) : ∀ l, List.Perm (sortBy le l) l := by
  intro l
  induction l with
  | nil => exact .refl _
  | cons a l ih =>
    show List.Perm (insertSorted le a (sortBy le l)) (a :: l)
    exact (perm_insertSorted le a (sortBy le l)).trans (ih.cons a)

theorem pairwise_insertSorted {le : α → α → Bool}
    (htot : ∀ a b, le a b = true ∨ le b a = true)
    (htrans : ∀ {a b c}, le a b = true → le b c = true → le a c = true)
    (a : α) :
    ∀ {l}, l.Pairwise (fun x y => le x y = true) →
      (insertSorted le a l).Pairwise (fun x y => le x y = true) := by
  intro l
  induction l with
  | nil => intro _; exact List.pairwise_singleton _ _
  | cons b l ih =>
    intro hp
    have hb := (List.pairwise_cons.mp hp).1
    have hl := (List.pairwise_cons.mp hp).2
    show ((if le a b then a :: b :: l else b :: insertSorted le a l)).Pairwise _
    cases h : le a b
    · rw [if_neg (by simp [h])]
      have hba : le b a = true := (htot a b).resolve_left (by simp [h])
      refine List.pairwise_cons.mpr ⟨?_, ih hl⟩
      intro x hx
      rcases List.mem_cons.mp ((perm_insertSorted le a l).mem_iff.mp hx) with rfl | hxl
      · exact hba
      · exact hb x hxl
    · rw [if_pos (by simp [h])]
      refine List.pairwise_cons.mpr ⟨?_, hp⟩
      intro x hx
      rcases List.mem_cons.mp hx with rfl | hxl
      · exact h
      · exact htrans h (hb x hxl)

theorem pairwise_sortBy {le : α → α → Bool}
    (htot : ∀ a b, le a b = true ∨ le b a = true)
    (htrans : ∀ {a b c}, le a b = true → le b c = true → le a c = true) :
    ∀ l, (sortBy le l).Pairwise (fun x y => le x y = true) := by
  intro l
  induction l with
  | nil => exact List.Pairwise.nil
  | cons a l ih => exact pairwise_insertSorted htot htrans a ih

/-! ### C2 — `load_series_historicas` keeps the latest release -/

theorem leDivulg_refl (a : SerReg) : leDivulg a a = true := by
  unfold leDivulg; rw [strCmp_self]; rfl

theorem leDivulg_total (a b : SerReg) : leDivulg a b = true ∨ leDivulg b a = true :=
  ordLe_total_of_swap (strCmp_swap a.data_divulgacao b.data_divulgacao)

theorem leDivulg_trans {a b c : SerReg} (h1 : leDivulg a b = true) (h2 : leDivulg b c = true) :
    leDivulg a c = true := by
  unfold leDivulg at *
  rcases ordLe_cases h1 with h1 | h1 <;> rcases ordLe_cases h2 with h2 | h2
  · rw [strCmp_lt_trans h1 h2]; rfl
  · rw [strCmp_eq h2] at h1
    rw [h1]; rfl
  · rw [← strCmp_eq h1] at h2
    rw [h2]; rfl
  · rw [← strCmp_eq h1] at h2
    rw [h2]; rfl

theorem mem_of_mem_dropDupLast : ∀ {l : List SerReg} {r}, r ∈ dropDupLast l → r ∈ l := by
  intro l
  induction l with
  | nil => intro r h; exact absurd h (by simp [dropDupLast])
  | cons a l ih =>
    intro r h
    have h : r ∈ (if serKey a ∈ l.map serKey then dropDupLast l else a :: dropDupLast l) := h
    by_cases hmem : serKey a ∈ l.map serKey
    · rw [if_pos hmem] at h
      exact .tail _ (ih h)
    · rw [if_neg hmem] at h
      rcases List.mem_cons.mp h with rfl | h
      · exact .head _
      · exact .tail _ (ih h)

theorem dropDupLast_spec :
    ∀ (l : List SerReg), l.Pairwise (fun x y => leDivulg x y = true) →
      ∀ k, (∃ r ∈ l, serKey r = k) →
      ∃ w ∈ dropDupLast l, serKey w = k ∧ w ∈ l ∧
        (∀ r ∈ l, serKey r = k → leDivulg r w = true) ∧
        ((dropDupLast l).filter (fun r => decide (serKey r = k))).length = 1 := by
  intro l
  induction l with
  | nil => intro _ k hex; simp at hex
  | cons a l ih =>
    intro hpw k hex
    have ha := (List.pairwise_cons.mp hpw).1
    have hpl := (List.pairwise_cons.mp hpw).2
    by_cases hmem : serKey a ∈ l.map serKey
    · have hout : dropDupLast (a :: l) = dropDupLast l := by
        show (if serKey a ∈ l.map serKey then dropDupLast l else a :: dropDupLast l)
          = dropDupLast l
        rw [if_pos hmem]
      have hex' : ∃ r ∈ l, serKey r = k := by
        by_cases hk : serKey a = k
        · rcases List.mem_map.mp hmem with ⟨b, hb, hbk⟩
          exact ⟨b, hb, hbk.trans hk⟩
        · rcases hex with ⟨r, hr, hrk⟩
          rcases List.mem_cons.mp hr with rfl | hr
          · exact absurd hrk hk
          · exact ⟨r, hr, hrk⟩
      rcases ih hpl k hex' with ⟨w, hw, hwk, hwl, hmax, hcount⟩
      refine ⟨w, hout ▸ hw, hwk, .tail _ hwl, ?_, hout ▸ hcount⟩
      intro r hr hrk
      rcases List.mem_cons.mp hr with rfl | hr
      · exact ha w hwl
      · exact hmax r hr hrk
    · have hout : dropDupLast (a :: l) = a :: dropDupLast l := by
        show (if serKey a ∈ l.map serKey then dropDupLast l else a :: dropDupLast l)
          = a :: dropDupLast l
        rw [if_neg hmem]
      by_cases hk : serKey a = k
      · have hnone : ∀ r ∈ l, serKey r ≠ k := by
          intro r hr hrk
          exact hmem (List.mem_map.mpr ⟨r, hr, hrk.trans hk.symm⟩)
        refine ⟨a, hout ▸ List.mem_cons_self a _, hk, .head _, ?_, ?_⟩
        · intro r hr hrk
          rcases List.mem_cons.mp hr with rfl | hr
          · exact leDivulg_refl _
          · exact absurd hrk (hnone r hr)
        · rw [hout, List.filter_cons_of_pos (by simpa using hk)]
          have hnil : (dropDupLast l).filter (fun r => decide (serKey r = k)) = [] := by
            rw [List.filter_eq_nil_iff]
            intro r hr
            simpa using hnone r (mem_of_mem_dropDupLast hr)
          rw [hnil]
          rfl
      · have hex' : ∃ r ∈ l, serKey r = k := by
          rcases hex with ⟨r, hr, hrk⟩
          rcases List.mem_cons.mp hr with rfl | hr
          · exact absurd hrk hk
          · exact ⟨r, hr, hrk⟩
        rcases ih hpl k hex' with ⟨w, hw, hwk, hwl, hmax, hcount⟩
        refine ⟨w, hout ▸ List.mem_cons_of_mem a hw, hwk, .tail _ hwl, ?_, ?_⟩
        · intro r hr hrk
          rcases List.mem_cons.mp hr with rfl | hr
          · exact absurd hrk hk
          · exact hmax r hr hrk
        · rw [hout, List.filter_cons_of_neg (by simpa using hk)]
          exact hcount

/-- **C2.**  In `load_series_historicas`, for every collection of long-format
series records, among all records sharing the same
`(pagina, nom_inst, nom_atbt, data_base)` key exactly one survives
deduplication, and it is one whose `data_divulgacao` (release date) is the
greatest in that group. -/
theorem load_series_historicas_latest_release_wins
    (frames : List (List SerReg)) (k : List String)
    (hex : ∃ r ∈ frames.flatten, serKey r = k) :
    ∃ w ∈ load_series_historicas frames,
      serKey w = k ∧ w ∈ frames.flatten ∧
      (∀ r ∈ frames.flatten, serKey r = k → leDivulg r w = true) ∧
      ((load_series_historicas frames).filter (fun r => decide (serKey r = k))).length = 1 := by
  have hperm := perm_sortBy leDivulg frames.flatten
  have hsorted := pairwise_sortBy leDivulg_total (fun h1 h2 => leDivulg_trans h1 h2)
    frames.flatten
  have hex' : ∃ r ∈ sortBy leDivulg frames.flatten, serKey r = k := by
    rcases hex with ⟨r, hr, hk⟩
    exact ⟨r, hperm.mem_iff.mpr hr, hk⟩
  rcases dropDupLast_spec _ hsorted k hex' with ⟨w, hw, hwk, hwl, hmax, hcount⟩
  exact ⟨w, hw, hwk, hperm.mem_iff.mp hwl,
    fun r hr hk => hmax r (hperm.mem_iff.mpr hr) hk, hcount⟩

/-- Witness for C2: two records share the key
`("pag", "inst", "atbt", "2025-03-01")` with release dates `"2024-12-01"` and
`"2025-03-01"`; they collapse to a single record carrying the greater release
date. -/
theorem load_series_historicas_latest_release_wins_witness :
    ∃ w ∈ load_series_historicas
        [[⟨"pag", "inst", "atbt", "2025-03-01", "1T25", 100, "2024-12-01"⟩],
         [⟨"pag", "inst", "atbt", "2025-03-01", "1T25", 200, "2025-03-01"⟩]],
      serKey w = ["pag", "inst", "atbt", "2025-03-01"] ∧
      w ∈ ([[⟨"pag", "inst", "atbt", "2025-03-01", "1T25", 100, "2024-12-01"⟩],
            [⟨"pag", "inst", "atbt", "2025-03-01", "1T25", 200, "2025-03-01"⟩]] :
              List (List SerReg)).flatten ∧
      (∀ r ∈ ([[⟨"pag", "inst", "atbt", "2025-03-01", "1T25", 100, "2024-12-01"⟩],
               [⟨"pag", "inst", "atbt", "2025-03-01", "1T25", 200, "2025-03-01"⟩]] :
                 List (List SerReg)).flatten,
        serKey r = ["pag", "inst", "atbt", "2025-03-01"] → leDivulg r w = true) ∧
      ((load_series_historicas
          [[⟨"pag", "inst", "atbt", "2025-03-01", "1T25", 100, "2024-12-01"⟩],
           [⟨"pag", "inst", "atbt", "2025-03-01", "1T25", 200, "2025-03-01"⟩]]).filter
        (fun r => decide (serKey r = ["pag", "inst", "atbt", "2025-03-01"]))).length = 1 :=
  load_series_historicas_latest_release_wins
    [[⟨"pag", "inst", "atbt", "2025-03-01", "1T25", 100, "2024-12-01"⟩],
     [⟨"pag", "inst", "atbt", "2025-03-01", "1T25", 200, "2025-03-01"⟩]]
    ["pag", "inst", "atbt", "2025-03-01"] (by decide)

/-! ### C1 — `unify_origins` keeps the lowest priority per key -/

theorem keyCmp_eq {x y : List String} (h : lexCmp strCmp x y = .eq) : x = y :=
  lexCmp_eq (fun _ _ => strCmp_eq) h

theorem keyCmp_self (x : List String) : lexCmp strCmp x x = .eq :=
  lexCmp_self strCmp_self x

theorem keyCmp_swap (x y : List String) : lexCmp strCmp x y = (lexCmp strCmp y x).swap :=
  lexCmp_swap strCmp_swap x y

theorem keyCmp_lt_trans {x y z : List String} (h1 : lexCmp strCmp x y = .lt)
    (h2 : lexCmp strCmp y z = .lt) : lexCmp strCmp x z = .lt :=
  lexCmp_lt_trans (fun _ _ => strCmp_eq) (fun hab hbc => strCmp_lt_trans hab hbc) h1 h2

theorem natCmp_ordLe {a b : Nat} : ordLe (natCmp a b) = true ↔ a ≤ b := by
  rcases Nat.lt_trichotomy a b with h | h | h
  · simp [natCmp, h, ordLe, Nat.le_of_lt h]
  · subst h; simp [natCmp, ordLe]
  · simp [natCmp, h, Nat.lt_asymm h, ordLe]
    try omega

theorem regCmp_swap (a b : Reg) : regCmp a b = (regCmp b a).swap := by
  unfold regCmp
  rw [keyCmp_swap (regKey a) (regKey b)]
  rcases h : lexCmp strCmp (regKey b) (regKey a) with _ | _ | _
  · rfl
  · exact natCmp_swap _ _
  · rfl

theorem leReg_refl (a : Reg) : leReg a a = true := by
  unfold leReg regCmp
  rw [keyCmp_self]
  exact natCmp_ordLe.mpr (Nat.le_refl _)

theorem leReg_total (a b : Reg) : leReg a b = true ∨ leReg b a = true :=
  ordLe_total_of_swap (regCmp_swap a b)

theorem regCmp_cases {a b : Reg} (h : leReg a b = true) :
    lexCmp strCmp (regKey a) (regKey b) = .lt ∨
      (regKey a = regKey b ∧ a.prioridade ≤ b.prioridade) := by
  unfold leReg regCmp at h
  rcases hk : lexCmp strCmp (regKey a) (regKey b) with _ | _ | _ <;> rw [hk] at h
  · exact .inl rfl
  · exact .inr ⟨keyCmp_eq hk, natCmp_ordLe.mp h⟩
  · exact absurd h (by simp [ordLe])

theorem leReg_of_key_lt {a b : Reg} (h : lexCmp strCmp (regKey a) (regKey b) = .lt) :
    leReg a b = true := by
  unfold leReg regCmp
  rw [h]
  rfl

theorem leReg_of_key_eq_le {a b : Reg} (hk : regKey a = regKey b)
    (hp : a.prioridade ≤ b.prioridade) : leReg a b = true := by
  unfold leReg regCmp
  rw [hk, keyCmp_self]
  exact natCmp_ordLe.mpr hp

theorem leReg_trans {a b c : Reg} (h1 : leReg a b = true) (h2 : leReg b c = true) :
    leReg a c = true := by
  rcases regCmp_cases h1 with hk1 | ⟨hk1, hp1⟩ <;> rcases regCmp_cases h2 with hk2 | ⟨hk2, hp2⟩
  · exact leReg_of_key_lt (keyCmp_lt_trans hk1 hk2)
  · exact leReg_of_key_lt (hk2 ▸ hk1)
  · exact leReg_of_key_lt (hk1 ▸ hk2)
  · exact leReg_of_key_eq_le (hk1.trans hk2) (Nat.le_trans hp1 hp2)

theorem leReg_same_key_le {a b : Reg} (hk : regKey a = regKey b) (h : leReg a b = true) :
    a.prioridade ≤ b.prioridade := by
  rcases regCmp_cases h with hlt | ⟨_, hp⟩
  · rw [hk, keyCmp_self] at hlt
    exact absurd hlt (by simp)
  · exact hp

theorem mem_of_mem_dropDupFirst :
    ∀ {l : List Reg} {seen r}, r ∈ dropDupFirst seen l → r ∈ l := by
  intro l
  induction l with
  | nil => intro seen r h; exact absurd h (by simp [dropDupFirst])
  | cons a l ih =>
    intro seen r h
    have h : r ∈ (if regKey a ∈ seen then dropDupFirst seen l
        else a :: dropDupFirst (regKey a :: seen) l) := h
    by_cases hin : regKey a ∈ seen
    · rw [if_pos hin] at h
      exact .tail _ (ih h)
    · rw [if_neg hin] at h
      rcases List.mem_cons.mp h with rfl | h
      · exact .head _
      · exact .tail _ (ih h)

theorem key_not_seen_of_mem_dropDupFirst :
    ∀ {l : List Reg} {seen r}, r ∈ dropDupFirst seen l → regKey r ∉ seen := by
  intro l
  induction l with
  | nil => intro seen r h; exact absurd h (by simp [dropDupFirst])
  | cons a l ih =>
    intro seen r h
    have h : r ∈ (if regKey a ∈ seen then dropDupFirst seen l
        else a :: dropDupFirst (regKey a :: seen) l) := h
    by_cases hin : regKey a ∈ seen
    · rw [if_pos hin] at h
      exact ih h
    · rw [if_neg hin] at h
      rcases List.mem_cons.mp h with rfl | h
      · exact hin
      · intro hc
        exact ih h (List.mem_cons_of_mem _ hc)

theorem dropDupFirst_spec :
    ∀ (l : List Reg) (seen : List (List String)) k, k ∉ seen →
      l.Pairwise (fun x y => leReg x y = true) → (∃ r ∈ l, regKey r = k) →
      ∃ w ∈ dropDupFirst seen l, regKey w = k ∧ w ∈ l ∧
        (∀ r ∈ l, regKey r = k → leReg w r = true) ∧
        ((dropDupFirst seen l).filter (fun r => decide (regKey r = k))).length = 1 := by
  intro l
  induction l with
  | nil => intro seen k _ _ hex; simp at hex
  | cons a l ih =>
    intro seen k hks hpw hex
    have ha := (List.pairwise_cons.mp hpw).1
    have hpl := (List.pairwise_cons.mp hpw).2
    by_cases hin : regKey a ∈ seen
    · have hout : dropDupFirst seen (a :: l) = dropDupFirst seen l := by
        show (if regKey a ∈ seen then dropDupFirst seen l
          else a :: dropDupFirst (regKey a :: seen) l) = dropDupFirst seen l
        rw [if_pos hin]
      have hk : regKey a ≠ k := fun hc => hks (hc ▸ hin)
      have hex' : ∃ r ∈ l, regKey r = k := by
        rcases hex with ⟨r, hr, hrk⟩
        rcases List.mem_cons.mp hr with rfl | hr
        · exact absurd hrk hk
        · exact ⟨r, hr, hrk⟩
      rcases ih seen k hks hpl hex' with ⟨w, hw, hwk, hwl, hmin, hcount⟩
      refine ⟨w, hout ▸ hw, hwk, .tail _ hwl, ?_, hout ▸ hcount⟩
      intro r hr hrk
      rcases List.mem_cons.mp hr with rfl | hr
      · exact absurd hrk hk
      · exact hmin r hr hrk
    · have hout : dropDupFirst seen (a :: l)
          = a :: dropDupFirst (regKey a :: seen) l := by
        show (if regKey a ∈ seen then dropDupFirst seen l
          else a :: dropDupFirst (regKey a :: seen) l)
          = a :: dropDupFirst (regKey a :: seen) l
        rw [if_neg hin]
      by_cases hk : regKey a = k
      · refine ⟨a, hout ▸ List.mem_cons_self a _, hk, .head _, ?_, ?_⟩
        · intro r hr _
          rcases List.mem_cons.mp hr with rfl | hr
          · exact leReg_refl _
          · exact ha r hr
        · rw [hout, List.filter_cons_of_pos (by simpa using hk)]
          have hnil : (dropDupFirst (regKey a :: seen) l).filter
              (fun r => decide (regKey r = k)) = [] := by
            rw [List.filter_eq_nil_iff]
            intro r hr
            have := key_not_seen_of_mem_dropDupFirst hr
            simp only [decide_eq_true_eq]
            intro hrk
            exact this (by rw [hrk, ← hk]; exact List.mem_cons_self _ _)
          rw [hnil]
          rfl
      · have hks' : k ∉ regKey a :: seen := by
          intro hc
          rcases List.mem_cons.mp hc with hc | hc
          · exact hk hc.symm
          · exact hks hc
        have hex' : ∃ r ∈ l, regKey r = k := by
          rcases hex with ⟨r, hr, hrk⟩
          rcases List.mem_cons.mp hr with rfl | hr
          · exact absurd hrk hk
          · exact ⟨r, hr, hrk⟩
        rcases ih (regKey a :: seen) k hks' hpl hex' with ⟨w, hw, hwk, hwl, hmin, hcount⟩
        refine ⟨w, hout ▸ List.mem_cons_of_mem a hw, hwk, .tail _ hwl, ?_, ?_⟩
        · intro r hr hrk
          rcases List.mem_cons.mp hr with rfl | hr
          · exact absurd hrk hk
          · exact hmin r hr hrk
        · rw [hout, List.filter_cons_of_neg (by simpa using hk)]
          exact hcount

theorem process_manual_tags {mp : List MapRow} {ml : List LongRow} {r : Reg}
    (h : r ∈ process_manual mp ml) : r.prioridade = 1 ∧ r.origem = "manual" := by
  rcases List.mem_flatMap.mp h with ⟨m, _, hr⟩
  rcases List.mem_map.mp hr with ⟨x, _, rfl⟩
  exact ⟨rfl, rfl⟩

theorem process_historico_tags {mp : List MapRow} {hl : List LongRow} {r : Reg}
    (h : r ∈ process_historico mp hl) : r.prioridade = 3 ∧ r.origem = "historico" := by
  rcases List.mem_flatMap.mp h with ⟨m, _, hr⟩
  rcases List.mem_map.mp hr with ⟨x, _, rfl⟩
  exact ⟨rfl, rfl⟩

/-- **C1.**  In `unify_origins`, after concatenating the manual,
series/reserved, computed and historical branch outputs, every
`(tipo, nom_inst, nom_ind, nom_grup, nom_atbt, dat_base_info)` group keeps
exactly one record, one with the lowest `prioridade` of the group
(manual = 1 beats series/computed = 2 beats historical = 3); in particular,
whenever both a manual and a historical record exist for the identical
six-part key, the kept record is a manual one. -/
theorem unify_origins_lowest_priority_wins
    (mapping_df : List MapRow) (manual_df historico_df : List LongRow)
    (origin_df calc_df : List Reg)
    (ho : ∀ r ∈ origin_df, r.prioridade = 2)
    (hc : ∀ r ∈ calc_df, r.prioridade = 2)
    (k : List String)
    (hex : ∃ r ∈ process_manual mapping_df manual_df ++ origin_df ++ calc_df
        ++ process_historico mapping_df historico_df, regKey r = k) :
    ∃ w ∈ unify_origins (process_manual mapping_df manual_df) origin_df calc_df
        (process_historico mapping_df historico_df),
      regKey w = k
      ∧ w ∈ process_manual mapping_df manual_df ++ origin_df ++ calc_df
          ++ process_historico mapping_df historico_df
      ∧ (∀ r ∈ process_manual mapping_df manual_df ++ origin_df ++ calc_df
          ++ process_historico mapping_df historico_df,
          regKey r = k → w.prioridade ≤ r.prioridade)
      ∧ ((unify_origins (process_manual mapping_df manual_df) origin_df calc_df
          (process_historico mapping_df historico_df)).filter
            (fun r => decide (regKey r = k))).length = 1
      ∧ ((∃ m ∈ process_manual mapping_df manual_df, regKey m = k) →
          (∃ h ∈ process_historico mapping_df historico_df, regKey h = k) →
          w ∈ process_manual mapping_df manual_df) := by
  have hperm := perm_sortBy leReg (process_manual mapping_df manual_df ++ origin_df
    ++ calc_df ++ process_historico mapping_df historico_df)
  have hsorted := pairwise_sortBy leReg_total (fun h1 h2 => leReg_trans h1 h2)
    (process_manual mapping_df manual_df ++ origin_df ++ calc_df
      ++ process_historico mapping_df historico_df)
  have hex' : ∃ r ∈ sortBy leReg (process_manual mapping_df manual_df ++ origin_df
      ++ calc_df ++ process_historico mapping_df historico_df), regKey r = k := by
    rcases hex with ⟨r, hr, hk⟩
    exact ⟨r, hperm.mem_iff.mpr hr, hk⟩
  rcases dropDupFirst_spec _ [] k (by simp) hsorted hex' with
    ⟨w, hw, hwk, hwl, hmin, hcount⟩
  have hwall := hperm.mem_iff.mp hwl
  refine ⟨w, hw, hwk, hwall, ?_, hcount, ?_⟩
  · intro r hr hrk
    exact leReg_same_key_le (hwk.trans hrk.symm) (hmin r (hperm.mem_iff.mpr hr) hrk)
  · intro hman _
    rcases hman with ⟨m, hm, hmk⟩
    have hmall : m ∈ process_manual mapping_df manual_df ++ origin_df ++ calc_df
        ++ process_historico mapping_df historico_df := by
      simp only [List.mem_append]
      tauto
    have hwp : w.prioridade ≤ m.prioridade :=
      leReg_same_key_le (hwk.trans hmk.symm) (hmin m (hperm.mem_iff.mpr hmall) hmk)
    rw [(process_manual_tags hm).1] at hwp
    simp only [List.mem_append] at hwall
    rcases hwall with ((hwm | hwo) | hwc) | hwh
    · exact hwm
    · rw [ho w hwo] at hwp
      omega
    · rw [hc w hwc] at hwp
      omega
    · rw [(process_historico_tags hwh).1] at hwp
      omega

/-- Witness for C1: one mapping row joined against one manual value (42)
and one historical value (7) for the same key and date; the unified output
keeps the manual record. -/
theorem unify_origins_lowest_priority_wins_witness :
    ∃ w ∈ unify_origins
        (process_manual [⟨"input", "inst", "ind", "grup", "atbt", "entradas_manuais",
            "", "", ""⟩]
          [⟨"input", "inst", "ind", "grup", "atbt", "2025-03-01", 42, "2025-07-01"⟩])
        [] []
        (process_historico [⟨"input", "inst", "ind", "grup", "atbt", "entradas_manuais",
            "", "", ""⟩]
          [⟨"input", "inst", "ind", "grup", "atbt", "2025-03-01", 7, "2025-03-01"⟩]),
      regKey w = ["input", "inst", "ind", "grup", "atbt", "2025-03-01"]
      ∧ w ∈ process_manual [⟨"input", "inst", "ind", "grup", "atbt", "entradas_manuais",
            "", "", ""⟩]
          [⟨"input", "inst", "ind", "grup", "atbt", "2025-03-01", 42, "2025-07-01"⟩]
          ++ [] ++ []
          ++ process_historico [⟨"input", "inst", "ind", "grup", "atbt", "entradas_manuais",
            "", "", ""⟩]
          [⟨"input", "inst", "ind", "grup", "atbt", "2025-03-01", 7, "2025-03-01"⟩]
      ∧ (∀ r ∈ process_manual [⟨"input", "inst", "ind", "grup", "atbt", "entradas_manuais",
            "", "", ""⟩]
          [⟨"input", "inst", "ind", "grup", "atbt", "2025-03-01", 42, "2025-07-01"⟩]
          ++ [] ++ []
          ++ process_historico [⟨"input", "inst", "ind", "grup", "atbt", "entradas_manuais",
            "", "", ""⟩]
          [⟨"input", "inst", "ind", "grup", "atbt", "2025-03-01", 7, "2025-03-01"⟩],
          regKey r = ["input", "inst", "ind", "grup", "atbt", "2025-03-01"] →
            w.prioridade ≤ r.prioridade)
      ∧ ((unify_origins
          (process_manual [⟨"input", "inst", "ind", "grup", "atbt", "entradas_manuais",
              "", "", ""⟩]
            [⟨"input", "inst", "ind", "grup", "atbt", "2025-03-01", 42, "2025-07-01"⟩])
          [] []
          (process_historico [⟨"input", "inst", "ind", "grup", "atbt", "entradas_manuais",
              "", "", ""⟩]
            [⟨"input", "inst", "ind", "grup", "atbt", "2025-03-01", 7, "2025-03-01"⟩])).filter
            (fun r => decide
              (regKey r = ["input", "inst", "ind", "grup", "atbt", "2025-03-01"]))).length = 1
      ∧ ((∃ m ∈ process_manual [⟨"input", "inst", "ind", "grup", "atbt", "entradas_manuais",
              "", "", ""⟩]
            [⟨"input", "inst", "ind", "grup", "atbt", "2025-03-01", 42, "2025-07-01"⟩],
            regKey m = ["input", "inst", "ind", "grup", "atbt", "2025-03-01"]) →
          (∃ h ∈ process_historico [⟨"input", "inst", "ind", "grup", "atbt",
              "entradas_manuais", "", "", ""⟩]
            [⟨"input", "inst", "ind", "grup", "atbt", "2025-03-01", 7, "2025-03-01"⟩],
            regKey h = ["input", "inst", "ind", "grup", "atbt", "2025-03-01"]) →
          w ∈ process_manual [⟨"input", "inst", "ind", "grup", "atbt", "entradas_manuais",
              "", "", ""⟩]
            [⟨"input", "inst", "ind", "grup", "atbt", "2025-03-01", 42, "2025-07-01"⟩]) :=
  unify_origins_lowest_priority_wins
    [⟨"input", "inst", "ind", "grup", "atbt", "entradas_manuais", "", "", ""⟩]
    [⟨"input", "inst", "ind", "grup", "atbt", "2025-03-01", 42, "2025-07-01"⟩]
    [⟨"input", "inst", "ind", "grup", "atbt", "2025-03-01", 7, "2025-03-01"⟩]
    [] []
    (by simp) (by simp)
    ["input", "inst", "ind", "grup", "atbt", "2025-03-01"]
    (by decide)

/-! ### C3 — `evaluate_formula` -/

theorem mem_dropLast_of_ne_getLast :
    ∀ {l : List Char} {c x : Char}, l.getLast? = some x → c ∈ l → c ≠ x → c ∈ l.dropLast := by
  intro l
  induction l with
  | nil => intro c x _ hc _; cases hc
  | cons a l ih =>
    intro c x hx hc hne
    cases l with
    | nil =>
      have : a = x := by simpa using hx
      rcases List.mem_singleton.mp hc with rfl
      exact absurd this hne
    | cons b l2 =>
      have hx2 : (b :: l2).getLast? = some x := by
        rw [← hx]
        exact List.getLast?_cons_cons.symm
      rcases List.mem_cons.mp hc with rfl | hc2
      · show c ∈ c :: (b :: l2).dropLast
        exact .head _
      · show c ∈ a :: (b :: l2).dropLast
        exact .tail _ (ih hx2 hc2 hne)

theorem substTokens_one_ref (date inst ind : String) (base : List BaseReg) :
    substTokens "[input|grupoA|atbt1]" date inst ind base
      = strReplace "[input|grupoA|atbt1]".data
          (match lookupRef base "input" inst ind "grupoA" "atbt1" date with
            | some r => (pyFloatStr r.valor).data
            | none => ['0'])
          ("[input|grupoA|atbt1]".data.length + 1)
          "[input|grupoA|atbt1]".data := rfl

theorem substTokens_two_refs (date inst ind : String) (base : List BaseReg) :
    substTokens "[input|grupoA|atbt1]+[input|grupoA|atbt2]" date inst ind base
      = (let e1 := strReplace "[input|grupoA|atbt1]".data
            (match lookupRef base "input" inst ind "grupoA" "atbt1" date with
              | some r => (pyFloatStr r.valor).data
              | none => ['0'])
            ("[input|grupoA|atbt1]+[input|grupoA|atbt2]".data.length + 1)
            "[input|grupoA|atbt1]+[input|grupoA|atbt2]".data
         strReplace "[input|grupoA|atbt2]".data
            (match lookupRef base "input" inst ind "grupoA" "atbt2" date with
              | some r => (pyFloatStr r.valor).data
              | none => ['0'])
            (e1.length + 1) e1) := rfl

/-- **C3.**  `evaluate_formula` resolves each bracketed reference
`[tipo|grupo|atbt]` by exact six-part lookup in the series+historical
computation base, substituting its value or `0` when no base record matches;
the substituted expression is accepted only if it consists solely of digits,
the four operators, parentheses, decimal points and whitespace; any
disallowed character (or evaluation failure) yields no record; the formula
`"[input|grupoA|atbt1]+[input|grupoA|atbt2]"` with base values 10 and 5 at a
reporting date evaluates to 15. -/
theorem evaluate_formula_spec :
    (∀ (f date tipo inst ind : String) (base : List BaseReg) (v : ℚ),
        evaluate_formula f date tipo inst ind base = some v →
        pyMatchArith (substTokens f date inst ind base) = true)
    ∧ (∀ (f date tipo inst ind : String) (base : List BaseReg),
        (∃ c ∈ substTokens f date inst ind base, allowedChar c = false ∧ c ≠ '\n') →
        evaluate_formula f date tipo inst ind base = none)
    ∧ (∀ (date tipo inst ind : String) (base : List BaseReg),
        lookupRef base "input" inst ind "grupoA" "atbt1" date = none →
        evaluate_formula "[input|grupoA|atbt1]" date tipo inst ind base = some 0)
    ∧ (∀ (date tipo inst ind : String) (base : List BaseReg) (r1 r2 : BaseReg),
        lookupRef base "input" inst ind "grupoA" "atbt1" date = some r1 → r1.valor = 10 →
        lookupRef base "input" inst ind "grupoA" "atbt2" date = some r2 → r2.valor = 5 →
        evaluate_formula "[input|grupoA|atbt1]+[input|grupoA|atbt2]" date tipo inst ind base
          = some 15) := by
  refine ⟨?_, ?_, ?_, ?_⟩
  · intro f date tipo inst ind base v h
    simp only [evaluate_formula] at h
    by_cases hv : pyMatchArith (substTokens f date inst ind base) = true
    · exact hv
    · rw [Bool.not_eq_true] at hv
      rw [hv] at h
      simp at h
  · intro f date tipo inst ind base hex
    rcases hex with ⟨c, hc, hbad, hnl⟩
    simp only [evaluate_formula]
    have hfalse : pyMatchArith (substTokens f date inst ind base) = false := by
      simp only [pyMatchArith]
      by_cases hl : (substTokens f date inst ind base).getLast? = some '\n'
      · rw [if_pos hl]
        have hmem : c ∈ (substTokens f date inst ind base).dropLast :=
          mem_dropLast_of_ne_getLast hl hc hnl
        have hall : (substTokens f date inst ind base).dropLast.all allowedChar = false := by
          by_contra hcon
          rw [Bool.not_eq_false] at hcon
          have := List.all_eq_true.mp hcon c hmem
          rw [hbad] at this
          exact Bool.noConfusion this
        rw [hall, Bool.and_false]
      · rw [if_neg hl]
        have hall : (substTokens f date inst ind base).all allowedChar = false := by
          by_contra hcon
          rw [Bool.not_eq_false] at hcon
          have := List.all_eq_true.mp hcon c hc
          rw [hbad] at this
          exact Bool.noConfusion this
        rw [hall, Bool.and_false]
    rw [hfalse]
    simp
  · intro date tipo inst ind base hlook
    simp only [evaluate_formula, substTokens_one_ref, hlook]
    with_unfolding_all rfl
  · intro date tipo inst ind base r1 r2 hlook1 hval1 hlook2 hval2
    simp only [evaluate_formula, substTokens_two_refs, hlook1, hlook2, hval1, hval2]
    with_unfolding_all rfl

/-- Witness for C3: a two-record base holding 10 and 5 for the two referenced
attributes at `"2025-03-01"`; the example formula evaluates to 15. -/
theorem evaluate_formula_spec_witness :
    evaluate_formula "[input|grupoA|atbt1]+[input|grupoA|atbt2]" "2025-03-01" "input"
        "inst" "ind"
        [⟨"input", "inst", "ind", "grupoA", "atbt1", "2025-03-01", 10⟩,
         ⟨"input", "inst", "ind", "grupoA", "atbt2", "2025-03-01", 5⟩] = some 15 :=
  evaluate_formula_spec.2.2.2 "2025-03-01" "input" "inst" "ind"
    [⟨"input", "inst", "ind", "grupoA", "atbt1", "2025-03-01", 10⟩,
     ⟨"input", "inst", "ind", "grupoA", "atbt2", "2025-03-01", 5⟩]
    ⟨"input", "inst", "ind", "grupoA", "atbt1", "2025-03-01", 10⟩
    ⟨"input", "inst", "ind", "grupoA", "atbt2", "2025-03-01", 5⟩
    (by with_unfolding_all rfl) rfl (by with_unfolding_all rfl) rfl

/-! ### C9 — `normalize_name` is idempotent and normalising -/

theorem char_toNat_ofNat {n : Nat} (h : n < 55296) : (Char.ofNat n).toNat = n := by
  have hv : n.isValidChar := Or.inl h
  unfold Char.ofNat
  rw [dif_pos hv]
  simp [Char.ofNatAux, Char.toNat, UInt32.toNat]

theorem char_eq_of_toNat {c d : Char} (h : c.toNat = d.toNat) : c = d :=
  Char.eq_of_val_eq (UInt32.toNat.inj h)

theorem combining_iff {c : Char} : combining c = true ↔ 768 ≤ c.toNat ∧ c.toNat ≤ 879 := by
  simp [combining]

theorem isPySpace_iff {c : Char} :
    isPySpace c = true ↔
      ((9 ≤ c.toNat ∧ c.toNat ≤ 13) ∨ c.toNat = 32 ∨ (28 ≤ c.toNat ∧ c.toNat ≤ 31)
        ∨ c.toNat = 133 ∨ c.toNat = 160 ∨ c.toNat = 5760
        ∨ (8192 ≤ c.toNat ∧ c.toNat ≤ 8202) ∨ c.toNat = 8232 ∨ c.toNat = 8233
        ∨ c.toNat = 8239 ∨ c.toNat = 8287 ∨ c.toNat = 12288) := by
  simp [isPySpace]
  tauto

theorem hyphen_toNat {c : Char} : c = '-' ↔ c.toNat = 45 := by
  constructor
  · rintro rfl; rfl
  · exact fun h => char_eq_of_toNat h

theorem decompTable_entries : ∀ e ∈ decompTable,
    192 ≤ e.1 ∧ e.1 ≤ 255 ∧ 65 ≤ e.2.1 ∧ e.2.1 ≤ 122 ∧ 768 ≤ e.2.2 ∧ e.2.2 ≤ 879 := by
  decide

theorem nfkdChar_self_of_notin {c : Char} (h : ∀ e ∈ decompTable, e.1 ≠ c.toNat) :
    nfkdChar c = [c] := by
  unfold nfkdChar
  rw [List.find?_eq_none.mpr (fun e he => by simpa using h e he)]

theorem nfkdChar_self_of_lt {c : Char} (h : c.toNat < 192) : nfkdChar c = [c] :=
  nfkdChar_self_of_notin (fun e he => by have := decompTable_entries e he; omega)

theorem nfkdChar_self_of_gt {c : Char} (h : 255 < c.toNat) : nfkdChar c = [c] :=
  nfkdChar_self_of_notin (fun e he => by have := decompTable_entries e he; omega)

theorem nfkd_image {c x : Char} (hx : x ∈ nfkdChar c) :
    combining x = true ∨ nfkdChar x = [x] := by
  unfold nfkdChar at hx
  rcases hfind : decompTable.find? (fun e => decide (e.1 = c.toNat)) with _ | e
  · rw [hfind] at hx
    rcases List.mem_singleton.mp hx with rfl
    right
    unfold nfkdChar
    rw [hfind]
  · rw [hfind] at hx
    have he := decompTable_entries e (List.mem_of_find?_eq_some hfind)
    rcases List.mem_cons.mp hx with rfl | hx2
    · right
      exact nfkdChar_self_of_lt (by rw [char_toNat_ofNat (by omega)]; omega)
    · rcases List.mem_singleton.mp hx2 with rfl
      left
      rw [combining_iff, char_toNat_ofNat (by omega)]
      omega

theorem lowerChar_toNat (c : Char) :
    (lowerChar c).toNat
      = if (65 ≤ c.toNat ∧ c.toNat ≤ 90) ∨ (192 ≤ c.toNat ∧ c.toNat ≤ 222 ∧ c.toNat ≠ 215)
        then c.toNat + 32 else c.toNat := by
  unfold lowerChar
  by_cases ha : 65 ≤ c.toNat ∧ c.toNat ≤ 90
  · rw [if_pos (by simp [ha.1, ha.2]), char_toNat_ofNat (by omega), if_pos (.inl ha)]
  · by_cases hb : 192 ≤ c.toNat ∧ c.toNat ≤ 222 ∧ c.toNat ≠ 215
    · rw [if_neg (by simp; omega), if_pos (by simp [hb.1, hb.2.1, hb.2.2]),
        char_toNat_ofNat (by omega), if_pos (.inr hb)]
    · rw [if_neg (by simp; omega), if_neg (by simp; omega), if_neg (by tauto)]

theorem lowerChar_eq_self {c : Char}
    (h : ¬((65 ≤ c.toNat ∧ c.toNat ≤ 90) ∨ (192 ≤ c.toNat ∧ c.toNat ≤ 222 ∧ c.toNat ≠ 215))) :
    lowerChar c = c := by
  unfold lowerChar
  rw [if_neg (by simp; omega), if_neg (by simp; omega)]

theorem lowerChar_idem (c : Char) : lowerChar (lowerChar c) = lowerChar c := by
  by_cases h : (65 ≤ c.toNat ∧ c.toNat ≤ 90) ∨ (192 ≤ c.toNat ∧ c.toNat ≤ 222 ∧ c.toNat ≠ 215)
  · apply lowerChar_eq_self
    rw [lowerChar_toNat, if_pos h]
    omega
  · rw [lowerChar_eq_self h]
    exact lowerChar_eq_self h

theorem nfkd_lower_self {c : Char} (hc : nfkdChar c = [c]) :
    nfkdChar (lowerChar c) = [lowerChar c] := by
  by_cases ha : 65 ≤ c.toNat ∧ c.toNat ≤ 90
  · apply nfkdChar_self_of_lt
    rw [lowerChar_toNat, if_pos (.inl ha)]
    omega
  · by_cases hb : 192 ≤ c.toNat ∧ c.toNat ≤ 222 ∧ c.toNat ≠ 215
    · have hn : c.toNat = 198 ∨ c.toNat = 208 ∨ c.toNat = 216 ∨ c.toNat = 222 := by
        by_contra hcon
        push_neg at hcon
        have hcov : (List.range 223).all
            (fun n => !(decide (192 ≤ n)) || decide (n = 198) || decide (n = 208)
              || decide (n = 215) || decide (n = 216) || decide (n = 222)
              || decompTable.any (fun e => decide (e.1 = n))) = true := by decide
        have hx := List.all_eq_true.mp hcov c.toNat (List.mem_range.mpr (by omega))
        simp only [Bool.or_eq_true, Bool.not_eq_true', decide_eq_true_eq,
          decide_eq_false_iff_not] at hx
        have hany : decompTable.any (fun e => decide (e.1 = c.toNat)) = true := by
          rcases hb with ⟨hb1, hb2, hb3⟩
          tauto
        rcases List.any_eq_true.mp hany with ⟨e, he, hpe⟩
        have hsome : (decompTable.find? (fun e => decide (e.1 = c.toNat))).isSome :=
          List.find?_isSome.mpr ⟨e, he, hpe⟩
        unfold nfkdChar at hc
        rcases hfind : decompTable.find? (fun e => decide (e.1 = c.toNat)) with _ | e2
        · rw [hfind] at hsome
          simp at hsome
        · rw [hfind] at hc
          simp at hc
      apply nfkdChar_self_of_notin
      intro e heTab
      have hkeys : ∀ e2 ∈ decompTable, e2.1 ≠ 230 ∧ e2.1 ≠ 240 ∧ e2.1 ≠ 248 ∧ e2.1 ≠ 254 := by
        decide
      have h1 := hkeys e heTab
      rw [lowerChar_toNat, if_pos (.inr hb)]
      omega
    · rw [lowerChar_eq_self (by tauto)]
      exact hc

theorem survivor_lower_good {y : Char} (himg : nfkdChar y = [y]) (hcomb : combining y = false)
    (hsp : isPySpace y = false) (hhy : y ≠ '-') :
    nfkdChar (lowerChar y) = [lowerChar y] ∧ combining (lowerChar y) = false
      ∧ isPySpace (lowerChar y) = false ∧ lowerChar y ≠ '-'
      ∧ lowerChar (lowerChar y) = lowerChar y := by
  have hcomb2 : ¬(768 ≤ y.toNat ∧ y.toNat ≤ 879) := by
    rw [← combining_iff, hcomb]
    simp
  have hsp2 := isPySpace_iff (c := y)
  rw [hsp] at hsp2
  simp at hsp2
  have hhy2 : y.toNat ≠ 45 := fun h => hhy (char_eq_of_toNat h)
  have hlt := lowerChar_toNat y
  refine ⟨nfkd_lower_self himg, ?_, ?_, ?_, lowerChar_idem y⟩
  · rw [← Bool.not_eq_true, combining_iff]
    by_cases h : (65 ≤ y.toNat ∧ y.toNat ≤ 90) ∨ (192 ≤ y.toNat ∧ y.toNat ≤ 222 ∧ y.toNat ≠ 215)
    · rw [if_pos h] at hlt
      omega
    · rw [if_neg h] at hlt
      omega
  · rw [← Bool.not_eq_true, isPySpace_iff]
    by_cases h : (65 ≤ y.toNat ∧ y.toNat ≤ 90) ∨ (192 ≤ y.toNat ∧ y.toNat ≤ 222 ∧ y.toNat ≠ 215)
    · rw [if_pos h] at hlt
      omega
    · rw [if_neg h] at hlt
      omega
  · intro hEq
    have h45 : (lowerChar y).toNat = 45 := hyphen_toNat.mp hEq
    by_cases h : (65 ≤ y.toNat ∧ y.toNat ≤ 90) ∨ (192 ≤ y.toNat ∧ y.toNat ≤ 222 ∧ y.toNat ≠ 215)
    · rw [if_pos h] at hlt
      omega
    · rw [if_neg h] at hlt
      omega

theorem normList_append (u v : List Char) : normList (u ++ v) = normList u ++ normList v := by
  simp [normList]

theorem normList_singleton_good {c : Char} (h1 : nfkdChar c = [c]) (h2 : combining c = false)
    (h3 : isPySpace c = false) (h4 : c ≠ '-') : normList [c] = [lowerChar c] := by
  simp [normList, h1, h2, h3, h4]

theorem normList_good_mem {l : List Char} {c : Char} (hc : c ∈ normList l) :
    nfkdChar c = [c] ∧ combining c = false ∧ isPySpace c = false ∧ c ≠ '-'
      ∧ lowerChar c = c := by
  unfold normList at hc
  rcases List.mem_map.mp hc with ⟨y, hy, rfl⟩
  rcases List.mem_filter.mp hy with ⟨hy1, hy2⟩
  rcases List.mem_filter.mp hy1 with ⟨hy0, hyc⟩
  have hcomb : combining y = false := by simpa using hyc
  simp only [Bool.not_eq_true', Bool.or_eq_false_iff, decide_eq_false_iff_not] at hy2
  have hsp : isPySpace y = false := hy2.1
  have hhy : y ≠ '-' := hy2.2
  rcases List.mem_flatMap.mp hy0 with ⟨c0, _, hyimg⟩
  have himg : nfkdChar y = [y] := by
    rcases nfkd_image hyimg with h | h
    · rw [h] at hcomb
      exact Bool.noConfusion hcomb
    · exact h
  exact survivor_lower_good himg hcomb hsp hhy

theorem normList_fixed {l : List Char}
    (h : ∀ c ∈ l, nfkdChar c = [c] ∧ combining c = false ∧ isPySpace c = false ∧ c ≠ '-'
      ∧ lowerChar c = c) : normList l = l := by
  induction l with
  | nil => rfl
  | cons a l ih =>
    have ha := h a (.head _)
    have happ : normList (a :: l) = normList [a] ++ normList l := normList_append [a] l
    rw [happ, normList_singleton_good ha.1 ha.2.1 ha.2.2.1 ha.2.2.2.1, ha.2.2.2.2,
      ih (fun c hc => h c (.tail _ hc))]
    rfl

/-- **C9.**  `normalize_name` (identical in `bradesco_series.py` and
`itau_series.py`) is idempotent; its output contains no character that the
case mapping would change, no combining diacritical mark, no whitespace and
no hyphen; and two strings differing only by a removable whitespace/hyphen
character, by an accent (precomposed letter vs its base), or by letter case
normalize identically. -/
theorem normalize_name_idempotent :
    (∀ s : String, normalize_name (normalize_name s) = normalize_name s)
    ∧ (∀ s : String, ∀ c ∈ (normalize_name s).data,
        lowerChar c = c ∧ combining c = false ∧ isPySpace c = false ∧ c ≠ '-')
    ∧ (∀ (u v : List Char) (c : Char), (isPySpace c || c = '-') = true →
        normalize_name ⟨u ++ c :: v⟩ = normalize_name ⟨u ++ v⟩)
    ∧ (∀ (u v : List Char) (c b m : Char), nfkdChar c = [b, m] → combining m = true →
        combining b = false →
        normalize_name ⟨u ++ c :: v⟩ = normalize_name ⟨u ++ b :: v⟩)
    ∧ (∀ (u v : List Char) (c d : Char), nfkdChar c = [c] → nfkdChar d = [d] →
        combining c = false → combining d = false → isPySpace c = false →
        isPySpace d = false → c ≠ '-' → d ≠ '-' → lowerChar c = lowerChar d →
        normalize_name ⟨u ++ c :: v⟩ = normalize_name ⟨u ++ d :: v⟩) := by
  refine ⟨?_, ?_, ?_, ?_, ?_⟩
  · intro s
    exact congrArg String.mk (normList_fixed (fun c hc => normList_good_mem hc))
  · intro s c hc
    have h := normList_good_mem hc
    exact ⟨h.2.2.2.2, h.2.1, h.2.2.1, h.2.2.2.1⟩
  · intro u v c hcond
    show String.mk (normList (u ++ ([c] ++ v))) = String.mk (normList (u ++ v))
    have hmid : normList [c] = [] := by
      have hself : nfkdChar c = [c] := by
        rcases Bool.or_eq_true_iff.mp hcond with hsp | hdash
        · rcases isPySpace_iff.mp hsp with h | h | h | h | h | h | h | h | h | h | h | h
          all_goals first
            | exact nfkdChar_self_of_lt (by omega)
            | exact nfkdChar_self_of_gt (by omega)
        · have h45 : c.toNat = 45 := hyphen_toNat.mp (by simpa using hdash)
          exact nfkdChar_self_of_lt (by omega)
      have hcomb : combining c = false := by
        rw [← Bool.not_eq_true, combining_iff]
        rcases Bool.or_eq_true_iff.mp hcond with hsp | hdash
        · rcases isPySpace_iff.mp hsp with h | h | h | h | h | h | h | h | h | h | h | h <;>
            omega
        · have h45 : c.toNat = 45 := hyphen_toNat.mp (by simpa using hdash)
          omega
      unfold normList
      rw [show [c].flatMap nfkdChar = [c] from by simp [hself],
        show List.filter (fun c => !combining c) [c] = [c] from by simp [hcomb],
        show List.filter (fun c => !(isPySpace c || c = '-')) [c] = ([] : List Char) from by
          simp only [List.filter, Bool.not_eq_true']
          rw [hcond]
          rfl]
      rfl
    rw [normList_append, normList_append, hmid, List.nil_append, ← normList_append]
  · intro u v c b m hdec hm hb
    show String.mk (normList (u ++ ([c] ++ v))) = String.mk (normList (u ++ ([b] ++ v)))
    have hbfacts : b.toNat ≤ 122 ∧ 65 ≤ b.toNat := by
      unfold nfkdChar at hdec
      rcases hfind : decompTable.find? (fun e => decide (e.1 = c.toNat)) with _ | e
      · rw [hfind] at hdec
        exact absurd hdec (by simp)
      · rw [hfind] at hdec
        have he := decompTable_entries e (List.mem_of_find?_eq_some hfind)
        have hbeq : b = Char.ofNat e.2.1 := (List.cons.injEq _ _ _ _ ▸ hdec).1.symm
        rw [hbeq, char_toNat_ofNat (by omega)]
        omega
    have hbself : nfkdChar b = [b] := nfkdChar_self_of_lt (by omega)
    have hbsp : isPySpace b = false := by
      cases h2 : isPySpace b
      · rfl
      · exfalso
        rcases isPySpace_iff.mp h2 with h | h | h | h | h | h | h | h | h | h | h | h <;> omega
    have hbhy : b ≠ '-' := by
      intro hEq
      have := hyphen_toNat.mp hEq
      omega
    have hmid : normList [c] = [lowerChar b] := by
      unfold normList
      rw [show [c].flatMap nfkdChar = [b, m] from by simp [hdec],
        show List.filter (fun c => !combining c) [b, m] = [b] from by simp [hb, hm],
        show List.filter (fun c => !(isPySpace c || c = '-')) [b] = [b] from by
          simp [hbsp, hbhy]]
      rfl
    rw [normList_append, normList_append, normList_append, normList_append, hmid,
      normList_singleton_good hbself hb hbsp hbhy]
  · intro u v c d hc hd hcc hcd hsc hsd hyc hyd hlow
    show String.mk (normList (u ++ ([c] ++ v))) = String.mk (normList (u ++ ([d] ++ v)))
    rw [normList_append, normList_append, normList_append, normList_append,
      normList_singleton_good hc hcc hsc hyc, normList_singleton_good hd hcd hsd hyd, hlow]

/-- Witness for C9: `"Índices"` and `"Indices"` normalize identically (the
accented capital decomposes to `I` plus a combining acute). -/
theorem normalize_name_idempotent_witness :
    normalize_name ⟨'Í' :: "ndices".data⟩ = normalize_name ⟨'I' :: "ndices".data⟩ :=
  normalize_name_idempotent.2.2.2.1 [] "ndices".data 'Í' 'I' '́'
    (by decide) (by decide) (by decide)

/-! ### C8 — sheet resolution in `process_file` -/

theorem candCmp_swap (p q : Bool × Nat) : candCmp p q = (candCmp q p).swap := by
  unfold candCmp
  rw [natCmp_swap (cond p.1 1 0) (cond q.1 1 0)]
  rcases h : natCmp (cond q.1 1 0) (cond p.1 1 0) with _ | _ | _
  · rfl
  · exact natCmp_swap _ _
  · rfl

theorem candLe_of_lt {p q : Bool × Nat} (h : natCmp (cond p.1 1 0) (cond q.1 1 0) = .lt) :
    ordLe (candCmp p q) = true := by
  unfold candCmp
  rw [h]
  rfl

theorem candLe_of_eq_le {p q : Bool × Nat} (h1 : cond p.1 1 0 = cond q.1 1 0)
    (h2 : p.2 ≤ q.2) : ordLe (candCmp p q) = true := by
  unfold candCmp
  rw [h1, natCmp_self]
  exact natCmp_ordLe.mpr h2

theorem candCmp_cases {p q : Bool × Nat} (h : ordLe (candCmp p q) = true) :
    natCmp (cond p.1 1 0) (cond q.1 1 0) = .lt
      ∨ (cond p.1 1 0 = cond q.1 1 0 ∧ p.2 ≤ q.2) := by
  unfold candCmp at h
  rcases hx : natCmp (cond p.1 1 0) (cond q.1 1 0) with _ | _ | _ <;> rw [hx] at h
  · exact .inl rfl
  · exact .inr ⟨natCmp_eq hx, natCmp_ordLe.mp h⟩
  · exact absurd h (by simp [ordLe])

theorem leCand_refl (t : String) (a : String) : leCand t a a = true :=
  candLe_of_eq_le rfl (Nat.le_refl _)

theorem leCand_total (t : String) (a b : String) :
    leCand t a b = true ∨ leCand t b a = true :=
  ordLe_total_of_swap (candCmp_swap (candidate_key t a) (candidate_key t b))

theorem leCand_trans {t : String} {a b c : String} (h1 : leCand t a b = true)
    (h2 : leCand t b c = true) : leCand t a c = true := by
  rcases candCmp_cases h1 with hx1 | ⟨hx1, hl1⟩ <;> rcases candCmp_cases h2 with hx2 | ⟨hx2, hl2⟩
  · exact candLe_of_lt (natCmp_lt_trans hx1 hx2)
  · exact candLe_of_lt (hx2 ▸ hx1)
  · exact candLe_of_lt (hx1 ▸ hx2)
  · exact candLe_of_eq_le (hx1.trans hx2) (Nat.le_trans hl1 hl2)

theorem candidate_key_congr {t a b : String} (h : normalize_name a = normalize_name b) :
    candidate_key t a = candidate_key t b := by
  unfold candidate_key
  rw [h]

theorem head?_mem_of_eq {l : List α} {a : α} (h : l.head? = some a) : a ∈ l := by
  cases l with
  | nil => cases h
  | cons b t =>
    injection h with h
    exact h ▸ .head _

theorem sortBy_head_min {le : α → α → Bool}
    (htot : ∀ a b, le a b = true ∨ le b a = true)
    (htrans : ∀ {a b c}, le a b = true → le b c = true → le a c = true)
    (hrefl : ∀ a, le a a = true)
    {l : List α} {m : α} (hm : (sortBy le l).head? = some m) : ∀ x ∈ l, le m x = true := by
  have hp := pairwise_sortBy htot htrans l
  have hperm := perm_sortBy le l
  intro x hx
  have hx2 : x ∈ sortBy le l := hperm.mem_iff.mpr hx
  rcases hsort : sortBy le l with _ | ⟨h0, rest⟩
  · rw [hsort] at hx2
    cases hx2
  · rw [hsort] at hm hx2 hp
    injection hm with hm
    subst hm
    rcases List.mem_cons.mp hx2 with rfl | hx3
    · exact hrefl _
    · exact (List.pairwise_cons.mp hp).1 x hx3

theorem dictInsert_mem {m : List (String × String)} {k v : String} {p : String × String}
    (hp : p ∈ dictInsert m k v) : p = (k, v) ∨ p ∈ m := by
  unfold dictInsert at hp
  by_cases h : m.any (fun q => decide (q.1 = k))
  · rw [if_pos h] at hp
    rcases List.mem_map.mp hp with ⟨q, hq, rfl⟩
    by_cases hqk : q.1 = k
    · rw [if_pos hqk]
      exact .inl rfl
    · rw [if_neg hqk]
      exact .inr hq
  · rw [if_neg h] at hp
    rcases List.mem_append.mp hp with hp2 | hp2
    · exact .inr hp2
    · exact .inl (List.mem_singleton.mp hp2)

theorem dictInsert_key_pres {m : List (String × String)} {k v k' : String}
    (h : ∃ v', (k', v') ∈ m) : ∃ v', (k', v') ∈ dictInsert m k v := by
  rcases h with ⟨v0, hv0⟩
  unfold dictInsert
  by_cases h : m.any (fun q => decide (q.1 = k))
  · rw [if_pos h]
    by_cases hk : k' = k
    · subst hk
      exact ⟨v, List.mem_map.mpr ⟨(k', v0), hv0, by rw [if_pos rfl]⟩⟩
    · exact ⟨v0, List.mem_map.mpr ⟨(k', v0), hv0, by rw [if_neg hk]⟩⟩
  · rw [if_neg h]
    exact ⟨v0, List.mem_append.mpr (.inl hv0)⟩

theorem dictInsert_key_new {m : List (String × String)} {k v : String} :
    ∃ v', (k, v') ∈ dictInsert m k v := by
  unfold dictInsert
  by_cases h : m.any (fun q => decide (q.1 = k))
  · rw [if_pos h]
    rcases List.any_eq_true.mp h with ⟨q, hq, hqk⟩
    have hqk2 : q.1 = k := by simpa using hqk
    exact ⟨v, List.mem_map.mpr ⟨q, hq, by rw [if_pos hqk2]⟩⟩
  · rw [if_neg h]
    exact ⟨v, List.mem_append.mpr (.inr (List.mem_singleton.mpr rfl))⟩

theorem sheetMap_aux (ss : List String) :
    ∀ (acc : List (String × String)), ∀ p ∈ ss.foldl
        (fun acc2 sh => dictInsert acc2 (normalize_name sh) sh) acc,
      p ∈ acc ∨ ∃ s ∈ ss, p = (normalize_name s, s) := by
  induction ss with
  | nil => intro acc p hp; exact .inl hp
  | cons s ss ih =>
    intro acc p hp
    rcases ih (dictInsert acc (normalize_name s) s) p hp with hp2 | ⟨s2, hs2, rfl⟩
    · rcases dictInsert_mem hp2 with rfl | hp3
      · exact .inr ⟨s, .head _, rfl⟩
      · exact .inl hp3
    · exact .inr ⟨s2, .tail _ hs2, rfl⟩

theorem sheetMap_sound {sheets : List String} {p : String × String} (hp : p ∈ sheetMap sheets) :
    p.2 ∈ sheets ∧ normalize_name p.2 = p.1 := by
  rcases sheetMap_aux sheets [] p hp with hp2 | ⟨s, hs, rfl⟩
  · cases hp2
  · exact ⟨hs, rfl⟩

theorem sheetMap_complete_aux (ss : List String) :
    ∀ (acc : List (String × String)) (s : String),
      (s ∈ ss ∨ ∃ v', (normalize_name s, v') ∈ acc) →
      ∃ v, (normalize_name s, v) ∈ ss.foldl
        (fun acc2 sh => dictInsert acc2 (normalize_name sh) sh) acc := by
  induction ss with
  | nil =>
    intro acc s h
    rcases h with h | h
    · cases h
    · exact h
  | cons t ss ih =>
    intro acc s h
    rcases h with h | h
    · rcases List.mem_cons.mp h with rfl | hss
      · exact ih _ s (.inr dictInsert_key_new)
      · exact ih _ s (.inl hss)
    · exact ih _ s (.inr (dictInsert_key_pres h))

theorem sheetMap_complete {sheets : List String} {s : String} (hs : s ∈ sheets) :
    ∃ v, (normalize_name s, v) ∈ sheetMap sheets :=
  sheetMap_complete_aux sheets [] s (.inl hs)

/-- **C8.**  The sheet resolution of `process_file`: a resolved sheet always
belongs to the workbook and its normalized name contains the normalized
target; whenever some sheet matches, one is resolved and it is minimal under
`candidate_key` (ends-with-target first, then shortest normalized name)
among all matching sheets; and no sheet is resolved exactly when no sheet
name contains the normalized target (the caller then skips the target
without raising). -/
theorem resolve_sheet_spec (target : String) (sheets : List String) :
    (∀ m, resolve_sheet target sheets = some m →
      m ∈ sheets ∧ isSubstr (normalize_name target).data (normalize_name m).data = true)
    ∧ ((∃ s ∈ sheets, isSubstr (normalize_name target).data (normalize_name s).data = true) →
        ∃ m, resolve_sheet target sheets = some m
          ∧ ∀ s ∈ sheets, isSubstr (normalize_name target).data (normalize_name s).data = true →
              leCand (normalize_name target) m s = true)
    ∧ (resolve_sheet target sheets = none ↔
        ∀ s ∈ sheets, isSubstr (normalize_name target).data (normalize_name s).data = false) := by
  refine ⟨?_, ?_, ?_⟩
  · intro m hm
    have hmem : m ∈ ((sheetMap sheets).filter
        (fun p => isSubstr (normalize_name target).data p.1.data)).map (fun p => p.2) :=
      (perm_sortBy _ _).mem_iff.mp (head?_mem_of_eq hm)
    rcases List.mem_map.mp hmem with ⟨p, hp, rfl⟩
    rcases List.mem_filter.mp hp with ⟨hp1, hp2⟩
    have hs := sheetMap_sound hp1
    refine ⟨hs.1, ?_⟩
    rw [hs.2]
    exact hp2
  · intro ⟨s, hsm, hsub⟩
    rcases sheetMap_complete hsm with ⟨v, hv⟩
    have hvc : v ∈ ((sheetMap sheets).filter
        (fun p => isSubstr (normalize_name target).data p.1.data)).map (fun p => p.2) :=
      List.mem_map.mpr ⟨(normalize_name s, v), List.mem_filter.mpr ⟨hv, by simpa using hsub⟩,
        rfl⟩
    rcases hhead : (sortBy (leCand (normalize_name target))
        (((sheetMap sheets).filter
          (fun p => isSubstr (normalize_name target).data p.1.data)).map (fun p => p.2))).head?
      with _ | m
    · exfalso
      have hvs : v ∈ sortBy (leCand (normalize_name target))
          (((sheetMap sheets).filter
            (fun p => isSubstr (normalize_name target).data p.1.data)).map (fun p => p.2)) :=
        (perm_sortBy _ _).mem_iff.mpr hvc
      rcases hsort : sortBy (leCand (normalize_name target))
          (((sheetMap sheets).filter
            (fun p => isSubstr (normalize_name target).data p.1.data)).map (fun p => p.2))
        with _ | ⟨h0, rest⟩
      · rw [hsort] at hvs
        cases hvs
      · rw [hsort] at hhead
        cases hhead
    · refine ⟨m, hhead, ?_⟩
      intro s2 hs2 hsub2
      rcases sheetMap_complete hs2 with ⟨v2, hv2⟩
      have hv2c : v2 ∈ ((sheetMap sheets).filter
          (fun p => isSubstr (normalize_name target).data p.1.data)).map (fun p => p.2) :=
        List.mem_map.mpr ⟨(normalize_name s2, v2), List.mem_filter.mpr ⟨hv2, by simpa using hsub2⟩,
          rfl⟩
      have hmin := sortBy_head_min (leCand_total (normalize_name target))
        (fun h1 h2 => leCand_trans h1 h2) (leCand_refl (normalize_name target)) hhead v2 hv2c
      have hnorm : normalize_name v2 = normalize_name s2 := (sheetMap_sound hv2).2
      unfold leCand at hmin ⊢
      rw [candidate_key_congr hnorm] at hmin
      exact hmin
  · constructor
    · intro hnone s hs
      by_contra hcon
      rw [Bool.not_eq_false] at hcon
      rcases sheetMap_complete hs with ⟨v, hv⟩
      have hvc : v ∈ ((sheetMap sheets).filter
          (fun p => isSubstr (normalize_name target).data p.1.data)).map (fun p => p.2) :=
        List.mem_map.mpr ⟨(normalize_name s, v), List.mem_filter.mpr ⟨hv, by simpa using hcon⟩,
          rfl⟩
      have := (perm_sortBy (leCand (normalize_name target)) _).mem_iff.mpr hvc
      rcases hsort : sortBy (leCand (normalize_name target))
          (((sheetMap sheets).filter
            (fun p => isSubstr (normalize_name target).data p.1.data)).map (fun p => p.2))
        with _ | ⟨h0, rest⟩
      · rw [hsort] at this
        cases this
      · have hnone2 : (sortBy (leCand (normalize_name target))
            (((sheetMap sheets).filter
              (fun p => isSubstr (normalize_name target).data p.1.data)).map
                (fun p => p.2))).head? = none := hnone
        rw [hsort] at hnone2
        cases hnone2
    · intro hall
      show (sortBy (leCand (normalize_name target))
        (((sheetMap sheets).filter
          (fun p => isSubstr (normalize_name target).data p.1.data)).map
            (fun p => p.2))).head? = none
      have hfil : (sheetMap sheets).filter
          (fun p => isSubstr (normalize_name target).data p.1.data) = [] := by
        rw [List.filter_eq_nil_iff]
        intro p hp
        have hs := sheetMap_sound hp
        rw [← hs.2]
        simp [hall p.2 hs.1]
      rw [hfil]
      rfl

/-- Witness for C8: the target `"Carteira Expandida"` resolves, among
`["13- Carteira Expandida ", "Carteira Expandida - Reclas."]`, to the
prefixed variant whose normalized name ends with the normalized target. -/
theorem resolve_sheet_spec_witness :
    ∃ m, resolve_sheet "Carteira Expandida"
        ["13- Carteira Expandida ", "Carteira Expandida - Reclas."] = some m
      ∧ ∀ s ∈ ["13- Carteira Expandida ", "Carteira Expandida - Reclas."],
          isSubstr (normalize_name "Carteira Expandida").data (normalize_name s).data = true →
            leCand (normalize_name "Carteira Expandida") m s = true :=
  (resolve_sheet_spec "Carteira Expandida"
    ["13- Carteira Expandida ", "Carteira Expandida - Reclas."]).2.1
    ⟨"13- Carteira Expandida ", by decide⟩

/-! ### C7 — row skipping in `parse_sheet` -/

theorem processRows_cons (hv : Cell → Bool) (hd : List Cell) (fdc : Nat) (row : List Cell)
    (rest : List (List Cell)) (ctr : Nat) :
    processRows hv hd fdc (row :: rest) ctr =
      if attrParts fdc row = [] then processRows hv hd fdc rest ctr
      else if (row.drop fdc).any hv = false then processRows hv hd fdc rest ctr
      else emitRow hd row fdc (String.mk (joinDash (attrParts fdc row))) ctr
        ++ processRows hv hd fdc rest (ctr + 1) := rfl

theorem processRows_skip (hv : Cell → Bool) (hd : List Cell) (fdc : Nat) (row : List Cell)
    (hskip : attrParts fdc row = [] ∨ (row.drop fdc).any hv = false) :
    ∀ (pre post : List (List Cell)) (c : Nat),
      processRows hv hd fdc (pre ++ row :: post) c = processRows hv hd fdc (pre ++ post) c := by
  intro pre
  induction pre with
  | nil =>
    intro post c
    show processRows hv hd fdc (row :: post) c = processRows hv hd fdc post c
    rw [processRows_cons]
    by_cases h1 : attrParts fdc row = []
    · rw [if_pos h1]
    · rcases hskip with h | h
      · exact absurd h h1
      · rw [if_neg h1, if_pos h]
  | cons p pre ih =>
    intro post c
    show processRows hv hd fdc (p :: (pre ++ row :: post)) c
      = processRows hv hd fdc (p :: (pre ++ post)) c
    rw [processRows_cons, processRows_cons]
    by_cases h1 : attrParts fdc p = []
    · rw [if_pos h1, if_pos h1]
      exact ih post c
    · by_cases h2 : (p.drop fdc).any hv = false
      · rw [if_neg h1, if_neg h1, if_pos h2, if_pos h2]
        exact ih post c
      · rw [if_neg h1, if_neg h1, if_neg h2, if_neg h2, ih post (c + 1)]

/-- **C7 (counterexample).**  The claim asserts that in *both* `parse_sheet`
implementations a row survives when some date-column cell parses as a
number under the locale rules (`"1.234,56"` → `1234.56`).  The bradesco
`has_value` test accepts native numerics only, so a row whose only
date-column content is the locale string `"1.234,56"` is dropped entirely
by the bradesco variant, while the itau variant keeps it and emits
`1234.56`. -/
theorem parse_sheet_locale_counterexample :
    bradesco_parse_sheet [[Cell.str "", Cell.str "Mar/25"],
        [Cell.str "Receita", Cell.str "1.234,56"]] = .ok []
    ∧ itau_parse_sheet [[Cell.str "", Cell.str "Mar/25"],
        [Cell.str "Receita", Cell.str "1.234,56"]]
      = .ok [⟨"Receita", "Mar/25", (123456 : ℚ) / 100, 0⟩] := by
  constructor
  · with_unfolding_all rfl
  · with_unfolding_all rfl

/-- **C7 (amended).**  In both `parse_sheet` implementations a data row is
skipped entirely — it emits no tuple and does not consume a `row_id` —
exactly under that variant's conditions: no non-empty text cell left of
`first_date_col`, or no date-column cell accepted by the variant's
`has_value` test.  The itau test accepts native numerics and
locale-formatted strings (`"1.234,56"` → `1234.56`, `"abc"` rejected
without raising); the bradesco test accepts native numerics only, so
locale-formatted strings do not save a bradesco row from being skipped
(this is where the original claim fails). -/
theorem parse_sheet_row_skip_spec :
    (∀ (hv : Cell → Bool) (hd : List Cell) (fdc : Nat) (row : List Cell)
        (pre post : List (List Cell)) (c : Nat),
      attrParts fdc row = [] ∨ (row.drop fdc).any hv = false →
      processRows hv hd fdc (pre ++ row :: post) c = processRows hv hd fdc (pre ++ post) c)
    ∧ (∀ q : ℚ, itau_hasValue (.num q) = true ∧ bradesco_hasValue (.num q) = true)
    ∧ itau_hasValue (.str "1.234,56") = true
    ∧ parseLocale "1.234,56" = some ((123456 : ℚ) / 100)
    ∧ itau_hasValue (.str "abc") = false
    ∧ bradesco_hasValue (.str "1.234,56") = false := by
  refine ⟨?_, ?_, ?_, ?_, ?_, ?_⟩
  · intro hv hd fdc row pre post c hskip
    exact processRows_skip hv hd fdc row hskip pre post c
  · intro q
    exact ⟨rfl, rfl⟩
  · with_unfolding_all rfl
  · with_unfolding_all rfl
  · with_unfolding_all rfl
  · rfl

/-- Witness for C7: a row labelled `"Despesa"` whose only date-column cell
is the non-numeric string `"abc"` is dropped by the itau loop without
affecting the records or numbering of the surrounding rows. -/
theorem parse_sheet_row_skip_spec_witness :
    processRows itau_hasValue [Cell.str "A", Cell.str "Mar/25"] 1
        ([] ++ [Cell.str "Despesa", Cell.str "abc"] :: [[Cell.str "X", Cell.num 1]]) 0
      = processRows itau_hasValue [Cell.str "A", Cell.str "Mar/25"] 1
        ([] ++ [[Cell.str "X", Cell.num 1]]) 0 :=
  parse_sheet_row_skip_spec.1 itau_hasValue [Cell.str "A", Cell.str "Mar/25"] 1
    [Cell.str "Despesa", Cell.str "abc"] [] [[Cell.str "X", Cell.num 1]] 0
    (Or.inr (by with_unfolding_all rfl))

/-! ### C10 — the locale coercion strips `.` before honouring `,` -/

theorem isDigit_of_isDigitCh {c : Char} (h : isDigitCh c = true) : c.isDigit = true := by
  unfold isDigitCh at h
  rw [Bool.and_eq_true, decide_eq_true_iff, decide_eq_true_iff] at h
  simp only [Char.isDigit, Bool.and_eq_true, decide_eq_true_iff]
  exact ⟨h.1, h.2⟩

theorem isDigitCh_iff {c : Char} : isDigitCh c = true ↔ 48 ≤ c.toNat ∧ c.toNat ≤ 57 := by
  simp [isDigitCh]

theorem dropWhile_eq_of_all {p : Char → Bool} {l : List Char} (h : ∀ c ∈ l, p c = false) :
    l.dropWhile p = l := by
  cases l with
  | nil => rfl
  | cons a t =>
    rw [List.dropWhile_cons, h a (List.mem_cons_self a t)]
    simp

theorem pyStrip_all_nonspace {l : List Char} (h : ∀ c ∈ l, isPySpace c = false) :
    pyStrip l = l := by
  unfold pyStrip
  rw [dropWhile_eq_of_all h,
    dropWhile_eq_of_all (fun c hc => h c (List.mem_reverse.mp hc)), List.reverse_reverse]

theorem digit_not_space {c : Char} (h : isDigitCh c = true) : isPySpace c = false := by
  rw [isDigitCh_iff] at h
  rw [← Bool.not_eq_true, isPySpace_iff]
  omega

theorem pyStrip_digits {l : List Char} (h : l.all isDigitCh = true) : pyStrip l = l :=
  pyStrip_all_nonspace (fun c hc => digit_not_space (List.all_eq_true.mp h c hc))

theorem takeWhile_all {p : Char → Bool} {l : List Char} (h : ∀ c ∈ l, p c = true) :
    l.takeWhile p = l := by
  induction l with
  | nil => rfl
  | cons a t ih =>
    rw [List.takeWhile_cons, h a (List.mem_cons_self a t),
      ih (fun c hc => h c (List.mem_cons_of_mem a hc))]
    rfl

theorem numValue_digits {l : List Char} (hne : l ≠ []) (h : l.all isDigitCh = true) :
    numValue l = some ((natOfDigits l : ℚ)) := by
  have h1 : l.takeWhile Char.isDigit = l :=
    takeWhile_all (fun c hc => isDigit_of_isDigitCh (List.all_eq_true.mp h c hc))
  rcases l with _ | ⟨c, t⟩
  · exact absurd rfl hne
  · simp only [numValue]
    rw [h1, List.drop_length]
    rfl

theorem pyFloat_digits {l : List Char} (hne : l ≠ []) (h : l.all isDigitCh = true) :
    pyFloat l = some ((natOfDigits l : ℚ)) := by
  unfold pyFloat
  rw [pyStrip_digits h]
  rcases l with _ | ⟨c, t⟩
  · exact absurd rfl hne
  · have hc : isDigitCh c = true := List.all_eq_true.mp h c (List.mem_cons_self c t)
    rw [isDigitCh_iff] at hc
    split
    · rename_i rest heq
      exfalso
      injection heq with h1 h2
      subst h1
      exact absurd hc (by decide)
    · rename_i rest heq
      exfalso
      injection heq with h1 h2
      subst h1
      exact absurd hc (by decide)
    · exact numValue_digits hne h

theorem filter_ne_dot {l : List Char} (h : l.all isDigitCh = true) :
    l.filter (fun c => decide (c ≠ '.')) = l := by
  rw [List.filter_eq_self]
  intro c hc
  have hd := isDigitCh_iff.mp (List.all_eq_true.mp h c hc)
  rw [decide_eq_true_iff]
  intro he
  rw [he] at hd
  simp at hd

theorem map_comma_id {l : List Char} (h : l.all isDigitCh = true) :
    l.map (fun c => if c = ',' then '.' else c) = l := by
  induction l with
  | nil => rfl
  | cons c t ih =>
    rw [List.all_cons, Bool.and_eq_true] at h
    have hd := isDigitCh_iff.mp h.1
    rw [List.map_cons, ih h.2, if_neg ?hc]
    intro he
    rw [he] at hd
    simp at hd

theorem natOfDigits_shift (v : List Char) : ∀ m : Nat,
    v.foldl (fun n c => 10 * n + (c.toNat - 48)) m = m * 10 ^ v.length + natOfDigits v := by
  induction v with
  | nil => intro m; simp [natOfDigits]
  | cons c v ih =>
    intro m
    show v.foldl _ (10 * m + (c.toNat - 48)) = _
    have hc : natOfDigits (c :: v) =
        v.foldl (fun n ch => 10 * n + (ch.toNat - 48)) (10 * 0 + (c.toNat - 48)) := rfl
    rw [ih (10 * m + (c.toNat - 48)), hc, ih (10 * 0 + (c.toNat - 48)), List.length_cons]
    ring

theorem natOfDigits_append (u v : List Char) :
    natOfDigits (u ++ v) = natOfDigits u * 10 ^ v.length + natOfDigits v := by
  show (u ++ v).foldl _ 0 = _
  rw [List.foldl_append, natOfDigits_shift v]
  rfl

theorem natOfDigits_lt {v : List Char} (h : v.all isDigitCh = true) :
    natOfDigits v < 10 ^ v.length := by
  induction v with
  | nil => simp [natOfDigits]
  | cons c v ih =>
    rw [List.all_cons, Bool.and_eq_true] at h
    have hc := isDigitCh_iff.mp h.1
    have hrec := ih h.2
    have hcons : natOfDigits (c :: v) = (c.toNat - 48) * 10 ^ v.length + natOfDigits v := by
      show v.foldl _ (10 * 0 + (c.toNat - 48)) = _
      rw [natOfDigits_shift v]
      norm_num
    rw [hcons, List.length_cons, pow_succ]
    have h9 : (c.toNat - 48) * 10 ^ v.length ≤ 9 * 10 ^ v.length :=
      Nat.mul_le_mul_right _ (by omega)
    omega

/-- **C10.**  Implicit claim: the locale coercion removes every `.` before
turning `,` into the decimal point, so a string spelling a number with `.`
as its decimal point and no comma is read as the dot-dropped integer, not
as its decimal value (unless all digits are zero) — and the transformer
emits that misread value rather than skipping the cell
(`"1234.56"` → `123456.0`). -/
theorem locale_dot_dropped (a b : List Char) (ha : a ≠ []) (hb : b ≠ [])
    (hda : a.all isDigitCh = true) (hdb : b.all isDigitCh = true) :
    parseLocale (String.mk (a ++ '.' :: b)) = some ((natOfDigits (a ++ b) : ℚ))
    ∧ (natOfDigits (a ++ b) ≠ 0 →
        ((natOfDigits (a ++ b) : ℚ)) ≠ (natOfDigits a : ℚ) + (natOfDigits b : ℚ) / 10 ^ b.length)
    ∧ emitRow [Cell.str "Mar/25"] [Cell.str "1234.56"] 0 "Receita" 0
        = [⟨"Receita", "Mar/25", (123456 : ℚ), 0⟩] := by
  have hab : (a ++ b).all isDigitCh = true := by
    rw [List.all_append, Bool.and_eq_true]
    exact ⟨hda, hdb⟩
  refine ⟨?_, ?_, by with_unfolding_all rfl⟩
  · show pyFloat _ = _
    have hfil : (a ++ '.' :: b).filter (fun c => decide (c ≠ '.')) = a ++ b := by
      rw [List.filter_append, filter_ne_dot hda]
      show a ++ List.filter _ ('.' :: b) = a ++ b
      rw [List.filter_cons]
      simp only [decide_eq_true_iff, ne_eq, not_true_eq_false, decide_False, if_false]
      rw [filter_ne_dot hdb]
      simp
    have hmk : (String.mk (a ++ '.' :: b)).data = a ++ '.' :: b := rfl
    rw [hmk, hfil, map_comma_id hab]
    exact pyFloat_digits (by rcases a with _ | _; exact absurd rfl ha; simp) hab
  · intro hnz hEq
    have hk : 1 ≤ b.length := by
      rcases b with _ | ⟨c, t⟩
      · exact absurd rfl hb
      · simp
    rw [natOfDigits_append] at hEq hnz
    have h10 : ((10 : ℚ) ^ b.length) ≠ 0 := by positivity
    push_cast at hEq
    have h2 : ((natOfDigits a : ℚ) * 10 ^ b.length + natOfDigits b) * 10 ^ b.length
        = ((natOfDigits a : ℚ) + (natOfDigits b : ℚ) / 10 ^ b.length) * 10 ^ b.length := by
      rw [hEq]
    rw [add_mul, add_mul, div_mul_cancel₀ _ h10] at h2
    have h3 : ((natOfDigits a : ℚ) * 10 ^ b.length + natOfDigits b) * 10 ^ b.length
        = ((natOfDigits a : ℚ) * 10 ^ b.length + natOfDigits b) * 1 := by
      rw [mul_one, add_mul]
      exact h2
    have hM : ((natOfDigits a : ℚ) * 10 ^ b.length + natOfDigits b) ≠ 0 := by
      have : ((natOfDigits a * 10 ^ b.length + natOfDigits b : ℕ) : ℚ) ≠ 0 :=
        Nat.cast_ne_zero.mpr hnz
      push_cast at this
      exact this
    have h4 : ((10 : ℚ) ^ b.length) = 1 := mul_left_cancel₀ hM h3
    have h5 : ((10 ^ b.length : ℕ) : ℚ) = ((1 : ℕ) : ℚ) := by push_cast; exact h4
    have h6 : (10 : ℕ) ^ b.length = 1 := Nat.cast_inj.mp h5
    have h7 : (10 : ℕ) ^ 1 ≤ 10 ^ b.length := Nat.pow_le_pow_right (by omega) hk
    simp at h7
    omega

/-- Witness for C10 at `"1234.56"`. -/
theorem locale_dot_dropped_witness :
    parseLocale (String.mk (['1', '2', '3', '4'] ++ '.' :: ['5', '6']))
        = some ((natOfDigits (['1', '2', '3', '4'] ++ ['5', '6']) : ℚ))
    ∧ (natOfDigits (['1', '2', '3', '4'] ++ ['5', '6']) ≠ 0 →
        ((natOfDigits (['1', '2', '3', '4'] ++ ['5', '6']) : ℚ))
          ≠ (natOfDigits ['1', '2', '3', '4'] : ℚ)
            + (natOfDigits ['5', '6'] : ℚ) / 10 ^ (['5', '6'] : List Char).length)
    ∧ emitRow [Cell.str "Mar/25"] [Cell.str "1234.56"] 0 "Receita" 0
        = [⟨"Receita", "Mar/25", (123456 : ℚ), 0⟩] :=
  locale_dot_dropped ['1', '2', '3', '4'] ['5', '6'] (by decide) (by decide)
    (by decide) (by decide)

/-! ### C6 — the header and date-column locator `guess_header_row` -/

theorem findIdx?_none_iff {α : Type} {p : α → Bool} :
    ∀ (l : List α) (s : Nat), List.findIdx? p l s = none ↔ ∀ x ∈ l, p x = false := by
  intro l
  induction l with
  | nil => intro s; simp
  | cons a t ih =>
    intro s
    rw [List.findIdx?_cons]
    by_cases h : p a = true
    · rw [if_pos h]
      simp [h]
    · rw [if_neg h]
      rw [Bool.not_eq_true] at h
      simp only [List.mem_cons]
      constructor
      · intro hn x hx
        rcases hx with rfl | hx
        · exact h
        · exact ((ih (s + 1)).mp hn) x hx
      · intro hall
        exact (ih (s + 1)).mpr (fun x hx => hall x (.inr hx))

theorem findIdx?_some_spec {α : Type} {p : α → Bool} (d : α) :
    ∀ (l : List α) (s k : Nat), List.findIdx? p l s = some k →
      s ≤ k ∧ k - s < l.length ∧ p (l.getD (k - s) d) = true
        ∧ ∀ j < k - s, p (l.getD j d) = false := by
  intro l
  induction l with
  | nil => intro s k h; rw [List.findIdx?_nil] at h; cases h
  | cons a t ih =>
    intro s k h
    rw [List.findIdx?_cons] at h
    by_cases hp : p a = true
    · rw [if_pos hp] at h
      injection h with h
      subst h
      refine ⟨Nat.le_refl s, by simp, ?_, ?_⟩
      · rw [Nat.sub_self]
        exact hp
      · intro j hj
        omega
    · rw [if_neg hp] at h
      rcases ih (s + 1) k h with ⟨h1, h2, h3, h4⟩
      refine ⟨by omega, by simp; omega, ?_, ?_⟩
      · have he : k - s = (k - (s + 1)) + 1 := by omega
        rw [he]
        simpa using h3
      · intro j hj
        rcases j with _ | j
        · simpa using Bool.not_eq_true _ |>.mp hp
        · have hj2 : j < k - (s + 1) := by omega
          simpa using h4 j hj2

theorem findHeaderIdx_eq_none (dl : Cell → Bool) (grid : List (List Cell))
    (h1 : grid.findIdx? (fun row => decide (2 ≤ row.countP dl)) = none) :
    findHeaderIdx dl grid = grid.findIdx? (fun row => decide (1 ≤ row.countP dl)) := by
  unfold findHeaderIdx
  rw [h1]

theorem findHeaderIdx_eq_some (dl : Cell → Bool) (grid : List (List Cell)) (i1 : Nat)
    (h1 : grid.findIdx? (fun row => decide (2 ≤ row.countP dl)) = some i1) :
    findHeaderIdx dl grid = some i1 := by
  unfold findHeaderIdx
  rw [h1]

theorem getD_mem_of_lt {α : Type} (l : List α) (d : α) :
    ∀ {i : Nat}, i < l.length → l.getD i d ∈ l := by
  induction l with
  | nil => intro i h; simp at h
  | cons a t ih =>
    intro i h
    rcases i with _ | i
    · exact .head t
    · exact .tail a (ih (by simpa using h))

theorem findHeaderIdx_spec (dl : Cell → Bool) (grid : List (List Cell)) :
    (findHeaderIdx dl grid = none ↔ ∀ row ∈ grid, ∀ c ∈ row, dl c = false)
    ∧ (∀ i, findHeaderIdx dl grid = some i →
        i < grid.length ∧
        ((2 ≤ (grid.getD i []).countP dl ∧ ∀ j < i, (grid.getD j []).countP dl < 2)
          ∨ ((∀ row ∈ grid, row.countP dl < 2) ∧ 1 ≤ (grid.getD i []).countP dl
              ∧ ∀ j < i, (grid.getD j []).countP dl = 0))) := by
  have hsome : ∀ (q : Nat) (i : Nat),
      grid.findIdx? (fun row => decide (q ≤ row.countP dl)) = some i →
      i < grid.length ∧ q ≤ (grid.getD i []).countP dl
        ∧ ∀ j < i, ¬ q ≤ (grid.getD j []).countP dl := by
    intro q i h
    have hs := findIdx?_some_spec [] grid 0 i h
    rcases hs with ⟨_, hlen, hp, hprev⟩
    rw [Nat.sub_zero] at hlen hp
    rw [decide_eq_true_iff] at hp
    refine ⟨hlen, hp, ?_⟩
    intro j hj
    have := hprev j (by omega)
    rw [decide_eq_false_iff_not] at this
    exact this
  have hpos_of_some : ∀ (q i : Nat), 1 ≤ q →
      grid.findIdx? (fun row => decide (q ≤ row.countP dl)) = some i →
      ¬ (∀ row ∈ grid, ∀ c ∈ row, dl c = false) := by
    intro q i hq h hall
    rcases hsome q i h with ⟨hlen, hp, _⟩
    have hpos : 0 < (grid.getD i []).countP dl := by omega
    rw [List.countP_pos] at hpos
    rcases hpos with ⟨c, hc, hdl⟩
    have hmem : grid.getD i [] ∈ grid := getD_mem_of_lt grid [] hlen
    exact absurd hdl (by rw [hall _ hmem c hc]; simp)
  constructor
  · rcases h1 : grid.findIdx? (fun row => decide (2 ≤ row.countP dl)) with _ | i1
    · rw [findHeaderIdx_eq_none dl grid h1]
      rcases h2 : grid.findIdx? (fun row => decide (1 ≤ row.countP dl)) with _ | i2
      · constructor
        · intro _ row hrow c hc
          have := (findIdx?_none_iff grid 0).mp h2 row hrow
          rw [decide_eq_false_iff_not] at this
          have hz : row.countP dl = 0 := by omega
          rw [List.countP_eq_zero] at hz
          exact Bool.eq_false_iff.mpr (hz c hc)
        · intro _
          exact h2
      · constructor
        · intro h
          rw [h2] at h
          cases h
        · intro hall
          exact absurd hall (hpos_of_some 1 i2 (by omega) h2)
    · rw [findHeaderIdx_eq_some dl grid i1 h1]
      constructor
      · intro h
        cases h
      · intro hall
        exact absurd hall (hpos_of_some 2 i1 (by omega) h1)
  · intro i
    rcases h1 : grid.findIdx? (fun row => decide (2 ≤ row.countP dl)) with _ | i1
    · rw [findHeaderIdx_eq_none dl grid h1]
      intro h
      rcases hsome 1 i h with ⟨hlen, hp, hprev⟩
      refine ⟨hlen, .inr ⟨?_, hp, ?_⟩⟩
      · intro row hrow
        have := (findIdx?_none_iff grid 0).mp h1 row hrow
        rw [decide_eq_false_iff_not] at this
        omega
      · intro j hj
        have := hprev j hj
        omega
    · rw [findHeaderIdx_eq_some dl grid i1 h1]
      intro h
      injection h with h
      subst h
      rcases hsome 2 i1 h1 with ⟨hlen, hp, hprev⟩
      refine ⟨hlen, .inl ⟨hp, ?_⟩⟩
      intro j hj
      have := hprev j hj
      omega

theorem firstDateCol_of_pos (dl : Cell → Bool) (header : List Cell)
    (h : 1 ≤ header.countP dl) : header.findIdx? dl = some (firstDateCol dl header) := by
  unfold firstDateCol
  rcases hf : header.findIdx? dl with _ | j
  · exfalso
    have hall := (findIdx?_none_iff header 0).mp hf
    have hz : header.countP dl = 0 := List.countP_eq_zero.mpr (fun c hc => by
      rw [hall c hc]; simp)
    omega
  · rfl

/-- **C6 (counterexample).**  The claim's date-like set — native dates,
day/month/year strings, ISO-prefixed strings — applies only to
`itau_series.py`.  The bradesco pattern knows month-abbreviation and
quarter labels only, so a grid whose sole row holds `"31/03/2025"` and
`"30/06/2025"` raises the layout error in the bradesco locator while the
itau locator accepts that row as the header. -/
theorem bradesco_header_counterexample :
    bradesco_guess_header_row [[Cell.str "31/03/2025", Cell.str "30/06/2025"]]
      = .error "Linha de cabeçalho não encontrada na planilha."
    ∧ itau_guess_header_row [[Cell.str "31/03/2025", Cell.str "30/06/2025"]] = .ok (0, 0)
    ∧ bradesco_dateLike (Cell.str "31/03/2025") = false
    ∧ bradesco_dateLike (Cell.dt 2025 3 31) = false
    ∧ itau_dateLike (Cell.str "31/03/2025") = true
    ∧ itau_dateLike (Cell.dt 2025 3 31) = true :=
  ⟨rfl, rfl, rfl, rfl, rfl, rfl⟩

/-- **C6 (amended).**  Each locator raises the layout error exactly when no
cell of the grid is date-like *for its own pattern set*, and otherwise
returns the first (topmost) row with at least two date-like cells — falling
back to the first row with at least one only when no row has two — together
with the index of the first date-like cell of that row.  The itau pattern
set is the claim's (month abbreviation, quarter code, day/month/2-or-4-digit
year, ISO prefix, native dates); the bradesco set has only the month
abbreviation and quarter patterns, which is where the original claim
fails. -/
theorem guess_header_row_spec (grid : List (List Cell)) :
    (bradesco_guess_header_row grid = .error "Linha de cabeçalho não encontrada na planilha."
      ↔ ∀ row ∈ grid, ∀ c ∈ row, bradesco_dateLike c = false)
    ∧ (itau_guess_header_row grid = .error "Linha de cabeçalho não encontrada na planilha."
      ↔ ∀ row ∈ grid, ∀ c ∈ row, itau_dateLike c = false)
    ∧ (∀ i fdc, bradesco_guess_header_row grid = .ok (i, fdc) →
        i < grid.length
        ∧ ((2 ≤ (grid.getD i []).countP bradesco_dateLike
              ∧ ∀ j < i, (grid.getD j []).countP bradesco_dateLike < 2)
            ∨ ((∀ row ∈ grid, row.countP bradesco_dateLike < 2)
              ∧ 1 ≤ (grid.getD i []).countP bradesco_dateLike
              ∧ ∀ j < i, (grid.getD j []).countP bradesco_dateLike = 0))
        ∧ (grid.getD i []).findIdx? bradesco_dateLike = some fdc)
    ∧ (∀ i fdc, itau_guess_header_row grid = .ok (i, fdc) →
        i < grid.length
        ∧ ((2 ≤ (grid.getD i []).countP itau_dateLike
              ∧ ∀ j < i, (grid.getD j []).countP itau_dateLike < 2)
            ∨ ((∀ row ∈ grid, row.countP itau_dateLike < 2)
              ∧ 1 ≤ (grid.getD i []).countP itau_dateLike
              ∧ ∀ j < i, (grid.getD j []).countP itau_dateLike = 0))
        ∧ (grid.getD i []).findIdx? itau_dateLike = some fdc) := by
  have main : ∀ dl : Cell → Bool,
      ((match findHeaderIdx dl grid with
        | some i => Except.ok (i, firstDateCol dl (grid.getD i []))
        | none => Except.error "Linha de cabeçalho não encontrada na planilha.")
        = (Except.error "Linha de cabeçalho não encontrada na planilha." :
            Except String (Nat × Nat))
        ↔ ∀ row ∈ grid, ∀ c ∈ row, dl c = false)
      ∧ (∀ i fdc,
          (match findHeaderIdx dl grid with
            | some i => Except.ok (i, firstDateCol dl (grid.getD i []))
            | none => Except.error "Linha de cabeçalho não encontrada na planilha.")
            = (Except.ok (i, fdc) : Except String (Nat × Nat)) →
          i < grid.length
          ∧ ((2 ≤ (grid.getD i []).countP dl ∧ ∀ j < i, (grid.getD j []).countP dl < 2)
              ∨ ((∀ row ∈ grid, row.countP dl < 2) ∧ 1 ≤ (grid.getD i []).countP dl
                  ∧ ∀ j < i, (grid.getD j []).countP dl = 0))
          ∧ (grid.getD i []).findIdx? dl = some fdc) := by
    intro dl
    rcases findHeaderIdx_spec dl grid with ⟨hnone, hsome⟩
    constructor
    · rcases hF : findHeaderIdx dl grid with _ | i0
      · simp only [hF]
        exact ⟨fun _ => hnone.mp hF, fun _ => trivial⟩
      · simp only [hF]
        constructor
        · intro h
          cases h
        · intro hall
          have : findHeaderIdx dl grid = none := hnone.mpr hall
          rw [hF] at this
          cases this
    · intro i fdc
      rcases hF : findHeaderIdx dl grid with _ | i0
      · simp only [hF]
        intro h
        cases h
      · simp only [hF]
        intro h
        injection h with h
        injection h with h1 h2
        subst h1
        subst h2
        rcases hsome i0 hF with ⟨hlen, hsel⟩
        refine ⟨hlen, hsel, ?_⟩
        have hcnt : 1 ≤ (grid.getD i0 []).countP dl := by
          rcases hsel with ⟨h2c, _⟩ | ⟨_, h1c, _⟩
          · omega
          · exact h1c
        exact firstDateCol_of_pos dl (grid.getD i0 []) hcnt
  exact ⟨(main bradesco_dateLike).1, (main itau_dateLike).1,
    (main bradesco_dateLike).2, (main itau_dateLike).2⟩

/-- Witness for C6: on a grid whose second row holds the two labels
`"Mar/25"` and `"Jun/25"`, the itau locator returns row 1 and date column
1, which indeed is the topmost row with two date-like cells and its first
date-like cell. -/
theorem guess_header_row_spec_witness :
    1 < ([[Cell.str "x", Cell.nan],
          [Cell.str "Atributo", Cell.str "Mar/25", Cell.str "Jun/25"]] : List (List Cell)).length
    ∧ ((2 ≤ (([[Cell.str "x", Cell.nan],
          [Cell.str "Atributo", Cell.str "Mar/25", Cell.str "Jun/25"]] :
            List (List Cell)).getD 1 []).countP itau_dateLike
        ∧ ∀ j < 1, (([[Cell.str "x", Cell.nan],
          [Cell.str "Atributo", Cell.str "Mar/25", Cell.str "Jun/25"]] :
            List (List Cell)).getD j []).countP itau_dateLike < 2)
      ∨ ((∀ row ∈ ([[Cell.str "x", Cell.nan],
          [Cell.str "Atributo", Cell.str "Mar/25", Cell.str "Jun/25"]] : List (List Cell)),
            row.countP itau_dateLike < 2)
        ∧ 1 ≤ (([[Cell.str "x", Cell.nan],
          [Cell.str "Atributo", Cell.str "Mar/25", Cell.str "Jun/25"]] :
            List (List Cell)).getD 1 []).countP itau_dateLike
        ∧ ∀ j < 1, (([[Cell.str "x", Cell.nan],
          [Cell.str "Atributo", Cell.str "Mar/25", Cell.str "Jun/25"]] :
            List (List Cell)).getD j []).countP itau_dateLike = 0))
    ∧ (([[Cell.str "x", Cell.nan],
          [Cell.str "Atributo", Cell.str "Mar/25", Cell.str "Jun/25"]] :
            List (List Cell)).getD 1 []).findIdx? itau_dateLike = some 1 :=
  (guess_header_row_spec [[Cell.str "x", Cell.nan],
    [Cell.str "Atributo", Cell.str "Mar/25", Cell.str "Jun/25"]]).2.2.2 1 1 rfl

/-! ### C4 — attribute suffixing in `process_file` -/

theorem dedupFirstAux_congr : ∀ (l seen seen2 : List Nat), (∀ x, x ∈ seen ↔ x ∈ seen2) →
    dedupFirstAux seen l = dedupFirstAux seen2 l := by
  intro l
  induction l with
  | nil => intro seen seen2 h; rfl
  | cons x xs ih =>
    intro seen seen2 h
    simp only [dedupFirstAux]
    by_cases hx : x ∈ seen
    · rw [if_pos hx, if_pos ((h x).mp hx)]
      exact ih seen seen2 h
    · rw [if_neg hx, if_neg (fun hc => hx ((h x).mpr hc))]
      rw [ih (x :: seen) (x :: seen2) (fun y => by simp only [List.mem_cons]; rw [h y])]

theorem dedupFirstAux_append : ∀ (xs ys seen : List Nat),
    dedupFirstAux seen (xs ++ ys)
      = dedupFirstAux seen xs ++ dedupFirstAux (xs ++ seen) ys := by
  intro xs
  induction xs with
  | nil => intro ys seen; rfl
  | cons x xs ih =>
    intro ys seen
    rw [List.cons_append]
    simp only [dedupFirstAux]
    by_cases hx : x ∈ seen
    · rw [if_pos hx, if_pos hx, ih ys seen]
      congr 1
      refine dedupFirstAux_congr ys (xs ++ seen) (x :: xs ++ seen) (fun y => ?_)
      simp only [List.cons_append, List.mem_cons, List.mem_append]
      constructor
      · tauto
      · rintro (rfl | hy | hy)
        · exact .inr hx
        · exact .inl hy
        · exact .inr hy
    · rw [if_neg hx, if_neg hx, ih ys (x :: seen), List.cons_append]
      congr 2
      refine dedupFirstAux_congr ys (xs ++ x :: seen) (x :: (xs ++ seen)) (fun y => ?_)
      simp only [List.mem_cons, List.mem_append]
      tauto

theorem mem_dedupFirstAux : ∀ (l seen : List Nat) (r : Nat),
    r ∈ dedupFirstAux seen l ↔ r ∈ l ∧ r ∉ seen := by
  intro l
  induction l with
  | nil => intro seen r; simp [dedupFirstAux]
  | cons x xs ih =>
    intro seen r
    simp only [dedupFirstAux]
    by_cases hx : x ∈ seen
    · rw [if_pos hx, ih seen r]
      simp only [List.mem_cons]
      constructor
      · rintro ⟨h1, h2⟩
        exact ⟨.inr h1, h2⟩
      · rintro ⟨rfl | h1, h2⟩
        · exact absurd hx h2
        · exact ⟨h1, h2⟩
    · rw [if_neg hx]
      simp only [List.mem_cons, ih (x :: seen) r, List.mem_cons]
      constructor
      · rintro (rfl | ⟨h1, h2⟩)
        · exact ⟨.inl rfl, hx⟩
        · exact ⟨.inr h1, fun hc => h2 (.inr hc)⟩
      · rintro ⟨rfl | h1, h2⟩
        · exact .inl rfl
        · by_cases hrx : r = x
          · exact .inl hrx
          · refine .inr ⟨h1, fun hc => ?_⟩
            rcases hc with hc | hc
            · exact hrx hc
            · exact h2 hc

theorem idxOfN_append_of_mem : ∀ (u v : List Nat) (r : Nat), r ∈ u →
    idxOfN r (u ++ v) = idxOfN r u := by
  intro u
  induction u with
  | nil => intro v r h; cases h
  | cons y u ih =>
    intro v r h
    rw [List.cons_append]
    simp only [idxOfN]
    by_cases hy : y = r
    · rw [if_pos hy, if_pos hy]
    · rw [if_neg hy, if_neg hy, ih v r ?hm]
      rcases List.mem_cons.mp h with rfl | hm
      · exact absurd rfl hy
      · exact hm

theorem idxOfN_append_of_not_mem : ∀ (u v : List Nat) (r : Nat), r ∉ u →
    idxOfN r (u ++ v) = u.length + idxOfN r v := by
  intro u
  induction u with
  | nil => intro v r _; simp [idxOfN]
  | cons y u ih =>
    intro v r h
    rw [List.cons_append]
    simp only [idxOfN, List.length_cons]
    have hy : ¬ y = r := fun hc => h (hc ▸ List.mem_cons_self y u)
    rw [if_neg hy, ih v r (fun hc => h (List.mem_cons_of_mem y hc))]
    omega

theorem lookupA_cons (p : String × Nat) (m : List (String × Nat)) (a : String) :
    lookupA (p :: m) a = if p.1 = a then some p.2 else lookupA m a := by
  unfold lookupA
  by_cases h : p.1 = a
  · simp [List.find?_cons, h]
  · simp [List.find?_cons, h]

theorem lookupR_cons (p : Nat × String) (m : List (Nat × String)) (r : Nat) :
    lookupR (p :: m) r = if p.1 = r then some p.2 else lookupR m r := by
  unfold lookupR
  by_cases h : p.1 = r
  · simp [List.find?_cons, h]
  · simp [List.find?_cons, h]

theorem lookupA_map_ne (k : String) (v : Nat) (a : String) (hak : a ≠ k) :
    ∀ m : List (String × Nat),
      lookupA (m.map (fun p => if p.1 = k then (k, v) else p)) a = lookupA m a := by
  intro m
  induction m with
  | nil => rfl
  | cons q m ih =>
    rw [List.map_cons, lookupA_cons, lookupA_cons]
    by_cases hq : q.1 = k
    · rw [if_pos hq]
      have h1 : ((k, v) : String × Nat).1 = a ↔ False := by simp; exact fun hc => hak hc.symm
      have h2 : ¬ q.1 = a := fun hc => hak (hq ▸ hc).symm
      rw [if_neg (fun hc => hak hc.symm), if_neg h2]
      exact ih
    · rw [if_neg hq]
      by_cases hqa : q.1 = a
      · rw [if_pos hqa, if_pos hqa]
      · rw [if_neg hqa, if_neg hqa]
        exact ih

theorem setA_cons_ne (p : String × Nat) (m : List (String × Nat)) (k : String) (v : Nat)
    (hp : ¬ p.1 = k) : setA (p :: m) k v = p :: setA m k v := by
  unfold setA
  rw [List.any_cons]
  simp only [hp, decide_False, Bool.false_or]
  by_cases hm : m.any (fun q => decide (q.1 = k)) = true
  · rw [if_pos hm, if_pos hm, List.map_cons, if_neg hp]
  · rw [if_neg hm, if_neg hm, List.cons_append]

theorem lookupA_setA : ∀ (m : List (String × Nat)) (k : String) (v : Nat) (a : String),
    lookupA (setA m k v) a = if a = k then some v else lookupA m a := by
  intro m
  induction m with
  | nil =>
    intro k v a
    show lookupA [(k, v)] a = _
    rw [lookupA_cons]
    by_cases h : a = k
    · rw [if_pos h, if_pos (h.symm)]
    · rw [if_neg h, if_neg (fun hc => h hc.symm)]
  | cons p m ih =>
    intro k v a
    by_cases hp : p.1 = k
    · have hany : (p :: m).any (fun q => decide (q.1 = k)) = true := by
        rw [List.any_cons]
        simp [hp]
      unfold setA
      rw [if_pos hany, List.map_cons, if_pos hp, lookupA_cons]
      by_cases hak : a = k
      · rw [if_pos hak]
        have : ((k, v) : String × Nat).1 = a := hak.symm
        rw [if_pos this]
      · rw [if_neg hak, if_neg (fun hc : ((k, v) : String × Nat).1 = a => hak hc.symm)]
        rw [lookupA_map_ne k v a hak m, lookupA_cons]
        have hpa : ¬ p.1 = a := fun hc => hak (hp ▸ hc : (k = a)).symm
        rw [if_neg hpa]
    · rw [setA_cons_ne p m k v hp, lookupA_cons, ih k v a, lookupA_cons]
      by_cases hak : a = k
      · rw [if_pos hak]
        have hpa : ¬ p.1 = a := fun hc => hp (hak ▸ hc)
        rw [if_neg hpa, if_pos hak]
      · rw [if_neg hak, if_neg hak]

theorem lookupR_append_sing : ∀ (m : List (Nat × String)) (k : Nat) (v : String) (r : Nat),
    lookupR (m ++ [(k, v)]) r =
      match lookupR m r with
      | some s => some s
      | none => if r = k then some v else none := by
  intro m
  induction m with
  | nil =>
    intro k v r
    show lookupR [(k, v)] r = _
    rw [lookupR_cons]
    by_cases h : k = r
    · rw [if_pos h]
      show _ = if r = k then some v else none
      rw [if_pos h.symm]
    · rw [if_neg h]
      show _ = if r = k then some v else none
      rw [if_neg (fun hc => h hc.symm)]
      rfl
  | cons p m ih =>
    intro k v r
    rw [List.cons_append, lookupR_cons, lookupR_cons]
    by_cases hp : p.1 = r
    · rw [if_pos hp, if_pos hp]
    · rw [if_neg hp, if_neg hp]
      exact ih k v r

theorem ridsOfA_snoc (a : String) (t : PTuple) (pre : List PTuple) :
    ridsOfA a (pre ++ [t]) =
      if t.nom_atbt = a then
        (if t.row_id ∈ (pre.filter (fun x => decide (x.nom_atbt = a))).map (fun x => x.row_id)
         then ridsOfA a pre else ridsOfA a pre ++ [t.row_id])
      else ridsOfA a pre := by
  unfold ridsOfA
  rw [List.filter_append, List.map_append]
  by_cases ht : t.nom_atbt = a
  · have hsing : (([t] : List PTuple).filter (fun x => decide (x.nom_atbt = a))).map
        (fun x => x.row_id) = [t.row_id] := by simp [ht]
    rw [hsing, if_pos ht, dedupFirstAux_append]
    simp only [dedupFirstAux, List.append_nil]
    by_cases hc : t.row_id ∈ (pre.filter (fun x => decide (x.nom_atbt = a))).map
        (fun x => x.row_id)
    · rw [if_pos hc, if_pos hc, List.append_nil]
    · rw [if_neg hc, if_neg hc]
  · have hsing : (([t] : List PTuple).filter (fun x => decide (x.nom_atbt = a))).map
        (fun x => x.row_id) = [] := by simp [ht]
    rw [hsing, List.append_nil, if_neg ht]

theorem lookupR_append_of_some {m : List (Nat × String)} {r : Nat} {s : String}
    (h : lookupR m r = some s) (k : Nat) (v : String) :
    lookupR (m ++ [(k, v)]) r = some s := by
  rw [lookupR_append_sing, h]

theorem lookupR_append_of_none {m : List (Nat × String)} {r : Nat}
    (h : lookupR m r = none) (k : Nat) (v : String) :
    lookupR (m ++ [(k, v)]) r = if r = k then some v else none := by
  rw [lookupR_append_sing, h]

theorem sufStr_eq_source (k : Nat) :
    (if 0 < k then " #" ++ toString (k + 1) else "") = sufStr k := by
  unfold sufStr
  by_cases h0 : k = 0
  · rw [if_pos h0, if_neg (by omega)]
  · rw [if_neg h0, if_pos (by omega)]

theorem suffix_names_cons_found (t : PTuple) (rest : List PTuple)
    (counts : List (String × Nat)) (sufs : List (Nat × String)) (s : String)
    (h : lookupR sufs t.row_id = some s) :
    suffix_names (t :: rest) counts sufs
      = (t.nom_atbt ++ s) :: suffix_names rest counts sufs := by
  simp only [suffix_names]
  rw [h]

theorem suffix_names_cons_new (t : PTuple) (rest : List PTuple)
    (counts : List (String × Nat)) (sufs : List (Nat × String))
    (h : lookupR sufs t.row_id = none) :
    suffix_names (t :: rest) counts sufs =
      (t.nom_atbt ++ sufStr ((lookupA counts t.nom_atbt).getD 0)) ::
        suffix_names rest (setA counts t.nom_atbt ((lookupA counts t.nom_atbt).getD 0 + 1))
          (sufs ++ [(t.row_id, sufStr ((lookupA counts t.nom_atbt).getD 0))]) := by
  simp only [suffix_names]
  rw [h, sufStr_eq_source ((lookupA counts t.nom_atbt).getD 0)]

theorem suffix_names_aux (F : List PTuple)
    (hcons : ∀ t ∈ F, ∀ t2 ∈ F, t.row_id = t2.row_id → t.nom_atbt = t2.nom_atbt) :
    ∀ (rest pre : List PTuple) (counts : List (String × Nat)) (sufs : List (Nat × String)),
      F = pre ++ rest →
      (∀ a, (lookupA counts a).getD 0 = (ridsOfA a pre).length) →
      (∀ r, lookupR sufs r = none ↔ ∀ t0 ∈ pre, t0.row_id ≠ r) →
      (∀ r s, lookupR sufs r = some s → ∀ t0 ∈ pre, t0.row_id = r →
        s = sufStr (idxOfN r (ridsOfA t0.nom_atbt F))) →
      suffix_names rest counts sufs
        = rest.map (fun t => t.nom_atbt ++ sufStr (idxOfN t.row_id (ridsOfA t.nom_atbt F))) := by
  intro rest
  induction rest with
  | nil => intro pre counts sufs _ _ _ _; rfl
  | cons t rest ih =>
    intro pre counts sufs hsplit H1 H2 H3
    have htF : t ∈ F := by
      rw [hsplit]
      exact List.mem_append.mpr (.inr (.head _))
    have hsplit2 : F = (pre ++ [t]) ++ rest := by
      rw [List.append_assoc]
      exact hsplit
    rcases hl : lookupR sufs t.row_id with _ | s
    · -- a fresh row_id: the counter branch
      rw [suffix_names_cons_new t rest counts sufs hl, List.map_cons]
      have hfresh : ∀ t0 ∈ pre, t0.row_id ≠ t.row_id := (H2 t.row_id).mp hl
      have hcP : t.row_id ∉ (pre.filter
          (fun x => decide (x.nom_atbt = t.nom_atbt))).map (fun x => x.row_id) := by
        intro hc
        rcases List.mem_map.mp hc with ⟨x, hx, hxr⟩
        exact hfresh x (List.mem_filter.mp hx).1 hxr
      have hidx : idxOfN t.row_id (ridsOfA t.nom_atbt F) = (ridsOfA t.nom_atbt pre).length := by
        rw [hsplit]
        unfold ridsOfA
        rw [List.filter_append, List.map_append]
        have hhead : (((t :: rest) : List PTuple).filter
              (fun x => decide (x.nom_atbt = t.nom_atbt))).map (fun x => x.row_id)
            = t.row_id :: ((rest.filter
              (fun x => decide (x.nom_atbt = t.nom_atbt))).map (fun x => x.row_id)) := by
          rw [List.filter_cons]
          simp
        rw [hhead, dedupFirstAux_append, List.append_nil]
        simp only [dedupFirstAux]
        rw [if_neg hcP]
        have hnotm : t.row_id ∉ dedupFirstAux []
            ((pre.filter (fun x => decide (x.nom_atbt = t.nom_atbt))).map
              (fun x => x.row_id)) := by
          intro hc
          exact hcP ((mem_dedupFirstAux _ [] _).mp hc).1
        rw [idxOfN_append_of_not_mem _ _ _ hnotm]
        simp only [idxOfN, if_pos rfl]
        rfl
      congr 1
      · rw [H1 t.nom_atbt, hidx]
      · apply ih (pre ++ [t])
          (setA counts t.nom_atbt ((lookupA counts t.nom_atbt).getD 0 + 1))
          (sufs ++ [(t.row_id, sufStr ((lookupA counts t.nom_atbt).getD 0))]) hsplit2
        · intro a2
          rw [lookupA_setA, ridsOfA_snoc]
          by_cases ha : a2 = t.nom_atbt
          · subst ha
            rw [if_pos rfl, if_pos rfl, if_neg hcP, List.length_append, H1 t.nom_atbt]
            rfl
          · rw [if_neg ha, if_neg (fun hc => ha hc.symm)]
            exact H1 a2
        · intro r
          rcases hr : lookupR sufs r with _ | s0
          · rw [lookupR_append_of_none hr]
            by_cases hrc : r = t.row_id
            · rw [if_pos hrc]
              constructor
              · intro h
                cases h
              · intro hall
                exact absurd hrc.symm
                  (hall t (List.mem_append.mpr (.inr (List.mem_singleton.mpr rfl))))
            · rw [if_neg hrc]
              constructor
              · intro _ t0 ht0
                rcases List.mem_append.mp ht0 with hp | hp
                · exact (H2 r).mp hr t0 hp
                · have heq : t0 = t := List.mem_singleton.mp hp
                  subst heq
                  exact fun hc => hrc hc.symm
              · intro _
                rfl
          · rw [lookupR_append_of_some hr]
            constructor
            · intro h
              cases h
            · intro hall
              have := (H2 r).mpr (fun t0 ht0 => hall t0 (List.mem_append.mpr (.inl ht0)))
              rw [hr] at this
              cases this
        · intro r s2 hr2 t0 ht0 hrid2
          rcases hr : lookupR sufs r with _ | s0
          · rw [lookupR_append_of_none hr] at hr2
            by_cases hrc : r = t.row_id
            · rw [if_pos hrc] at hr2
              injection hr2 with hr2
              rcases List.mem_append.mp ht0 with hp | hp
              · exact absurd (hrid2.trans hrc) (hfresh t0 hp)
              · have heq : t0 = t := List.mem_singleton.mp hp
                rw [heq, ← hr2, hrc, hidx, H1 t.nom_atbt]
            · rw [if_neg hrc] at hr2
              cases hr2
          · rw [lookupR_append_of_some hr] at hr2
            injection hr2 with hr2
            subst hr2
            rcases List.mem_append.mp ht0 with hp | hp
            · exact H3 r s0 hr t0 hp hrid2
            · have heq : t0 = t := List.mem_singleton.mp hp
              have hex : ∃ t1 ∈ pre, t1.row_id = r := by
                by_contra hcon
                push_neg at hcon
                have := (H2 r).mpr hcon
                rw [hr] at this
                cases this
              rcases hex with ⟨t1, ht1, hr1⟩
              have h1F : t1 ∈ F := by
                rw [hsplit]
                exact List.mem_append.mpr (.inl ht1)
              have hteq : t.row_id = r := by
                rw [← heq]
                exact hrid2
              have hattr : t1.nom_atbt = t.nom_atbt :=
                hcons t1 h1F t htF (hr1.trans hteq.symm)
              have hval := H3 r s0 hr t1 ht1 hr1
              rw [hattr] at hval
              rw [heq]
              exact hval
    · -- a row_id whose suffix is already frozen
      rw [suffix_names_cons_found t rest counts sufs s hl, List.map_cons]
      have hne : lookupR sufs t.row_id ≠ none := by
        rw [hl]
        simp
      have hex : ∃ t0 ∈ pre, t0.row_id = t.row_id := by
        by_contra hcon
        push_neg at hcon
        exact hne ((H2 t.row_id).mpr hcon)
      rcases hex with ⟨t0, ht0, hrid⟩
      have ht0F : t0 ∈ F := by
        rw [hsplit]
        exact List.mem_append.mpr (.inl ht0)
      have hattr : t0.nom_atbt = t.nom_atbt := hcons t0 ht0F t htF hrid
      have hs := H3 t.row_id s hl t0 ht0 hrid
      rw [hattr] at hs
      congr 1
      · rw [hs]
      · apply ih (pre ++ [t]) counts sufs hsplit2
        · intro a
          rw [ridsOfA_snoc]
          by_cases ha : t.nom_atbt = a
          · rw [if_pos ha, if_pos ?hmem]
            · exact H1 a
            · refine List.mem_map.mpr ⟨t0, List.mem_filter.mpr ⟨ht0, ?_⟩, hrid⟩
              have : t0.nom_atbt = a := hattr.trans ha
              exact decide_eq_true this
          · rw [if_neg ha]
            exact H1 a
        · intro r
          constructor
          · intro hr t0m ht0m
            rcases List.mem_append.mp ht0m with hp | hp
            · exact (H2 r).mp hr t0m hp
            · have heq : t0m = t := List.mem_singleton.mp hp
              subst heq
              intro hc
              rw [← hc, hl] at hr
              cases hr
          · intro hall
            exact (H2 r).mpr (fun t0m hp => hall t0m (List.mem_append.mpr (.inl hp)))
        · intro r s2 hr t0m ht0m hrid2
          rcases List.mem_append.mp ht0m with hp | hp
          · exact H3 r s2 hr t0m hp hrid2
          · have heq : t0m = t := List.mem_singleton.mp hp
            have hteq : t.row_id = r := by
              rw [← heq]
              exact hrid2
            rw [← hteq, hl] at hr
            injection hr with hr
            rw [heq, ← hr, ← hteq]
            exact hs

theorem emitRow_mem {header row : List Cell} {fdc : Nat} {attr : String} {rid : Nat}
    {t : PTuple} (h : t ∈ emitRow header row fdc attr rid) :
    t.nom_atbt = attr ∧ t.row_id = rid := by
  unfold emitRow at h
  rcases List.mem_filterMap.mp h with ⟨p, _, hp⟩
  by_cases hna : (cellIsNa p.1 || cellIsNa p.2) = true
  · rw [if_pos hna] at hp
    cases hp
  · rw [if_neg hna] at hp
    split at hp
    · injection hp with hp
      subst hp
      exact ⟨rfl, rfl⟩
    · split at hp
      · injection hp with hp
        subst hp
        exact ⟨rfl, rfl⟩
      · cases hp

theorem processRows_rid_ge (hv : Cell → Bool) (hd : List Cell) (fdc : Nat) :
    ∀ (rows : List (List Cell)) (c : Nat) (t : PTuple),
      t ∈ processRows hv hd fdc rows c → c ≤ t.row_id := by
  intro rows
  induction rows with
  | nil => intro c t h; cases h
  | cons row rest ih =>
    intro c t h
    rw [processRows_cons] at h
    by_cases h1 : attrParts fdc row = []
    · rw [if_pos h1] at h
      exact ih c t h
    · rw [if_neg h1] at h
      by_cases h2 : (row.drop fdc).any hv = false
      · rw [if_pos h2] at h
        exact ih c t h
      · rw [if_neg h2] at h
        rcases List.mem_append.mp h with hm | hm
        · rw [(emitRow_mem hm).2]
        · have := ih (c + 1) t hm
          omega

theorem processRows_consistent (hv : Cell → Bool) (hd : List Cell) (fdc : Nat) :
    ∀ (rows : List (List Cell)) (c : Nat),
      ∀ t ∈ processRows hv hd fdc rows c, ∀ t2 ∈ processRows hv hd fdc rows c,
        t.row_id = t2.row_id → t.nom_atbt = t2.nom_atbt := by
  intro rows
  induction rows with
  | nil => intro c t ht; cases ht
  | cons row rest ih =>
    intro c t ht t2 ht2 hr
    rw [processRows_cons] at ht ht2
    by_cases h1 : attrParts fdc row = []
    · rw [if_pos h1] at ht ht2
      exact ih c t ht t2 ht2 hr
    · rw [if_neg h1] at ht ht2
      by_cases h2 : (row.drop fdc).any hv = false
      · rw [if_pos h2] at ht ht2
        exact ih c t ht t2 ht2 hr
      · rw [if_neg h2] at ht ht2
        rcases List.mem_append.mp ht with hm | hm <;>
          rcases List.mem_append.mp ht2 with hm2 | hm2
        · rw [(emitRow_mem hm).1, (emitRow_mem hm2).1]
        · exfalso
          have hge := processRows_rid_ge hv hd fdc rest (c + 1) t2 hm2
          have h3 := (emitRow_mem hm).2
          omega
        · exfalso
          have hge := processRows_rid_ge hv hd fdc rest (c + 1) t hm
          have h3 := (emitRow_mem hm2).2
          omega
        · exact ih (c + 1) t hm t2 hm2 hr

/-- **C4.**  The attribute-disambiguation of `process_file`: over any tuple
list in which a `row_id` determines its attribute name (true of every
`parse_sheet` output, second conjunct), the emitted names are exactly the
raw name followed by the claim's ordinal suffix — the bare name for the
first row carrying that attribute, `" #2"`, `" #3"`, … for later rows in
order of appearance — so repeated dates *within* one row (same `row_id`)
all keep that row's single suffix, never a new one. -/
theorem process_file_attr_suffix_spec :
    (∀ ts : List PTuple,
        (∀ t ∈ ts, ∀ t2 ∈ ts, t.row_id = t2.row_id → t.nom_atbt = t2.nom_atbt) →
        suffix_names ts [] [] = ts.map (fun t =>
          t.nom_atbt ++ sufStr (idxOfN t.row_id (ridsOfA t.nom_atbt ts))))
    ∧ (∀ (hv : Cell → Bool) (hd : List Cell) (fdc : Nat) (rows : List (List Cell)),
        ∀ t ∈ processRows hv hd fdc rows 0, ∀ t2 ∈ processRows hv hd fdc rows 0,
          t.row_id = t2.row_id → t.nom_atbt = t2.nom_atbt) := by
  constructor
  · intro ts hcons
    apply suffix_names_aux ts hcons ts [] [] [] rfl
    · intro a
      rfl
    · intro r
      constructor
      · intro _ t0 ht0
        cases ht0
      · intro _
        rfl
    · intro r s hr
      simp [lookupR] at hr
  · exact fun hv hd fdc rows => processRows_consistent hv hd fdc rows 0

/-- Witness for C4: `"Receita"` on row 0 under two dates keeps the bare
name twice, and its repetition on row 1 becomes `"Receita #2"`. -/
theorem process_file_attr_suffix_spec_witness :
    suffix_names [⟨"Receita", "Mar/25", (1 : ℚ), 0⟩, ⟨"Receita", "Jun/25", (2 : ℚ), 0⟩,
        ⟨"Receita", "Mar/25", (3 : ℚ), 1⟩] [] []
      = ([⟨"Receita", "Mar/25", (1 : ℚ), 0⟩, ⟨"Receita", "Jun/25", (2 : ℚ), 0⟩,
          ⟨"Receita", "Mar/25", (3 : ℚ), 1⟩] : List PTuple).map (fun t =>
          t.nom_atbt ++ sufStr (idxOfN t.row_id (ridsOfA t.nom_atbt
            [⟨"Receita", "Mar/25", (1 : ℚ), 0⟩, ⟨"Receita", "Jun/25", (2 : ℚ), 0⟩,
             ⟨"Receita", "Mar/25", (3 : ℚ), 1⟩]))) :=
  process_file_attr_suffix_spec.1
    [⟨"Receita", "Mar/25", (1 : ℚ), 0⟩, ⟨"Receita", "Jun/25", (2 : ℚ), 0⟩,
     ⟨"Receita", "Mar/25", (3 : ℚ), 1⟩] (by decide)

/-! ### C5 — `format_data_base` of both extractors -/

theorem natDigitsAux_zero (fuel : Nat) : natDigitsAux fuel 0 = [] := by
  cases fuel <;> rfl

theorem natDigitsAux_succ (fuel k : Nat) :
    natDigitsAux (fuel + 1) (k + 1)
      = natDigitsAux fuel ((k + 1) / 10) ++ [Char.ofNat (48 + (k + 1) % 10)] := rfl

theorem natDigitsAux_digits : ∀ (fuel n : Nat), ∀ c ∈ natDigitsAux fuel n,
    isDigitCh c = true := by
  intro fuel
  induction fuel with
  | zero => intro n c hc; cases hc
  | succ fuel ih =>
    intro n c hc
    rcases n with _ | k
    · rw [natDigitsAux_zero] at hc
      cases hc
    · rw [natDigitsAux_succ] at hc
      rcases List.mem_append.mp hc with h | h
      · exact ih _ c h
      · have hcc : c = Char.ofNat (48 + (k + 1) % 10) := List.mem_singleton.mp h
        subst hcc
        rw [isDigitCh_iff, char_toNat_ofNat (by omega)]
        omega

theorem natDigitsAux_length : ∀ (fuel n : Nat), (natDigitsAux fuel n).length ≤ fuel := by
  intro fuel
  induction fuel with
  | zero => intro n; simp [natDigitsAux]
  | succ fuel ih =>
    intro n
    rcases n with _ | k
    · rw [natDigitsAux_zero]
      simp
    · rw [natDigitsAux_succ, List.length_append]
      have := ih ((k + 1) / 10)
      simp
      omega

theorem natDigitsAux_fuel : ∀ (fuel fuel2 n : Nat), n < 10 ^ fuel → fuel ≤ fuel2 →
    natDigitsAux fuel2 n = natDigitsAux fuel n := by
  intro fuel
  induction fuel with
  | zero =>
    intro fuel2 n hn _
    have hn0 : n = 0 := by simpa using hn
    subst hn0
    rw [natDigitsAux_zero, natDigitsAux_zero]
  | succ fuel ih =>
    intro fuel2 n hn hle
    rcases n with _ | k
    · rw [natDigitsAux_zero, natDigitsAux_zero]
    · rcases fuel2 with _ | fuel2
      · omega
      · rw [natDigitsAux_succ, natDigitsAux_succ]
        congr 1
        refine ih fuel2 ((k + 1) / 10) ?_ (by omega)
        rw [Nat.div_lt_iff_lt_mul (show 0 < 10 by omega)]
        rw [pow_succ] at hn
        omega

theorem natDigitsAux_roundtrip : ∀ (fuel n : Nat), n < 10 ^ fuel →
    natOfDigits (natDigitsAux fuel n) = n := by
  intro fuel
  induction fuel with
  | zero =>
    intro n hn
    have hn0 : n = 0 := by simpa using hn
    subst hn0
    rfl
  | succ fuel ih =>
    intro n hn
    rcases n with _ | k
    · rw [natDigitsAux_zero]
      rfl
    · rw [natDigitsAux_succ, natOfDigits_append]
      have h1 := ih ((k + 1) / 10) (by
        rw [Nat.div_lt_iff_lt_mul (show 0 < 10 by omega)]
        rw [pow_succ] at hn
        omega)
      rw [h1]
      have h2 : natOfDigits [Char.ofNat (48 + (k + 1) % 10)] = (k + 1) % 10 := by
        show List.foldl _ 0 [_] = _
        rw [List.foldl_cons, List.foldl_nil, char_toNat_ofNat (by omega)]
        omega
      rw [h2]
      simp only [List.length_singleton, pow_one]
      omega

theorem natOfDigits_replicate_zero : ∀ (k : Nat) (l : List Char),
    natOfDigits (List.replicate k '0' ++ l) = natOfDigits l := by
  intro k
  induction k with
  | zero => intro l; rfl
  | succ k ih =>
    intro l
    rw [List.replicate_succ, List.cons_append]
    show List.foldl (fun n c => 10 * n + (c.toNat - 48)) (10 * 0 + ('0'.toNat - 48))
      (List.replicate k '0' ++ l) = natOfDigits l
    rw [natOfDigits_shift (List.replicate k '0' ++ l) (10 * 0 + ('0'.toNat - 48))]
    have h0 : 10 * 0 + ('0'.toNat - 48) = 0 := by decide
    rw [h0, ih l]
    simp

theorem padZero_spec (w n : Nat) (hn : n < 10 ^ w) (hw : 1 ≤ w) (hw8 : w ≤ 8) :
    (padZero w n).length = w ∧ (padZero w n).all isDigitCh = true
      ∧ natOfDigits (padZero w n) = n := by
  have hlen : (natChars n).length ≤ w := by
    unfold natChars
    by_cases h0 : n = 0
    · rw [if_pos h0]
      simpa using hw
    · rw [if_neg h0, natDigitsAux_fuel w 8 n hn hw8]
      exact natDigitsAux_length w n
  have hdig : (natChars n).all isDigitCh = true := by
    rw [List.all_eq_true]
    intro c hc
    unfold natChars at hc
    by_cases h0 : n = 0
    · rw [if_pos h0] at hc
      rw [List.mem_singleton.mp hc]
      decide
    · rw [if_neg h0] at hc
      exact natDigitsAux_digits 8 n c hc
  have hrt : natOfDigits (natChars n) = n := by
    unfold natChars
    by_cases h0 : n = 0
    · rw [if_pos h0, h0]
      decide
    · rw [if_neg h0]
      refine natDigitsAux_roundtrip 8 n ?_
      have : (10 : Nat) ^ w ≤ 10 ^ 8 := Nat.pow_le_pow_right (by omega) hw8
      omega
  refine ⟨?_, ?_, ?_⟩
  · unfold padZero
    rw [List.length_append, List.length_replicate]
    omega
  · unfold padZero
    rw [List.all_append, hdig, Bool.and_true, List.all_eq_true]
    intro c hc
    rw [List.eq_of_mem_replicate hc]
    decide
  · unfold padZero
    rw [natOfDigits_replicate_zero, hrt]

theorem list_eq_of_length4 {l : List Char} (h : l.length = 4) :
    ∃ a b c d, l = [a, b, c, d] := by
  rcases l with _ | ⟨a, l⟩
  · simp at h
  rcases l with _ | ⟨b, l⟩
  · simp at h
  rcases l with _ | ⟨c, l⟩
  · simp at h
  rcases l with _ | ⟨d, l⟩
  · simp at h
  rcases l with _ | ⟨e, l⟩
  · exact ⟨a, b, c, d, rfl⟩
  · simp at h

theorem list_eq_of_length2 {l : List Char} (h : l.length = 2) :
    ∃ a b, l = [a, b] := by
  rcases l with _ | ⟨a, l⟩
  · simp at h
  rcases l with _ | ⟨b, l⟩
  · simp at h
  rcases l with _ | ⟨c, l⟩
  · exact ⟨a, b, rfl⟩
  · simp at h

theorem matchQuarterPrefix_some {cs : List Char} {tq yy : Nat}
    (h : matchQuarterPrefix cs = some (tq, yy)) : 1 ≤ tq ∧ tq ≤ 4 ∧ yy ≤ 99 := by
  rcases cs with _ | ⟨c1, cs⟩
  · cases h
  rcases cs with _ | ⟨c2, cs⟩
  · cases h
  rcases cs with _ | ⟨c3, cs⟩
  · cases h
  rcases cs with _ | ⟨c4, cs⟩
  · cases h
  simp only [matchQuarterPrefix] at h
  split at h
  · rename_i hc
    injection h with h
    injection h with h1 h2
    subst h1
    subst h2
    obtain ⟨⟨hc1a, hc1b⟩, -, hc3, hc4⟩ := hc
    rw [isDigitCh_iff] at hc3 hc4
    unfold digVal
    omega
  · cases h

theorem monthNum_range {ls : List Char} {mn : Nat} (h : monthNum ls = some mn) :
    1 ≤ mn ∧ mn ≤ 12 := by
  unfold monthNum at h
  rcases hf : mes_map_dict.find? (fun e => decide (e.1 = ls)) with _ | e
  · rw [hf] at h
    cases h
  · rw [hf] at h
    injection h with h
    subst h
    have hmem := List.mem_of_find?_eq_some hf
    have hall : ∀ e ∈ mes_map_dict, 1 ≤ e.2 ∧ e.2 ≤ 12 := by decide
    exact hall e hmem

theorem mes_map_range {t : Nat} (h1 : 1 ≤ t) (h2 : t ≤ 4) :
    mes_map t = 3 ∨ mes_map t = 6 ∨ mes_map t = 9 ∨ mes_map t = 12 := by
  interval_cases t <;> decide

theorem trimestre_end_range {m : Nat} (h1 : 1 ≤ m) (h2 : m ≤ 12) :
    trimestre_end_map m = 3 ∨ trimestre_end_map m = 6 ∨ trimestre_end_map m = 9
      ∨ trimestre_end_map m = 12 := by
  interval_cases m <;> decide

theorem month_end_range {m : Nat} (h1 : 1 ≤ m) (h2 : m ≤ 12) :
    month_end m = 3 ∨ month_end m = 6 ∨ month_end m = 9 ∨ month_end m = 12 := by
  interval_cases m <;> decide

theorem month_end_fix {m : Nat} (h : m = 3 ∨ m = 6 ∨ m = 9 ∨ m = 12) :
    month_end m = m := by
  rcases h with rfl | rfl | rfl | rfl <;> decide

theorem quarter_le_12 {m : Nat} (h : m = 3 ∨ m = 6 ∨ m = 9 ∨ m = 12) : 1 ≤ m ∧ m ≤ 12 := by
  rcases h with rfl | rfl | rfl | rfl <;> omega

theorem daysInMonth_pos (y m : Nat) : 1 ≤ daysInMonth y m := by
  unfold daysInMonth
  split
  · omega
  · split
    · omega
    · split <;> omega

theorem checkDate_some {y mo dy y2 m2 : Nat} (h : checkDate y mo dy = some (y2, m2)) :
    y2 = y ∧ m2 = mo ∧ 1678 ≤ y ∧ y ≤ 2261 ∧ 1 ≤ mo ∧ mo ≤ 12 := by
  unfold checkDate at h
  split at h
  · rename_i hc
    injection h with h
    injection h with h1 h2
    exact ⟨h1.symm, h2.symm, hc.1, hc.2.1, hc.2.2.1, hc.2.2.2.1⟩
  · cases h

theorem dayfirstResolve_some {y a b y2 m2 : Nat} (h : dayfirstResolve y a b = some (y2, m2)) :
    y2 = y ∧ 1678 ≤ y2 ∧ y2 ≤ 2261 ∧ 1 ≤ m2 ∧ m2 ≤ 12 := by
  unfold dayfirstResolve at h
  rcases h1 : checkDate y b a with _ | r
  · rw [h1] at h
    rcases checkDate_some h with ⟨hy, hm, hb1, hb2, hb3, hb4⟩
    exact ⟨hy, hy ▸ hb1, hy ▸ hb2, hm ▸ hb3, hm ▸ hb4⟩
  · rw [h1] at h
    injection h with h
    subst h
    rcases checkDate_some h1 with ⟨hy, hm, hb1, hb2, hb3, hb4⟩
    exact ⟨hy, hy ▸ hb1, hy ▸ hb2, hm ▸ hb3, hm ▸ hb4⟩

theorem pyToDatetime_some {cs : List Char} {y m : Nat} (h : pyToDatetime cs = some (y, m)) :
    1678 ≤ y ∧ y ≤ 2261 ∧ 1 ≤ m ∧ m ≤ 12 := by
  simp only [pyToDatetime] at h
  split at h
  · split at h
    · split at h
      · rcases checkDate_some h with ⟨hy, hm, hb1, hb2, hb3, hb4⟩
        exact ⟨hy ▸ hb1, hy ▸ hb2, hm ▸ hb3, hm ▸ hb4⟩
      · cases h
    · cases h
  · split at h
    · split at h
      · split at h
        · split at h
          · split at h
            · split at h
              · rcases dayfirstResolve_some h with ⟨-, hb1, hb2, hb3, hb4⟩
                exact ⟨hb1, hb2, hb3, hb4⟩
              · split at h
                · rcases dayfirstResolve_some h with ⟨-, hb1, hb2, hb3, hb4⟩
                  exact ⟨hb1, hb2, hb3, hb4⟩
                · cases h
            · cases h
          · cases h
        · cases h
      · cases h
    · cases h

theorem dropWhile_head_false {p : Char → Bool} :
    ∀ (l : List Char) (c : Char), (l.dropWhile p).head? = some c → p c = false := by
  intro l
  induction l with
  | nil => intro c h; cases h
  | cons a t ih =>
    intro c h
    rw [List.dropWhile_cons] at h
    by_cases hp : p a = true
    · rw [if_pos hp] at h
      exact ih c h
    · rw [if_neg hp] at h
      injection h with h
      subst h
      exact Bool.not_eq_true _ |>.mp hp

theorem dropWhile_idem {p : Char → Bool} :
    ∀ (l : List Char), (l.dropWhile p).dropWhile p = l.dropWhile p := by
  intro l
  induction l with
  | nil => rfl
  | cons a t ih =>
    rw [List.dropWhile_cons]
    by_cases hp : p a = true
    · rw [if_pos hp]
      exact ih
    · rw [if_neg hp, List.dropWhile_cons, if_neg hp]

theorem dropWhile_getLast {p : Char → Bool} :
    ∀ (l : List Char), (l.dropWhile p).getLast? = l.getLast? ∨ l.dropWhile p = [] := by
  intro l
  induction l with
  | nil => exact .inr rfl
  | cons a t ih =>
    rw [List.dropWhile_cons]
    by_cases hp : p a = true
    · rw [if_pos hp]
      rcases ih with h | h
      · rcases t with _ | ⟨b, t⟩
        · exact .inr (by simpa using h)
        · exact .inl (h.trans (List.getLast?_cons_cons).symm)
      · exact .inr h
    · rw [if_neg hp]
      exact .inl rfl

theorem dropWhile_eq_self_of_head {p : Char → Bool} {l : List Char}
    (h : ∀ c, l.head? = some c → p c = false) : l.dropWhile p = l := by
  cases l with
  | nil => rfl
  | cons a t =>
    rw [List.dropWhile_cons, h a rfl]
    simp

theorem pyStrip_idem (l : List Char) : pyStrip (pyStrip l) = pyStrip l := by
  show pyStrip (((l.dropWhile isPySpace).reverse.dropWhile isPySpace).reverse)
    = ((l.dropWhile isPySpace).reverse.dropWhile isPySpace).reverse
  unfold pyStrip
  have hz : ((l.dropWhile isPySpace).reverse.dropWhile isPySpace).reverse.dropWhile isPySpace
      = ((l.dropWhile isPySpace).reverse.dropWhile isPySpace).reverse := by
    apply dropWhile_eq_self_of_head
    intro c hc
    rw [List.head?_reverse] at hc
    rcases dropWhile_getLast ((l.dropWhile isPySpace).reverse) with h | h
    · rw [h, List.getLast?_reverse] at hc
      exact dropWhile_head_false l c hc
    · rw [h] at hc
      cases hc
  rw [hz, List.reverse_reverse, dropWhile_idem]

theorem takeWhile_all_append {p : Char → Bool} :
    ∀ (u : List Char) (x : Char) (v : List Char),
      (∀ c ∈ u, p c = true) → p x = false → (u ++ x :: v).takeWhile p = u := by
  intro u
  induction u with
  | nil =>
    intro x v _ hx
    rw [List.nil_append, List.takeWhile_cons, hx]
    simp
  | cons a u ih =>
    intro x v h hx
    rw [List.cons_append, List.takeWhile_cons, h a (List.mem_cons_self a u),
      ih x v (fun c hc => h c (List.mem_cons_of_mem a hc)) hx]
    simp

theorem mkDate_fixed (y m : Nat) (hy1 : 1678 ≤ y) (hy2 : y ≤ 2261)
    (hm1 : 1 ≤ m) (hm2 : m ≤ 12) :
    pyStrip (mkDate y m).data = (mkDate y m).data
    ∧ matchQuarterPrefix (mkDate y m).data = none
    ∧ matchMonthPrefix (mkDate y m).data = none
    ∧ pyToDatetime (mkDate y m).data = some (y, m) := by
  obtain ⟨hL4, hA4, hV4⟩ := padZero_spec 4 y (by omega) (by omega) (by omega)
  obtain ⟨hL2, hA2, hV2⟩ := padZero_spec 2 m (by omega) (by omega) (by omega)
  obtain ⟨a, b, c, d, hab⟩ := list_eq_of_length4 hL4
  obtain ⟨m1, m2, hm12⟩ := list_eq_of_length2 hL2
  have hdata : (mkDate y m).data = padZero 4 y ++ '-' :: (padZero 2 m ++ ['-', '0', '1']) := rfl
  have hA4' := hA4
  rw [hab, List.all_cons, List.all_cons, List.all_cons, List.all_cons] at hA4'
  simp only [Bool.and_eq_true, List.all_nil, and_true] at hA4'
  obtain ⟨ha, hb, hc, hd⟩ := hA4'
  have hA2' := hA2
  rw [hm12, List.all_cons, List.all_cons] at hA2'
  simp only [Bool.and_eq_true, List.all_nil, and_true] at hA2'
  obtain ⟨hm1d, hm2d⟩ := hA2'
  refine ⟨?_, ?_, ?_, ?_⟩
  · apply pyStrip_all_nonspace
    rw [hdata]
    intro ch hch
    rcases List.mem_append.mp hch with h | h
    · exact digit_not_space (List.all_eq_true.mp hA4 ch h)
    · rcases List.mem_cons.mp h with rfl | h
      · decide
      · rcases List.mem_append.mp h with h | h
        · exact digit_not_space (List.all_eq_true.mp hA2 ch h)
        · fin_cases h <;> decide
  · rw [hdata, hab]
    show matchQuarterPrefix (a :: b :: c :: d :: ('-' :: (padZero 2 m ++ ['-', '0', '1']))) = none
    simp only [matchQuarterPrefix]
    rw [if_neg ?hq]
    rintro ⟨-, hbT | hbT, -, -⟩ <;>
      · subst hbT
        revert hb
        decide
  · rw [hdata, hab]
    show matchMonthPrefix (a :: b :: c :: (d :: '-' :: (padZero 2 m ++ ['-', '0', '1']))) = none
    simp only [matchMonthPrefix]
    rw [if_neg ?hmm]
    have hlet : isLatinLetter a = false := by
      rw [isDigitCh_iff] at ha
      unfold isLatinLetter
      simp only [Bool.or_eq_false_iff, Bool.and_eq_false_iff]
      refine ⟨⟨?_, ?_⟩, ?_⟩ <;> simp only [decide_eq_false_iff_not] <;> omega
    simp [hlet]
  · rw [hdata]
    simp only [pyToDatetime]
    rw [takeWhile_all_append (padZero 4 y) '-' (padZero 2 m ++ ['-', '0', '1'])
      (List.all_eq_true.mp hA4) (by decide)]
    rw [show List.drop (padZero 4 y).length
        (padZero 4 y ++ '-' :: (padZero 2 m ++ ['-', '0', '1']))
        = '-' :: (padZero 2 m ++ ['-', '0', '1']) from List.drop_left _ _]
    rw [if_pos hL4, hm12]
    show (if isDigitCh m1 && isDigitCh m2 && isDigitCh '0' && isDigitCh '1'
        && isTimeTail [] then
        checkDate (natOfDigits (padZero 4 y)) (10 * digVal m1 + digVal m2)
          (10 * digVal '0' + digVal '1')
      else none) = some (y, m)
    rw [if_pos (by rw [hm1d, hm2d]; decide)]
    have hmo : 10 * digVal m1 + digVal m2 = m := by
      have : natOfDigits [m1, m2] = 10 * (m1.toNat - 48) + (m2.toNat - 48) := by
        show List.foldl _ 0 [m1, m2] = _
        rw [List.foldl_cons, List.foldl_cons, List.foldl_nil]
        omega
      rw [← hm12] at this
      rw [hV2] at this
      unfold digVal
      omega
    have hdy : 10 * digVal '0' + digVal '1' = 1 := by decide
    rw [hV4, hmo, hdy]
    unfold checkDate
    rw [if_pos ⟨hy1, hy2, hm1, hm2, by omega, daysInMonth_pos y m⟩]

theorem matchMonthPrefix_some {cs ls : List Char} {yy : Nat}
    (h : matchMonthPrefix cs = some (ls, yy)) : yy ≤ 99 := by
  rcases cs with _ | ⟨a, cs⟩
  · cases h
  rcases cs with _ | ⟨b, cs⟩
  · cases h
  rcases cs with _ | ⟨c, cs⟩
  · cases h
  simp only [matchMonthPrefix] at h
  split at h
  · split at h
    · split at h
      · rename_i hd
        injection h with h
        injection h with h1 h2
        subst h2
        rw [Bool.and_eq_true] at hd
        obtain ⟨hd1, hd2⟩ := hd
        rw [isDigitCh_iff] at hd1 hd2
        unfold digVal
        omega
      · cases h
    · split at h
      · rename_i hd
        injection h with h
        injection h with h1 h2
        subst h2
        rw [Bool.and_eq_true] at hd
        obtain ⟨hd1, hd2⟩ := hd
        rw [isDigitCh_iff] at hd1 hd2
        unfold digVal
        omega
      · cases h
    · cases h
  · cases h

theorem bradesco_eq_quarter {s : String} {tq yy : Nat}
    (h : matchQuarterPrefix (pyStrip s.data) = some (tq, yy)) :
    bradesco_format_data_base s = mkDate (2000 + yy) (mes_map tq) := by
  simp only [bradesco_format_data_base]
  rw [h]

theorem bradesco_eq_month {s : String} {ls : List Char} {yy mn : Nat}
    (hq : matchQuarterPrefix (pyStrip s.data) = none)
    (hm : matchMonthPrefix (pyStrip s.data) = some (ls, yy))
    (hn : monthNum (ls.map lowerChar) = some mn) :
    bradesco_format_data_base s = mkDate (2000 + yy) (trimestre_end_map mn) := by
  have h2 : bradesco_format_data_base s =
      (match monthNum (ls.map lowerChar) with
        | some mn => mkDate (2000 + yy) (trimestre_end_map mn)
        | none => String.mk (pyStrip s.data)) := by
    simp only [bradesco_format_data_base]
    rw [hq, hm]
  rw [h2, hn]

theorem bradesco_eq_strip_a {s : String}
    (hq : matchQuarterPrefix (pyStrip s.data) = none)
    (hm : matchMonthPrefix (pyStrip s.data) = none) :
    bradesco_format_data_base s = String.mk (pyStrip s.data) := by
  simp only [bradesco_format_data_base]
  rw [hq, hm]

theorem bradesco_eq_strip_b {s : String} {ls : List Char} {yy : Nat}
    (hq : matchQuarterPrefix (pyStrip s.data) = none)
    (hm : matchMonthPrefix (pyStrip s.data) = some (ls, yy))
    (hn : monthNum (ls.map lowerChar) = none) :
    bradesco_format_data_base s = String.mk (pyStrip s.data) := by
  have h2 : bradesco_format_data_base s =
      (match monthNum (ls.map lowerChar) with
        | some mn => mkDate (2000 + yy) (trimestre_end_map mn)
        | none => String.mk (pyStrip s.data)) := by
    simp only [bradesco_format_data_base]
    rw [hq, hm]
  rw [h2, hn]

theorem itau_eq_quarter {s : String} {tq yy : Nat}
    (h : matchQuarterPrefix (pyStrip s.data) = some (tq, yy)) :
    itau_format_data_base (.str s) = mkDate (2000 + yy) (mes_map tq) := by
  simp only [itau_format_data_base]
  rw [h]

theorem itau_eq_month {s : String} {ls : List Char} {yy mn : Nat}
    (hq : matchQuarterPrefix (pyStrip s.data) = none)
    (hm : matchMonthPrefix (pyStrip s.data) = some (ls, yy))
    (hn : monthNum (ls.map lowerChar) = some mn) :
    itau_format_data_base (.str s) = mkDate (2000 + yy) (trimestre_end_map mn) := by
  have h2 : itau_format_data_base (.str s) =
      (match monthNum (ls.map lowerChar) with
        | some mn => mkDate (2000 + yy) (trimestre_end_map mn)
        | none =>
          match pyToDatetime (pyStrip s.data) with
          | some (y, m) => mkDate y (month_end m)
          | none => s) := by
    simp only [itau_format_data_base]
    rw [hq, hm]
  rw [h2, hn]

theorem itau_eq_dt_a {s : String} {y m : Nat}
    (hq : matchQuarterPrefix (pyStrip s.data) = none)
    (hm : matchMonthPrefix (pyStrip s.data) = none)
    (hd : pyToDatetime (pyStrip s.data) = some (y, m)) :
    itau_format_data_base (.str s) = mkDate y (month_end m) := by
  simp only [itau_format_data_base]
  rw [hq, hm, hd]

theorem itau_eq_dt_b {s : String} {ls : List Char} {yy y m : Nat}
    (hq : matchQuarterPrefix (pyStrip s.data) = none)
    (hm : matchMonthPrefix (pyStrip s.data) = some (ls, yy))
    (hn : monthNum (ls.map lowerChar) = none)
    (hd : pyToDatetime (pyStrip s.data) = some (y, m)) :
    itau_format_data_base (.str s) = mkDate y (month_end m) := by
  have h2 : itau_format_data_base (.str s) =
      (match monthNum (ls.map lowerChar) with
        | some mn => mkDate (2000 + yy) (trimestre_end_map mn)
        | none =>
          match pyToDatetime (pyStrip s.data) with
          | some (y, m) => mkDate y (month_end m)
          | none => s) := by
    simp only [itau_format_data_base]
    rw [hq, hm]
  rw [h2, hn, hd]

theorem itau_eq_self_a {s : String}
    (hq : matchQuarterPrefix (pyStrip s.data) = none)
    (hm : matchMonthPrefix (pyStrip s.data) = none)
    (hd : pyToDatetime (pyStrip s.data) = none) :
    itau_format_data_base (.str s) = s := by
  simp only [itau_format_data_base]
  rw [hq, hm, hd]

theorem itau_eq_self_b {s : String} {ls : List Char} {yy : Nat}
    (hq : matchQuarterPrefix (pyStrip s.data) = none)
    (hm : matchMonthPrefix (pyStrip s.data) = some (ls, yy))
    (hn : monthNum (ls.map lowerChar) = none)
    (hd : pyToDatetime (pyStrip s.data) = none) :
    itau_format_data_base (.str s) = s := by
  have h2 : itau_format_data_base (.str s) =
      (match monthNum (ls.map lowerChar) with
        | some mn => mkDate (2000 + yy) (trimestre_end_map mn)
        | none =>
          match pyToDatetime (pyStrip s.data) with
          | some (y, m) => mkDate y (month_end m)
          | none => s) := by
    simp only [itau_format_data_base]
    rw [hq, hm]
  rw [h2, hn, hd]

theorem bradesco_fix_canonical {y q : Nat} (hy1 : 1678 ≤ y) (hy2 : y ≤ 2261)
    (hq : q = 3 ∨ q = 6 ∨ q = 9 ∨ q = 12) :
    bradesco_format_data_base (mkDate y q) = mkDate y q := by
  obtain ⟨hstrip, hquar, hmon, -⟩ :=
    mkDate_fixed y q hy1 hy2 (quarter_le_12 hq).1 (quarter_le_12 hq).2
  have h1 : matchQuarterPrefix (pyStrip (mkDate y q).data) = none := by
    rw [hstrip]
    exact hquar
  have h2 : matchMonthPrefix (pyStrip (mkDate y q).data) = none := by
    rw [hstrip]
    exact hmon
  rw [bradesco_eq_strip_a h1 h2, hstrip]

theorem itau_fix_canonical {y q : Nat} (hy1 : 1678 ≤ y) (hy2 : y ≤ 2261)
    (hq : q = 3 ∨ q = 6 ∨ q = 9 ∨ q = 12) :
    itau_format_data_base (.str (mkDate y q)) = mkDate y q := by
  obtain ⟨hstrip, hquar, hmon, hdt⟩ :=
    mkDate_fixed y q hy1 hy2 (quarter_le_12 hq).1 (quarter_le_12 hq).2
  have h1 : matchQuarterPrefix (pyStrip (mkDate y q).data) = none := by
    rw [hstrip]
    exact hquar
  have h2 : matchMonthPrefix (pyStrip (mkDate y q).data) = none := by
    rw [hstrip]
    exact hmon
  have h3 : pyToDatetime (pyStrip (mkDate y q).data) = some (y, q) := by
    rw [hstrip]
    exact hdt
  rw [itau_eq_dt_a h1 h2 h3, month_end_fix hq]

theorem bradesco_shape (s : String) :
    (∃ y q, 1678 ≤ y ∧ y ≤ 2261 ∧ (q = 3 ∨ q = 6 ∨ q = 9 ∨ q = 12)
      ∧ bradesco_format_data_base s = mkDate y q)
    ∨ bradesco_format_data_base s = String.mk (pyStrip s.data) := by
  rcases hq : matchQuarterPrefix (pyStrip s.data) with _ | ⟨tq, yy⟩
  · rcases hm : matchMonthPrefix (pyStrip s.data) with _ | ⟨ls, yy⟩
    · exact .inr (bradesco_eq_strip_a hq hm)
    · rcases hn : monthNum (ls.map lowerChar) with _ | mn
      · exact .inr (bradesco_eq_strip_b hq hm hn)
      · obtain ⟨h1, h2⟩ := monthNum_range hn
        have hyy := matchMonthPrefix_some hm
        exact .inl ⟨2000 + yy, trimestre_end_map mn, by omega, by omega,
          trimestre_end_range h1 h2, bradesco_eq_month hq hm hn⟩
  · obtain ⟨t1, t2, hyy⟩ := matchQuarterPrefix_some hq
    exact .inl ⟨2000 + yy, mes_map tq, by omega, by omega,
      mes_map_range t1 t2, bradesco_eq_quarter hq⟩

theorem itau_shape (s : String) :
    (∃ y q, 1678 ≤ y ∧ y ≤ 2261 ∧ (q = 3 ∨ q = 6 ∨ q = 9 ∨ q = 12)
      ∧ itau_format_data_base (.str s) = mkDate y q)
    ∨ itau_format_data_base (.str s) = s := by
  rcases hq : matchQuarterPrefix (pyStrip s.data) with _ | ⟨tq, yy⟩
  · rcases hm : matchMonthPrefix (pyStrip s.data) with _ | ⟨ls, yy⟩
    · rcases hd : pyToDatetime (pyStrip s.data) with _ | ⟨y0, m0⟩
      · exact .inr (itau_eq_self_a hq hm hd)
      · obtain ⟨hb1, hb2, hb3, hb4⟩ := pyToDatetime_some hd
        exact .inl ⟨y0, month_end m0, hb1, hb2, month_end_range hb3 hb4,
          itau_eq_dt_a hq hm hd⟩
    · rcases hn : monthNum (ls.map lowerChar) with _ | mn
      · rcases hd : pyToDatetime (pyStrip s.data) with _ | ⟨y0, m0⟩
        · exact .inr (itau_eq_self_b hq hm hn hd)
        · obtain ⟨hb1, hb2, hb3, hb4⟩ := pyToDatetime_some hd
          exact .inl ⟨y0, month_end m0, hb1, hb2, month_end_range hb3 hb4,
            itau_eq_dt_b hq hm hn hd⟩
      · obtain ⟨h1, h2⟩ := monthNum_range hn
        have hyy := matchMonthPrefix_some hm
        exact .inl ⟨2000 + yy, trimestre_end_map mn, by omega, by omega,
          trimestre_end_range h1 h2, itau_eq_month hq hm hn⟩
  · obtain ⟨t1, t2, hyy⟩ := matchQuarterPrefix_some hq
    exact .inl ⟨2000 + yy, mes_map tq, by omega, by omega,
      mes_map_range t1 t2, itau_eq_quarter hq⟩

theorem bradesco_idem (s : String) :
    bradesco_format_data_base (bradesco_format_data_base s) = bradesco_format_data_base s := by
  rcases hq : matchQuarterPrefix (pyStrip s.data) with _ | ⟨tq, yy⟩
  · rcases hm : matchMonthPrefix (pyStrip s.data) with _ | ⟨ls, yy⟩
    · rw [bradesco_eq_strip_a hq hm]
      have hsi : pyStrip ((String.mk (pyStrip s.data)).data) = pyStrip s.data :=
        pyStrip_idem s.data
      have hq2 : matchQuarterPrefix (pyStrip (String.mk (pyStrip s.data)).data) = none := by
        rw [hsi]
        exact hq
      have hm2 : matchMonthPrefix (pyStrip (String.mk (pyStrip s.data)).data) = none := by
        rw [hsi]
        exact hm
      rw [bradesco_eq_strip_a hq2 hm2, hsi]
    · rcases hn : monthNum (ls.map lowerChar) with _ | mn
      · rw [bradesco_eq_strip_b hq hm hn]
        have hsi : pyStrip ((String.mk (pyStrip s.data)).data) = pyStrip s.data :=
          pyStrip_idem s.data
        have hq2 : matchQuarterPrefix (pyStrip (String.mk (pyStrip s.data)).data) = none := by
          rw [hsi]
          exact hq
        have hm2 : matchMonthPrefix (pyStrip (String.mk (pyStrip s.data)).data)
            = some (ls, yy) := by
          rw [hsi]
          exact hm
        rw [bradesco_eq_strip_b hq2 hm2 hn, hsi]
      · obtain ⟨h1, h2⟩ := monthNum_range hn
        have hyy := matchMonthPrefix_some hm
        rw [bradesco_eq_month hq hm hn]
        exact bradesco_fix_canonical (by omega) (by omega) (trimestre_end_range h1 h2)
  · obtain ⟨t1, t2, hyy⟩ := matchQuarterPrefix_some hq
    rw [bradesco_eq_quarter hq]
    exact bradesco_fix_canonical (by omega) (by omega) (mes_map_range t1 t2)

theorem itau_idem (s : String) :
    itau_format_data_base (.str (itau_format_data_base (.str s)))
      = itau_format_data_base (.str s) := by
  rcases itau_shape s with ⟨y, q, hy1, hy2, hqr, heq⟩ | heq
  · rw [heq]
    exact itau_fix_canonical hy1 hy2 hqr
  · rw [heq]
    exact heq

/-- **C5 (counterexample).**  `format_data_base` of `bradesco_series.py`
does not return the original label on failure — it returns the *stripped*
label — and has no date-parsing branch, so `"31/03/2025"` does not converge
to `"2025-03-01"` there (the itau variant does convert it). -/
theorem bradesco_format_counterexample :
    bradesco_format_data_base " 31/03/2025 " = "31/03/2025"
    ∧ ¬ (bradesco_format_data_base "31/03/2025" = "2025-03-01")
    ∧ ¬ (bradesco_format_data_base " x " = " x ")
    ∧ itau_format_data_base (.str "31/03/2025") = "2025-03-01"
    ∧ itau_format_data_base (.str " x ") = " x " :=
  ⟨rfl, by decide, by decide, rfl, rfl⟩

/-- **C5 (amended).**  `format_data_base` is total in both extractors and
always returns either a canonical quarter-end date `"YYYY-MM-01"` with
month 03, 06, 09 or 12, or a fallback string: the itau variant returns the
label *unchanged* (`str(label)`), while the bradesco variant returns the
label *stripped*.  The supported forms of one calendar quarter converge —
`"1T25"`, `"Mar/25"` in both variants, and `"31/03/2025"` additionally in
the itau variant (bradesco has no date-parsing branch) — and both variants
are idempotent on their own outputs. -/
theorem format_data_base_spec :
    (∀ s : String,
        (∃ y q, 1678 ≤ y ∧ y ≤ 2261 ∧ (q = 3 ∨ q = 6 ∨ q = 9 ∨ q = 12)
          ∧ bradesco_format_data_base s = mkDate y q)
        ∨ bradesco_format_data_base s = String.mk (pyStrip s.data))
    ∧ (∀ s : String,
        (∃ y q, 1678 ≤ y ∧ y ≤ 2261 ∧ (q = 3 ∨ q = 6 ∨ q = 9 ∨ q = 12)
          ∧ itau_format_data_base (.str s) = mkDate y q)
        ∨ itau_format_data_base (.str s) = s)
    ∧ (∀ y m : Nat, 1 ≤ m → m ≤ 12 → ∃ q, (q = 3 ∨ q = 6 ∨ q = 9 ∨ q = 12)
        ∧ itau_format_data_base (.ts y m) = mkDate y q)
    ∧ (bradesco_format_data_base "1T25" = "2025-03-01"
        ∧ bradesco_format_data_base "Mar/25" = "2025-03-01"
        ∧ itau_format_data_base (.str "1T25") = "2025-03-01"
        ∧ itau_format_data_base (.str "Mar/25") = "2025-03-01"
        ∧ itau_format_data_base (.str "31/03/2025") = "2025-03-01")
    ∧ (∀ s : String, bradesco_format_data_base (bradesco_format_data_base s)
        = bradesco_format_data_base s)
    ∧ (∀ s : String, itau_format_data_base (.str (itau_format_data_base (.str s)))
        = itau_format_data_base (.str s)) := by
  refine ⟨bradesco_shape, itau_shape, ?_, ⟨rfl, rfl, rfl, rfl, rfl⟩, bradesco_idem, itau_idem⟩
  intro y m hm1 hm2
  exact ⟨month_end m, month_end_range hm1 hm2, rfl⟩

/-- Witness for C5: a native `pd.Timestamp` for May 2025 is formatted to
the canonical end-of-quarter date `"2025-06-01"`. -/
theorem format_data_base_spec_witness :
    ∃ q, (q = 3 ∨ q = 6 ∨ q = 9 ∨ q = 12)
      ∧ itau_format_data_base (.ts 2025 5) = mkDate 2025 q :=
  format_data_base_spec.2.2.1 2025 5 (by decide) (by decide)
